import Mathlib

/-!
SimpleFS: a shallow embedding of `src/fs.c` and `src/disk.c`.

The development models the block device of `disk.c` and the file system
operations of `fs.c` as pure functions with explicit state passing.

* A block is a function from byte index to byte; the `union Block` views of
  the C code (superblock, inode table, pointer array, raw data) are decoded
  from the bytes as 32-bit little-endian words.
* The device is the list of its blocks; the I/O counters of `disk.c` are not
  part of the image and are left out.
* The `FileSystem` object holds the device while mounted (`fs->disk`), the
  in-memory bitmap (`fs->free_blocks`) and the cached superblock.
* C loops are run by `forLoop`, whose body says how an iteration ends:
  falling through or `continue`, `break`, or `return`.
-/

namespace SimpleFS

/-! ## Constants -/

/-- Modelled from the spec: `BLOCK_SIZE` of `sfs/disk.h` (header not under src/), 4096 bytes. -/
def BLOCK_SIZE : Nat := 4096

/-- Modelled from the spec: `MAGIC_NUMBER` of `sfs/fs.h` (header not under src/), a 32-bit
constant; the value is the one of the SimpleFS project, no theorem depends on it. -/
def MAGIC_NUMBER : Nat := 0xf0f03410

/-- Modelled from the spec: `INODES_PER_BLOCK` of `sfs/fs.h`, `BLOCK_SIZE` divided by the
32-byte inode record. -/
def INODES_PER_BLOCK : Nat := 128

/-- Modelled from the spec: `POINTERS_PER_INODE` of `sfs/fs.h`, 5 direct pointers. -/
def POINTERS_PER_INODE : Nat := 5

/-- Modelled from the spec: `POINTERS_PER_BLOCK` of `sfs/fs.h`, `BLOCK_SIZE / 4`. -/
def POINTERS_PER_BLOCK : Nat := 1024

/-- The macro `min` of `sfs/utils.h`: `((a) < (b)) ? (a) : (b)`. -/
def cmin (a b : Nat) : Nat := if a < b then a else b

/-- Conversion of a signed value to `uint32_t`. -/
def toU32 (x : Int) : Nat := (x % 4294967296).toNat

/-! ## Bytes, buffers and the views of a block -/

/-- One byte. -/
abbrev Byte := Fin 256

/-- The byte holding `n` modulo 256. -/
def byteOfNat (n : Nat) : Byte := ⟨n % 256, Nat.mod_lt n (by decide)⟩

/-- A region of memory addressed by byte index: a user buffer or the `data` view of a block. -/
abbrev Buf := Nat → Byte

/-- Modelled from the spec: `union Block` of `sfs/fs.h`; `BLOCK_SIZE` bytes, of which the
typed views below read 32-bit little-endian words. -/
abbrev Block := Buf

/-- The block `{{0}}`. -/
def zero_block : Block := fun _ => 0

/-- The `memcpy(dst + dOff, src + sOff, n)` of the C library. -/
def memcpy (dst : Buf) (dOff : Nat) (src : Buf) (sOff : Nat) (n : Nat) : Buf :=
  fun k => if dOff ≤ k ∧ k < dOff + n then src (sOff + (k - dOff)) else dst k

/-- The 32-bit little-endian word number `k` of a block (`block.pointers[k]`). -/
def getWord (b : Block) (k : Nat) : Nat :=
  (b (4 * k)).val + 256 * (b (4 * k + 1)).val + 65536 * (b (4 * k + 2)).val
    + 16777216 * (b (4 * k + 3)).val

/-- The store `block.pointers[k] = v` of a `uint32_t`. -/
def setWord (b : Block) (k : Nat) (v : Nat) : Block :=
  fun i => if i / 4 = k then byteOfNat (v / 256 ^ (i % 4)) else b i

/-- Modelled from the spec: `struct SuperBlock` of `sfs/fs.h`, four `uint32_t` fields. -/
structure SuperBlock where
  magic_number : Nat
  blocks : Nat
  inode_blocks : Nat
  inodes : Nat
deriving DecidableEq

/-- Modelled from the spec: `struct Inode` of `sfs/fs.h`: `valid`, `size`,
`direct[POINTERS_PER_INODE]` and `indirect`, all `uint32_t`. `direct k` is 0 for
`k ≥ POINTERS_PER_INODE` in every record read from a block. -/
structure Inode where
  valid : Nat
  size : Nat
  direct : Nat → Nat
  indirect : Nat

/-- The view `block.super`. -/
def Block.super (b : Block) : SuperBlock :=
  { magic_number := getWord b 0, blocks := getWord b 1,
    inode_blocks := getWord b 2, inodes := getWord b 3 }

/-- The store of a whole superblock into the view `block.super`. -/
def Block.setSuper (b : Block) (s : SuperBlock) : Block :=
  setWord (setWord (setWord (setWord b 0 s.magic_number) 1 s.blocks) 2 s.inode_blocks) 3 s.inodes

/-- The view `block.inodes[j]`: the record of 8 words starting at word `8 * j`. -/
def Block.inodes (b : Block) (j : Nat) : Inode :=
  { valid := getWord b (8 * j), size := getWord b (8 * j + 1),
    direct := fun k => if k < POINTERS_PER_INODE then getWord b (8 * j + 2 + k) else 0,
    indirect := getWord b (8 * j + 7) }

/-- The struct assignment `block.inodes[j] = node`. -/
def Block.setInode (b : Block) (j : Nat) (node : Inode) : Block :=
  setWord (setWord (setWord (setWord (setWord (setWord (setWord (setWord b
    (8 * j) node.valid) (8 * j + 1) node.size) (8 * j + 2) (node.direct 0))
    (8 * j + 3) (node.direct 1)) (8 * j + 4) (node.direct 2)) (8 * j + 5) (node.direct 3))
    (8 * j + 6) (node.direct 4)) (8 * j + 7) node.indirect

/-- The assignment `block.inodes[j].valid = v`. -/
def Block.setInodeValid (b : Block) (j : Nat) (v : Nat) : Block := setWord b (8 * j) v

/-- The assignment `block.inodes[j].size = v`. -/
def Block.setInodeSize (b : Block) (j : Nat) (v : Nat) : Block := setWord b (8 * j + 1) v

/-- The contents given to a local `Inode` before `fs_load_save_inode` fills it; the C code
leaves it uninitialised and never reads it before a successful load. -/
def Inode.uninit : Inode := { valid := 0, size := 0, direct := fun _ => 0, indirect := 0 }

/-- The view `block.pointers[k]`. -/
def Block.pointers (b : Block) (k : Nat) : Nat := getWord b k

/-- The assignment `a[i] = v` on an array given as a function. -/
def upd {α : Type} (a : Nat → α) (i : Nat) (v : α) : Nat → α :=
  fun k => if k = i then v else a k

/-! ## Loops -/

/-- How one iteration of a loop body ends. -/
inductive Step (σ ρ : Type) where
  /-- The body falls through or executes `continue`. -/
  | next : σ → Step σ ρ
  /-- The body executes `break`. -/
  | brk : σ → Step σ ρ
  /-- The body executes `return`. -/
  | ret : ρ → Step σ ρ

/-- The loop `for (i = start; i < start + cnt; i++) body`: the final loop state when the
loop ends normally or by `break`, the returned value when the body returns. -/
def forLoop {σ ρ : Type} (body : Nat → σ → Step σ ρ) : Nat → Nat → σ → σ ⊕ ρ
  | _, 0, s => Sum.inl s
  | i, cnt + 1, s =>
    match body i s with
    | Step.next s1 => forLoop body (i + 1) cnt s1
    | Step.brk s1 => Sum.inl s1
    | Step.ret r => Sum.inr r

/-! ## The block device (`disk.c`) -/

/-- Modelled from the spec: `struct Disk` of `sfs/disk.h` together with its backing store:
the list of the blocks of the device. The descriptor and the read/write counters are left
out; the backing store is reliable, so that a transfer fails only on the sanity check. -/
structure Disk where
  data : List Block

/-- The field `disk->blocks`: the number of blocks of the backing store. -/
def Disk.blocks (d : Disk) : Nat := d.data.length

/-- The contents of block `k` of the device. -/
def Disk.get (d : Disk) (k : Nat) : Block := d.data.getD k zero_block

/-- The device with block `k` replaced. -/
def Disk.put (d : Disk) (k : Nat) (b : Block) : Disk := { data := d.data.set k b }

/-- The check `disk_sanity_check`; the data buffer is never null in `fs.c`. -/
def disk_sanity_check (disk : Option Disk) (block : Nat) : Bool :=
  match disk with
  | none => false
  | some d => if block ≥ d.blocks then false else true

/-- The transfer `disk_read`: the block read, or `none` for `DISK_FAILURE`. -/
def disk_read (disk : Option Disk) (block : Nat) : Option Block :=
  match disk with
  | none => none
  | some d => if disk_sanity_check (some d) block then some (d.get block) else none

/-- The transfer `disk_write`: the device after the write, or `none` for `DISK_FAILURE`
(the device is then unchanged). -/
def disk_write (disk : Option Disk) (block : Nat) (data : Block) : Option Disk :=
  match disk with
  | none => none
  | some d =>
    if disk_sanity_check (some d) block then some (d.put block data)
    else none

/-! ## The file system object -/

/-- Modelled from the spec: `struct FileSystem` of `sfs/fs.h`: the device it is mounted on
(`none` for a null pointer), the bitmap (`none` for a null pointer; otherwise the array of
`blocks` flags) and the cached superblock. -/
structure FileSystem where
  disk : Option Disk
  free_blocks : Option (List Bool)
  meta_data : SuperBlock

/-- The read `fs->free_blocks[i]`. -/
def FileSystem.isFree (fs : FileSystem) (i : Nat) : Bool :=
  match fs.free_blocks with
  | none => false
  | some m => m.getD i false

/-- The store `fs->free_blocks[i] = v`. A store outside the array, undefined in C, is
dropped. -/
def FileSystem.setFree (fs : FileSystem) (i : Nat) (v : Bool) : FileSystem :=
  match fs.free_blocks with
  | none => fs
  | some m => { fs with free_blocks := some (m.set i v) }

/-! ## The file system operations (`fs.c`) -/

/-- The body of the loop of `fs_format`: zero block `i`, skipping a failed write. -/
def format_body (i : Nat) (d : Disk) : Step Disk Unit :=
  match disk_write (some d) i zero_block with
  | none => Step.next d
  | some d1 => Step.next d1

/-- The function `fs_format`: whether formatting succeeded, and the device afterwards.
The counter `i` of the zeroing loop is an `int` compared with the `size_t` number of
blocks, so that it takes the values `1 .. 2^31 - 1` at most. On a device of `2^31` blocks or
more its increment overflows after block `2^31 - 1`, which C leaves undefined; the loop is
ended there, as it is when the counter wraps to a negative value, which converted to
`size_t` is not below `disk->blocks`: the blocks from `2^31` on are not written. -/
def fs_format (fs : FileSystem) (disk : Disk) : Bool × Disk :=
  if fs.disk.isSome then (false, disk)
  else
    let remainder := if disk.blocks % 10 ≠ 0 then 1 else 0
    let inode_blocks := (disk.blocks / 10 + remainder) % 4294967296
    let block := zero_block.setSuper
      { magic_number := MAGIC_NUMBER, blocks := disk.blocks % 4294967296,
        inode_blocks := inode_blocks,
        inodes := (inode_blocks * INODES_PER_BLOCK) % 4294967296 }
    match disk_write (some disk) 0 block with
    | none => (false, disk)
    | some d0 =>
      let last := if disk.blocks < 2147483648 then disk.blocks else 2147483648
      match forLoop format_body 1 (last - 1) d0 with
      | Sum.inl d => (true, d)
      | Sum.inr _ => (true, d0)

/-- The loop of `fs_init_free_block_map` over the direct pointers of a record. -/
def mark_direct (inode : Inode) (k : Nat) (h : FileSystem) : Step FileSystem Unit :=
  Step.next (h.setFree (inode.direct k) false)

/-- The loop of `fs_init_free_block_map` over the pointers of an indirect block. -/
def mark_pointers (indirect : Block) (k : Nat) (h : FileSystem) : Step FileSystem Unit :=
  Step.next (h.setFree (indirect.pointers k) false)

/-- The body of the loop of `fs_init_free_block_map` over the records `j` of an inode
block. -/
def mark_inode (block : Block) (j : Nat) (g : FileSystem) : Step FileSystem Unit :=
  if (block.inodes j).valid = 0 then Step.next g
  else
    let g1 :=
      match forLoop (mark_direct (block.inodes j)) 0 POINTERS_PER_INODE g with
      | Sum.inl h => h
      | Sum.inr _ => g
    if (block.inodes j).indirect = 0 then Step.next g1
    else
      let g2 := g1.setFree (block.inodes j).indirect false
      match disk_read g2.disk (block.inodes j).indirect with
      | none => Step.next g2
      | some indirect =>
        match forLoop (mark_pointers indirect) 0 POINTERS_PER_BLOCK g2 with
        | Sum.inl h => Step.next h
        | Sum.inr _ => Step.next g2

/-- The body of the loop of `fs_init_free_block_map` over the inode blocks `i`. -/
def mark_inode_block (i : Nat) (f : FileSystem) : Step FileSystem Unit :=
  let f1 := f.setFree i false
  match disk_read f1.disk i with
  | none => Step.next f1
  | some block =>
    match forLoop (mark_inode block) 0 INODES_PER_BLOCK f1 with
    | Sum.inl g => Step.next g
    | Sum.inr _ => Step.next f1

/-- The function `fs_init_free_block_map`: the bitmap after the walk over the inode table. -/
def fs_init_free_block_map (fs : FileSystem) : FileSystem :=
  let fs0 := fs.setFree 0 false
  match forLoop mark_inode_block 1 fs0.meta_data.inode_blocks fs0 with
  | Sum.inl f => f
  | Sum.inr _ => fs0

/-- The function `fs_mount`: whether mounting succeeded, and the file system object
afterwards. After the check of `blocks` the device has fewer than `2^32` blocks, so that
`disk_inode_blocks` fits an `int`; its product with `INODES_PER_BLOCK` is compared as
`uint32_t`. `malloc` is taken to succeed. -/
def fs_mount (fs : FileSystem) (disk : Disk) : Bool × FileSystem :=
  if fs.disk.isSome then (false, fs)
  else
    match disk_read (some disk) 0 with
    | none => (false, fs)
    | some sb =>
      if disk.blocks ≠ sb.super.blocks then (false, fs)
      else
        let remainder := if disk.blocks % 10 ≠ 0 then 1 else 0
        let disk_inode_blocks := disk.blocks / 10 + remainder
        if disk_inode_blocks ≠ sb.super.inode_blocks then (false, fs)
        else if (disk_inode_blocks * INODES_PER_BLOCK) % 4294967296 ≠ sb.super.inodes then
          (false, fs)
        else if sb.super.magic_number ≠ MAGIC_NUMBER then (false, fs)
        else
          (true, fs_init_free_block_map
            { disk := some disk, free_blocks := some (List.replicate disk.blocks true),
              meta_data := sb.super })

/-- The function `fs_unmount`. -/
def fs_unmount (fs : FileSystem) : FileSystem :=
  { fs with disk := none, free_blocks := none }

/-- The function `fs_load_save_inode`: whether it succeeded, the contents of `*node`
afterwards, and the device afterwards. Mode 0 loads, any other mode saves. -/
def fs_load_save_inode (disk : Option Disk) (inode_number : Nat) (node : Inode) (mode : Nat) :
    Bool × Inode × Option Disk :=
  let block_num := inode_number / INODES_PER_BLOCK + 1
  let offset := inode_number % INODES_PER_BLOCK
  match disk_read disk block_num with
  | none => (false, node, disk)
  | some block =>
    if mode = 0 then
      if (block.inodes offset).valid = 0 then (false, node, disk)
      else (true, block.inodes offset, disk)
    else
      match disk_write disk block_num (block.setInode offset node) with
      | none => (false, node, disk)
      | some d => (true, node, some d)

/-- The body of the inner loop of `fs_create` over the records `j` of inode block `i`. -/
def create_record (fs : FileSystem) (i : Nat) (block : Block) (j : Nat) (_ : Unit) :
    Step Unit (Int × FileSystem) :=
  if (block.inodes j).valid = 0 then
    match disk_write fs.disk i ((block.setInodeValid j 1).setInodeSize j 0) with
    | none => Step.ret (-1, fs)
    | some d =>
      Step.ret ((((i - 1) * INODES_PER_BLOCK + j : Nat) : Int), { fs with disk := some d })
  else Step.next ()

/-- The body of the outer loop of `fs_create` over the inode blocks `i`. -/
def create_block (fs : FileSystem) (i : Nat) (_ : Unit) : Step Unit (Int × FileSystem) :=
  match disk_read fs.disk i with
  | none => Step.next ()
  | some block =>
    match forLoop (create_record fs i block) 0 INODES_PER_BLOCK () with
    | Sum.inl _ => Step.next ()
    | Sum.inr r => Step.ret r

/-- The function `fs_create`: the inode number allocated or -1, and the file system
object afterwards. -/
def fs_create (fs : FileSystem) : Int × FileSystem :=
  match forLoop (create_block fs) 1 fs.meta_data.inode_blocks () with
  | Sum.inl _ => (-1, fs)
  | Sum.inr r => r

/-- The end of an iteration of the loop of `fs_remove`: write a zeroed block over
`block_pointer`, skipping a failed write. -/
def remove_zero (f : FileSystem) (block_pointer : Nat) : Step FileSystem Unit :=
  match disk_write f.disk block_pointer zero_block with
  | none => Step.next f
  | some d => Step.next { f with disk := some d }

/-- The body of the loop of `fs_remove` for logical block `i`. -/
def remove_body (inode : Inode) (indirect : Block) (i : Nat) (f : FileSystem) :
    Step FileSystem Unit :=
  if i < POINTERS_PER_INODE then
    if inode.direct i = 0 then Step.next f
    else remove_zero (f.setFree (inode.direct i) true) (inode.direct i)
  else
    if inode.indirect = 0 then Step.brk f
    else
      remove_zero (f.setFree (indirect.pointers (i - POINTERS_PER_INODE)) true)
        (indirect.pointers (i - POINTERS_PER_INODE))

/-- The function `fs_remove`: whether it succeeded, and the file system object afterwards.
The local `indirect` is read only when `inode.indirect` is nonzero. -/
def fs_remove (fs : FileSystem) (inode_number : Nat) : Bool × FileSystem :=
  match fs_load_save_inode fs.disk inode_number Inode.uninit 0 with
  | (false, _, _) => (false, fs)
  | (true, inode, _) =>
    let indirect_read : Option Block :=
      if inode.indirect ≠ 0 then disk_read fs.disk inode.indirect else some zero_block
    match indirect_read with
    | none => (false, fs)
    | some indirect =>
      let looped :=
        match forLoop (remove_body inode indirect)
            0 (POINTERS_PER_BLOCK + POINTERS_PER_INODE) fs with
        | Sum.inl f => f
        | Sum.inr _ => fs
      let fs1 := if inode.indirect ≠ 0 then looped.setFree inode.indirect true else looped
      match fs_load_save_inode fs1.disk inode_number { inode with valid := 0, size := 0 } 1 with
      | (false, _, _) => (false, fs1)
      | (true, _, d) => (true, { fs1 with disk := d })

/-- The function `fs_stat`: the size of the inode, or -1. -/
def fs_stat (fs : FileSystem) (inode_number : Nat) : Int :=
  match fs_load_save_inode fs.disk inode_number Inode.uninit 0 with
  | (false, _, _) => -1
  | (true, inode, _) => (inode.size : Int)

/-- The loop state of `fs_read`: the caller's buffer and the two counters. -/
structure ReadState where
  data : Buf
  bytes_read : Nat
  block_offset : Nat

/-- The end of an iteration of the loop of `fs_read`, from the test of the pointer on. -/
def read_copy (fs : FileSystem) (bytes_to_read : Nat) (s : ReadState) (block_pointer : Nat) :
    Step ReadState (Int × Buf) :=
  let bytes_to_copy := cmin (BLOCK_SIZE - s.block_offset) (bytes_to_read - s.bytes_read)
  if block_pointer = 0 then Step.ret (-1, s.data)
  else
    match disk_read fs.disk block_pointer with
    | none => Step.ret (-1, s.data)
    | some block =>
      let data1 := memcpy s.data s.bytes_read block s.block_offset bytes_to_copy
      let bytes_read1 := s.bytes_read + bytes_to_copy
      if bytes_read1 = bytes_to_read then Step.ret ((bytes_read1 : Int), data1)
      else Step.next { data := data1, bytes_read := bytes_read1, block_offset := 0 }

/-- The body of the loop of `fs_read` for logical block `i`. -/
def read_body (fs : FileSystem) (inode : Inode) (indirect : Block) (bytes_to_read : Nat)
    (i : Nat) (s : ReadState) : Step ReadState (Int × Buf) :=
  if i < POINTERS_PER_INODE then read_copy fs bytes_to_read s (inode.direct i)
  else
    if inode.indirect = 0 then Step.ret (-1, s.data)
    else read_copy fs bytes_to_read s (indirect.pointers (i - POINTERS_PER_INODE))

/-- The function `fs_read`: the number of bytes read or -1, and the caller's buffer
afterwards. The file system object is only read. The local `indirect` is read only when
`inode.indirect` is nonzero. Past the test of the offset `offset < inode.size < 2^32`, so
that the conversion of `start_block` to the `int` counter keeps its value. -/
def fs_read (fs : FileSystem) (inode_number : Nat) (data : Buf) (length offset : Nat) :
    Int × Buf :=
  match fs_load_save_inode fs.disk inode_number Inode.uninit 0 with
  | (false, _, _) => (-1, data)
  | (true, inode, _) =>
    if offset ≥ inode.size then (-1, data)
    else
      let bytes_to_read := cmin length (inode.size - offset)
      let start_block := offset / BLOCK_SIZE
      let indirect_read : Option Block :=
        if inode.indirect ≠ 0 then disk_read fs.disk inode.indirect else some zero_block
      match indirect_read with
      | none => (-1, data)
      | some indirect =>
        match forLoop (read_body fs inode indirect bytes_to_read)
            start_block (POINTERS_PER_BLOCK + POINTERS_PER_INODE - start_block)
            { data := data, bytes_read := 0, block_offset := offset % BLOCK_SIZE } with
        | Sum.inl s => ((s.bytes_read : Int), s.data)
        | Sum.inr r => r

/-- The body of the loop of `find_free_block`. -/
def find_body (fs : FileSystem) (i : Nat) (_ : Unit) : Step Unit (Int × FileSystem) :=
  if fs.isFree i then Step.ret ((i : Int), fs.setFree i false) else Step.next ()

/-- The function `find_free_block`: the index found or -1, and the file system object
afterwards. -/
def find_free_block (fs : FileSystem) : Int × FileSystem :=
  match forLoop (find_body fs) 0 fs.meta_data.blocks () with
  | Sum.inl _ => (-1, fs)
  | Sum.inr r => r

/-- The loop state of `fs_write`. -/
structure WriteState where
  fs : FileSystem
  inode : Inode
  indirect : Block
  bytes_written : Nat
  block_offset : Nat
  inode_changes : Bool

/-- The end of an iteration of the loop of `fs_write`, from the read of the target block
on: copy, write back, flush the indirect block when a block was allocated, count. -/
def write_copy (data : Buf) (length : Nat) (s : WriteState) (bytes_to_copy block_pointer : Nat) :
    Step WriteState (Int × FileSystem) :=
  match disk_read s.fs.disk block_pointer with
  | none => Step.ret (-1, s.fs)
  | some block =>
    match disk_write s.fs.disk block_pointer
        (memcpy block s.block_offset data s.bytes_written bytes_to_copy) with
    | none => Step.ret (-1, s.fs)
    | some d1 =>
      let fs1 := { s.fs with disk := some d1 }
      let flushed : Option FileSystem :=
        if s.inode.indirect ≠ 0 ∧ s.inode_changes = true then
          match disk_write fs1.disk s.inode.indirect s.indirect with
          | none => none
          | some d2 => some { fs1 with disk := some d2 }
        else some fs1
      match flushed with
      | none => Step.ret (-1, fs1)
      | some fs2 =>
        let s1 : WriteState :=
          { s with fs := fs2, bytes_written := s.bytes_written + bytes_to_copy,
                   block_offset := 0, inode_changes := false }
        if s1.bytes_written = length then Step.brk s1 else Step.next s1

/-- The middle of an iteration of the loop of `fs_write`: allocate a block for slot `i`
when its pointer is zero, then copy. -/
def write_slot (data : Buf) (length : Nat) (i : Nat) (s : WriteState)
    (bytes_to_copy block_pointer : Nat) : Step WriteState (Int × FileSystem) :=
  if block_pointer = 0 then
    let r := find_free_block s.fs
    let block_pointer1 := toU32 r.1
    if block_pointer1 = toU32 (-1) then Step.brk { s with fs := r.2 }
    else
      let s1 : WriteState :=
        if i < POINTERS_PER_INODE then
          { s with fs := r.2, inode := { s.inode with direct := upd s.inode.direct i block_pointer1 },
                   inode_changes := true }
        else
          { s with fs := r.2,
                   indirect := setWord s.indirect (i - POINTERS_PER_INODE) block_pointer1,
                   inode_changes := true }
      write_copy data length s1 bytes_to_copy block_pointer1
  else write_copy data length s bytes_to_copy block_pointer

/-- The body of the loop of `fs_write` for logical block `i`. -/
def write_body (data : Buf) (length : Nat) (i : Nat) (s : WriteState) :
    Step WriteState (Int × FileSystem) :=
  let bytes_to_copy := cmin (BLOCK_SIZE - s.block_offset) (length - s.bytes_written)
  if i < POINTERS_PER_INODE then write_slot data length i s bytes_to_copy (s.inode.direct i)
  else
    if s.inode.indirect = 0 then
      let r := find_free_block s.fs
      let block_pointer := toU32 r.1
      if block_pointer = toU32 (-1) then Step.brk { s with fs := r.2 }
      else
        match disk_write r.2.disk block_pointer zero_block with
        | none => Step.ret (-1, r.2)
        | some d1 =>
          let fs1 := { r.2 with disk := some d1 }
          match disk_read fs1.disk block_pointer with
          | none => Step.ret (-1, fs1)
          | some indirect =>
            write_slot data length i
              { s with fs := fs1, inode := { s.inode with indirect := block_pointer },
                       indirect := indirect }
              bytes_to_copy (indirect.pointers (i - POINTERS_PER_INODE))
    else write_slot data length i s bytes_to_copy (s.indirect.pointers (i - POINTERS_PER_INODE))

/-- The function `fs_write`: the number of bytes written or -1, and the file system object
afterwards. The loop counter `int i = start_block` keeps the low 32 bits of
`offset / BLOCK_SIZE`, read as a signed number: `start_block` below is that number when it
is not negative, that is below `2^31`. From `2^31` on the counter is negative and the loop
would index `inode.direct` below its first element, which C leaves undefined: no iteration
is run then, and the theorems about `fs_write` take a counter that is not negative. -/
def fs_write (fs : FileSystem) (inode_number : Nat) (data : Buf) (length offset : Nat) :
    Int × FileSystem :=
  match fs_load_save_inode fs.disk inode_number Inode.uninit 0 with
  | (false, _, _) => (-1, fs)
  | (true, inode, _) =>
    let start_block := (offset / BLOCK_SIZE) % 4294967296
    let indirect_read : Option Block :=
      if inode.indirect ≠ 0 then disk_read fs.disk inode.indirect else some zero_block
    match indirect_read with
    | none => (-1, fs)
    | some indirect =>
      match forLoop (write_body data length)
          start_block (POINTERS_PER_BLOCK + POINTERS_PER_INODE - start_block)
          { fs := fs, inode := inode, indirect := indirect, bytes_written := 0,
            block_offset := offset % BLOCK_SIZE, inode_changes := false } with
      | Sum.inr r => r
      | Sum.inl s =>
        let inode1 := { s.inode with size := (s.inode.size + s.bytes_written) % 4294967296 }
        match fs_load_save_inode s.fs.disk inode_number inode1 1 with
        | (false, _, _) => (-1, s.fs)
        | (true, _, d) => ((s.bytes_written : Int), { s.fs with disk := d })


/-! ## Predicates used to state the properties -/

/-- The number of entries of the bitmap marked free among the indices scanned by
`find_free_block`. -/
def freeCount (fs : FileSystem) : Nat :=
  (List.range fs.meta_data.blocks).countP fs.isFree


/-- The record of inode number `n` in the inode table of a device. -/
def inodeAt (d : Disk) (n : Nat) : Inode :=
  (d.get (n / INODES_PER_BLOCK + 1)).inodes (n % INODES_PER_BLOCK)

/-- Block `b` is a nonzero direct pointer, the indirect block, or a nonzero pointer inside
the indirect block, of inode `n`, and inode `n` is live. -/
def Refers (d : Disk) (n b : Nat) : Prop :=
  (inodeAt d n).valid ≠ 0 ∧ b ≠ 0 ∧
    ((∃ k, k < POINTERS_PER_INODE ∧ (inodeAt d n).direct k = b) ∨
     (inodeAt d n).indirect = b ∨
     ((inodeAt d n).indirect ≠ 0 ∧
       ∃ k, k < POINTERS_PER_BLOCK ∧ (d.get (inodeAt d n).indirect).pointers k = b))

/-- Block index `p` lies in the data region of the device: after the inode table and
inside the device. -/
def InDataRegion (d : Disk) (p : Nat) : Prop :=
  (d.get 0).super.inode_blocks < p ∧ p < d.blocks

/-- The layout invariant on the pointers of one record: when it is live, each of its nonzero
pointers (direct, indirect, or inside its indirect block) lies in the data region. -/
def InodeLayoutOK (d : Disk) (ino : Inode) : Prop :=
  ino.valid ≠ 0 →
    (∀ k, k < POINTERS_PER_INODE → ino.direct k ≠ 0 → InDataRegion d (ino.direct k)) ∧
    (ino.indirect ≠ 0 →
      InDataRegion d ino.indirect ∧
      ∀ k, k < POINTERS_PER_BLOCK → (d.get ino.indirect).pointers k ≠ 0 →
        InDataRegion d ((d.get ino.indirect).pointers k))

/-- The layout invariant on pointers: every nonzero pointer of a live inode of the inode
table lies in the data region. -/
def LayoutOK (d : Disk) : Prop :=
  ∀ n, n < (d.get 0).super.inode_blocks * INODES_PER_BLOCK → InodeLayoutOK d (inodeAt d n)

instance (d : Disk) (p : Nat) : Decidable (InDataRegion d p) :=
  inferInstanceAs (Decidable (_ ∧ _))

instance (d : Disk) (ino : Inode) : Decidable (InodeLayoutOK d ino) :=
  inferInstanceAs (Decidable (_ → _))

instance (d : Disk) : Decidable (LayoutOK d) :=
  inferInstanceAs (Decidable (∀ n, n < _ → _))

/-- The blocks marked by the walk of `fs_init_free_block_map` over record `j` of the inode
block `blk` of the device `d`. -/
def marksInode (d : Disk) (blk : Block) (j b : Nat) : Prop :=
  (blk.inodes j).valid ≠ 0 ∧
    ((∃ k, k < POINTERS_PER_INODE ∧ b = (blk.inodes j).direct k) ∨
     ((blk.inodes j).indirect ≠ 0 ∧
       (b = (blk.inodes j).indirect ∨
        ((blk.inodes j).indirect < d.blocks ∧
          ∃ k, k < POINTERS_PER_BLOCK ∧ b = (d.get (blk.inodes j).indirect).pointers k))))

/-- The blocks marked by the walk of `fs_init_free_block_map` over inode block `i`. -/
def marksBlock (d : Disk) (i b : Nat) : Prop :=
  b = i ∨ (i < d.blocks ∧ ∃ j, j < INODES_PER_BLOCK ∧ marksInode d (d.get i) j b)


/-- The call `fs_unmount` followed by `fs_mount` on the device the file system was
mounted on. -/
def remount (fs : FileSystem) : Bool × FileSystem :=
  match fs.disk with
  | none => (false, fs)
  | some d => fs_mount (fs_unmount fs) d

/-- The device image behind a mounted file system (an empty device when unmounted). -/
def imageOf (fs : FileSystem) : Disk :=
  match fs.disk with
  | none => { data := [] }
  | some d => d

/-! ### Concrete scenarios -/

/-- A raw device of `n` blocks whose bytes are all `0xff`. -/
def rawDevice (n : Nat) : Disk := { data := List.replicate n (fun _ => 255) }

/-- A file system object that was never mounted. -/
def unmountedFs : FileSystem :=
  { disk := none, free_blocks := none, meta_data := ⟨0, 0, 0, 0⟩ }

/-- The file system object after `fs_format` and `fs_mount` on a raw device of `n` blocks. -/
def freshFs (n : Nat) : FileSystem :=
  (fs_mount unmountedFs (fs_format unmountedFs (rawDevice n)).2).2

/-- A source buffer holding the byte `'A'` everywhere. -/
def bufA : Buf := fun _ => 65

/-- A source buffer holding the byte `'B'` everywhere. -/
def bufB : Buf := fun _ => 66

/-- A destination buffer holding zeros. -/
def bufZ : Buf := fun _ => 0

/-- Scenario R, on 10 blocks: `fs_create` (inode 0), then `fs_write` of 5 blocks and one
byte at offset 0, which allocates the indirect block and one of its entries. -/
def scenR_written : FileSystem := (fs_write (fs_create (freshFs 10)).2 0 bufA 20481 0).2

/-- Scenario R continued: `fs_remove` of inode 0. -/
def scenR_removed : FileSystem := (fs_remove scenR_written 0).2

/-- Scenario S, on 10 blocks: `fs_create` (inode 0), `fs_write` of one byte, `fs_remove`
of inode 0, `fs_create` again (inode 0 again). -/
def scenS_recreated : FileSystem :=
  (fs_create (fs_remove (fs_write (fs_create (freshFs 10)).2 0 bufA 1 0).2 0).2).2

/-- Scenario S continued: a second `fs_create` (inode 1) and one byte written to inode 1. -/
def scenS_shared : FileSystem := (fs_write (fs_create scenS_recreated).2 1 bufB 1 0).2

/-- Scenario T, on 10 blocks: two `fs_create` (inodes 0 and 1), 5 blocks and one byte
written to inode 0, `fs_remove` of inode 0, one byte written to inode 1. -/
def scenT_before : FileSystem :=
  (fs_write (fs_remove (fs_write (fs_create (fs_create (freshFs 10)).2).2
    0 bufA 20481 0).2 0).2 1 bufB 1 0).2

/-- Scenario T continued: `fs_create` (inode 0 again) followed by `fs_remove` of inode 0. -/
def scenT_after : FileSystem := (fs_remove (fs_create scenT_before).2 0).2

/-- The block holding the pointers reached through `inode.indirect`: the indirect block on
the device, or an all-zero array when the inode has none. -/
def indirectBlock (d : Disk) (ino : Inode) : Block :=
  if ino.indirect = 0 then zero_block else d.get ino.indirect

/-- The pointer of logical block `i` of an inode: `direct[i]` below `POINTERS_PER_INODE`,
else entry `i - POINTERS_PER_INODE` of the indirect block `ind`. -/
def slotPtr (ino : Inode) (ind : Block) (i : Nat) : Nat :=
  if i < POINTERS_PER_INODE then ino.direct i else ind.pointers (i - POINTERS_PER_INODE)

/-- The number of nonzero pointers of inode `n` among `direct[0..4]` and the entries of its
indirect block. -/
def nonzeroPointers (d : Disk) (n : Nat) : Nat :=
  (List.range (POINTERS_PER_INODE + POINTERS_PER_BLOCK)).countP
    (fun i => decide (slotPtr (inodeAt d n) (indirectBlock d (inodeAt d n)) i ≠ 0))

/-- The value `ceil(size / BLOCK_SIZE)`. -/
def blocksFor (size : Nat) : Nat := (size + BLOCK_SIZE - 1) / BLOCK_SIZE

/-- The pointers of an inode are well formed with respect to a bitmap: every nonzero slot
pointer lies in the data region (`lo < p < N`), differs from the indirect pointer and from
every other slot pointer, and is marked allocated; the indirect pointer, when nonzero, lies
in the data region and is marked allocated; and every block marked free lies after `lo`. -/
def TableOK (lo N : Nat) (free : Nat → Bool) (ino : Inode) (ind : Block) : Prop :=
  (∀ i, i < POINTERS_PER_BLOCK + POINTERS_PER_INODE → slotPtr ino ind i ≠ 0 →
    (lo < slotPtr ino ind i ∧ slotPtr ino ind i < N) ∧
    slotPtr ino ind i ≠ ino.indirect ∧
    free (slotPtr ino ind i) = false ∧
    ∀ j, j < POINTERS_PER_BLOCK + POINTERS_PER_INODE →
      slotPtr ino ind i = slotPtr ino ind j → i = j) ∧
  (ino.indirect ≠ 0 → (lo < ino.indirect ∧ ino.indirect < N) ∧ free ino.indirect = false) ∧
  (∀ b, b < N → free b = true → lo < b)

instance (lo N : Nat) (free : Nat → Bool) (ino : Inode) (ind : Block) :
    Decidable (TableOK lo N free ino ind) :=
  inferInstanceAs (Decidable (_ ∧ _ ∧ _))

/-- Inode `n` of a mounted file system is well formed: the device is attached and agrees
with the cached superblock on the number of blocks, the record of `n` lies in the inode
table and is live, and its pointers are well formed with respect to the bitmap, the data
region being the blocks after the inode table. -/
def InodeWF (fs : FileSystem) (n : Nat) : Prop :=
  fs.disk.isSome = true ∧
  fs.meta_data.blocks = (imageOf fs).blocks ∧
  (imageOf fs).blocks < 4294967296 ∧
  n / INODES_PER_BLOCK < fs.meta_data.inode_blocks ∧
  fs.meta_data.inode_blocks < (imageOf fs).blocks ∧
  (inodeAt (imageOf fs) n).valid ≠ 0 ∧
  TableOK fs.meta_data.inode_blocks (imageOf fs).blocks fs.isFree (inodeAt (imageOf fs) n)
    (indirectBlock (imageOf fs) (inodeAt (imageOf fs) n))

instance (fs : FileSystem) (n : Nat) : Decidable (InodeWF fs n) :=
  inferInstanceAs (Decidable (_ ∧ _ ∧ _ ∧ _ ∧ _ ∧ _ ∧ _))

/-- The number of slots `a ≤ j < b` of an inode whose pointer is zero. -/
def zeroSlots (ino : Inode) (ind : Block) (a b : Nat) : Nat :=
  (List.range b).countP (fun j => decide (a ≤ j ∧ slotPtr ino ind j = 0))

/-- The invariant of the loop of `fs_write` on inode tables: `s` is the loop state, the
iterations `start ≤ j < i` are complete and blocks were allocated only for the slots
`start ≤ j < hi`; `fs0`, `ino0`, `ind0` are the file system, the inode and its indirect
block when the loop started. -/
structure WInv (lo N L O start : Nat) (data : Buf) (fs0 : FileSystem) (ino0 : Inode)
    (ind0 : Block) (i hi : Nat) (s : WriteState) : Prop where
  disk : s.fs.disk = some (imageOf s.fs)
  blocks : (imageOf s.fs).blocks = N
  meta_eq : s.fs.meta_data = fs0.meta_data
  table : TableOK lo N s.fs.isFree s.inode s.indirect
  sync : s.inode.indirect ≠ 0 → s.inode_changes = false →
    (imageOf s.fs).get s.inode.indirect = s.indirect
  noind : s.inode.indirect = 0 → s.indirect = zero_block
  written : ∀ q, O ≤ q → q < O + s.bytes_written →
    q / BLOCK_SIZE < POINTERS_PER_BLOCK + POINTERS_PER_INODE ∧
    slotPtr s.inode s.indirect (q / BLOCK_SIZE) ≠ 0 ∧
    (imageOf s.fs).get (slotPtr s.inode s.indirect (q / BLOCK_SIZE)) (q % BLOCK_SIZE)
      = data (q - O)
  keep : ∀ j, j < POINTERS_PER_BLOCK + POINTERS_PER_INODE → slotPtr ino0 ind0 j ≠ 0 →
    slotPtr s.inode s.indirect j = slotPtr ino0 ind0 j
  keep_ind : ino0.indirect ≠ 0 → s.inode.indirect = ino0.indirect
  fresh : ∀ j, j < POINTERS_PER_BLOCK + POINTERS_PER_INODE → slotPtr s.inode s.indirect j ≠ 0 →
    slotPtr ino0 ind0 j ≠ 0 ∨
      (start ≤ j ∧ j < hi ∧ fs0.isFree (slotPtr s.inode s.indirect j) = true)
  fresh_ind : s.inode.indirect ≠ 0 →
    ino0.indirect ≠ 0 ∨ fs0.isFree s.inode.indirect = true
  done : ∀ j, start ≤ j → j < i → slotPtr s.inode s.indirect j ≠ 0
  frame : ∀ blk, blk < N → fs0.isFree blk = false → blk ≠ ino0.indirect →
    (∀ j, start ≤ j → j < POINTERS_PER_BLOCK + POINTERS_PER_INODE → slotPtr ino0 ind0 j ≠ blk) →
    (imageOf s.fs).get blk = (imageOf fs0).get blk
  frame0 : start < POINTERS_PER_BLOCK + POINTERS_PER_INODE →
    slotPtr ino0 ind0 start ≠ 0 → ∀ k, k < O % BLOCK_SIZE →
    (imageOf s.fs).get (slotPtr ino0 ind0 start) k = (imageOf fs0).get (slotPtr ino0 ind0 start) k
  fixed_valid : s.inode.valid = ino0.valid
  fixed_size : s.inode.size = ino0.size
  freemono : ∀ b, s.fs.isFree b = true → fs0.isFree b = true
  count : freeCount fs0 ≤ freeCount s.fs + zeroSlots ino0 ind0 start hi +
    (if ino0.indirect = 0 ∧ s.inode.indirect ≠ 0 then 1 else 0)
  ind_late : ino0.indirect = 0 → s.inode.indirect ≠ 0 → POINTERS_PER_INODE ≤ hi
  ind_need : ino0.indirect = 0 → s.inode.indirect ≠ 0 →
    POINTERS_PER_INODE * BLOCK_SIZE < O + L ∨ L = 0
  start_le : start ≤ i
  le_hi : i ≤ hi

/-- The loop state of `fs_write` after block `b` was allocated for slot `i`. -/
def allocSlot (i b : Nat) (s : WriteState) : WriteState :=
  if i < POINTERS_PER_INODE then
    { s with fs := s.fs.setFree b false,
             inode := { s.inode with direct := upd s.inode.direct i b },
             inode_changes := true }
  else
    { s with fs := s.fs.setFree b false,
             indirect := setWord s.indirect (i - POINTERS_PER_INODE) b,
             inode_changes := true }

/-- The loop state of `fs_write` after block `b` was allocated as the indirect block,
zeroed on the device and read back. -/
def allocIndirect (b : Nat) (s : WriteState) : WriteState :=
  { s with fs := { s.fs.setFree b false with
                   disk := some ((imageOf (s.fs.setFree b false)).put b zero_block) },
           inode := { s.inode with indirect := b },
           indirect := zero_block }

/-- The device after the copy step of an iteration of `fs_write`: `bytes_to_copy` bytes of
`data` copied into block `p`, then the indirect block flushed when a block was allocated. -/
def copiedDisk (data : Buf) (s : WriteState) (bytes_to_copy p : Nat) : Disk :=
  if s.inode.indirect ≠ 0 ∧ s.inode_changes = true then
    ((imageOf s.fs).put p
      (memcpy ((imageOf s.fs).get p) s.block_offset data s.bytes_written bytes_to_copy)).put
      s.inode.indirect s.indirect
  else
    (imageOf s.fs).put p
      (memcpy ((imageOf s.fs).get p) s.block_offset data s.bytes_written bytes_to_copy)

/-- The loop state of `fs_write` after the copy step of an iteration. -/
def copied (data : Buf) (s : WriteState) (bytes_to_copy p : Nat) : WriteState :=
  { s with fs := { s.fs with disk := some (copiedDisk data s bytes_to_copy p) },
           bytes_written := s.bytes_written + bytes_to_copy,
           block_offset := 0,
           inode_changes := false }

/-- The loop of `fs_write` is at the head of iteration `i`: the position in the file agrees
with the counters, at most one of the counters is nonzero, and no flush is pending. -/
structure WPos (L O i : Nat) (s : WriteState) : Prop where
  pos : O + s.bytes_written = i * BLOCK_SIZE + s.block_offset
  bolt : s.block_offset < BLOCK_SIZE
  bo : s.bytes_written = 0 ∨ s.block_offset = 0
  le : s.bytes_written ≤ L
  lt : 0 < L → s.bytes_written < L
  clean : s.inode_changes = false

/-- The pointer of logical block `j` of inode `n` on the device of a file system. -/
def slotOf (fs : FileSystem) (n j : Nat) : Nat :=
  slotPtr (inodeAt (imageOf fs) n) (indirectBlock (imageOf fs) (inodeAt (imageOf fs) n)) j

/-- The state in which the loop of `fs_write` on inode `n` at offset `O` starts. -/
def writeStart (fs : FileSystem) (n O : Nat) : WriteState :=
  { fs := fs, inode := inodeAt (imageOf fs) n,
    indirect := indirectBlock (imageOf fs) (inodeAt (imageOf fs) n),
    bytes_written := 0, block_offset := O % BLOCK_SIZE, inode_changes := false }

/-- The device after `fs_write` has stored the inode of the final loop state `s`. -/
def savedDisk (n : Nat) (s : WriteState) : Disk :=
  (imageOf s.fs).put (n / INODES_PER_BLOCK + 1)
    (((imageOf s.fs).get (n / INODES_PER_BLOCK + 1)).setInode (n % INODES_PER_BLOCK)
      { s.inode with size := (s.inode.size + s.bytes_written) % 4294967296 })

/-- What a call `fs_write(n, data, L, O)` that returns `k` on a well-formed inode leaves
behind: `fs1` is the file system afterwards. The inode is still well formed, its size grew
by `k`, the `k` bytes are stored in its blocks, its earlier pointers and the bytes before
`O` are kept, and blocks were allocated exactly for the slots `O / BLOCK_SIZE ≤ j < i1`
that had none. -/
structure WriteResult (fs : FileSystem) (n : Nat) (data : Buf) (L O k : Nat)
    (fs1 : FileSystem) : Prop where
  wf : InodeWF fs1 n
  blocks_eq : (imageOf fs1).blocks = (imageOf fs).blocks
  meta_eq : fs1.meta_data = fs.meta_data
  valid_eq : (inodeAt (imageOf fs1) n).valid = (inodeAt (imageOf fs) n).valid
  size_eq : (inodeAt (imageOf fs1) n).size =
    ((inodeAt (imageOf fs) n).size + k) % 4294967296
  written : ∀ q, O ≤ q → q < O + k →
    q / BLOCK_SIZE < POINTERS_PER_BLOCK + POINTERS_PER_INODE ∧
    slotOf fs1 n (q / BLOCK_SIZE) ≠ 0 ∧
    (imageOf fs1).get (slotOf fs1 n (q / BLOCK_SIZE)) (q % BLOCK_SIZE) = data (q - O)
  keep : ∀ j, j < POINTERS_PER_BLOCK + POINTERS_PER_INODE → slotOf fs n j ≠ 0 →
    slotOf fs1 n j = slotOf fs n j
  old : ∀ q, q < O → q / BLOCK_SIZE < POINTERS_PER_BLOCK + POINTERS_PER_INODE →
    slotOf fs n (q / BLOCK_SIZE) ≠ 0 →
    (imageOf fs1).get (slotOf fs n (q / BLOCK_SIZE)) (q % BLOCK_SIZE) =
      (imageOf fs).get (slotOf fs n (q / BLOCK_SIZE)) (q % BLOCK_SIZE)
  freemono : ∀ b, fs1.isFree b = true → fs.isFree b = true
  frame : ∀ blk, blk < (imageOf fs).blocks → fs.isFree blk = false →
    blk ≠ n / INODES_PER_BLOCK + 1 → blk ≠ (inodeAt (imageOf fs) n).indirect →
    (∀ j, j < POINTERS_PER_BLOCK + POINTERS_PER_INODE → slotOf fs n j ≠ blk) →
    (imageOf fs1).get blk = (imageOf fs).get blk
  others : ∀ m, m ≠ n → m / INODES_PER_BLOCK < fs.meta_data.inode_blocks →
    inodeAt (imageOf fs1) m = inodeAt (imageOf fs) m
  fresh : ∀ j, j < POINTERS_PER_BLOCK + POINTERS_PER_INODE → slotOf fs1 n j ≠ 0 →
    slotOf fs n j ≠ 0 ∨ fs.isFree (slotOf fs1 n j) = true
  keep_ind : (inodeAt (imageOf fs) n).indirect ≠ 0 →
    (inodeAt (imageOf fs1) n).indirect = (inodeAt (imageOf fs) n).indirect
  fresh_ind : (inodeAt (imageOf fs1) n).indirect ≠ 0 →
    (inodeAt (imageOf fs) n).indirect ≠ 0 ∨ fs.isFree (inodeAt (imageOf fs1) n).indirect = true
  reach : ∃ i1, O / BLOCK_SIZE ≤ i1 ∧
    (∀ j, j < POINTERS_PER_BLOCK + POINTERS_PER_INODE →
      (slotOf fs1 n j ≠ 0 ↔ (slotOf fs n j ≠ 0 ∨ (O / BLOCK_SIZE ≤ j ∧ j < i1)))) ∧
    (0 < L → ∀ j, O / BLOCK_SIZE ≤ j → j < i1 → j * BLOCK_SIZE < O + k) ∧
    (O + k ≤ i1 * BLOCK_SIZE ∨ (i1 = O / BLOCK_SIZE ∧ k = 0)) ∧
    (k = L ∨ (i1 * BLOCK_SIZE ≤ O + k ∧
      (((∀ t, t < (imageOf fs).blocks → fs1.isFree t = false) ∧ slotOf fs1 n i1 = 0) ∨
        POINTERS_PER_BLOCK + POINTERS_PER_INODE ≤ i1))) ∧
    freeCount fs ≤ freeCount fs1 +
      zeroSlots (inodeAt (imageOf fs) n)
        (indirectBlock (imageOf fs) (inodeAt (imageOf fs) n)) (O / BLOCK_SIZE) i1 +
      (if (inodeAt (imageOf fs) n).indirect = 0 ∧ (inodeAt (imageOf fs1) n).indirect ≠ 0
        then 1 else 0) ∧
    ((inodeAt (imageOf fs) n).indirect = 0 → (inodeAt (imageOf fs1) n).indirect ≠ 0 →
      POINTERS_PER_INODE ≤ i1 ∧ (POINTERS_PER_INODE * BLOCK_SIZE < O + L ∨ L = 0)) ∧
    (L = 0 → i1 ≤ O / BLOCK_SIZE + 1)

/-- A source buffer holding `"hello"`, then zeros. -/
def bufHello : Buf := fun k => ([104, 101, 108, 108, 111] : List Byte).getD k 0

/-- The file system object after `fs_format`, `fs_mount` and one `fs_create` on a raw
device of `n` blocks: inode 0 is live, with size 0. -/
def createdFs (n : Nat) : FileSystem := (fs_create (freshFs n)).2

/-- The nonzero pointers of inode `n` are exactly its first `ceil(size / BLOCK_SIZE)`
slots, and the size is within the addressable range. -/
def FileShape (fs : FileSystem) (n : Nat) : Prop :=
  (inodeAt (imageOf fs) n).size ≤ (POINTERS_PER_BLOCK + POINTERS_PER_INODE) * BLOCK_SIZE ∧
  ∀ j, j < POINTERS_PER_BLOCK + POINTERS_PER_INODE →
    (slotOf fs n j ≠ 0 ↔ j < blocksFor (inodeAt (imageOf fs) n).size)

instance (fs : FileSystem) (n : Nat) : Decidable (FileShape fs n) :=
  inferInstanceAs (Decidable (_ ∧ _))

/-- A record without pointers: `indirect` and every `direct[k]` are 0. -/
def NoPointers (ino : Inode) : Prop :=
  ino.indirect = 0 ∧ ∀ k, k < POINTERS_PER_INODE → ino.direct k = 0

instance (ino : Inode) : Decidable (NoPointers ino) :=
  inferInstanceAs (Decidable (_ ∧ _))

/-- A mounted file system without files, as `fs_format` and `fs_mount` leave it: the device
is attached and agrees with the cached superblock, the inode table is shorter than the
device, only blocks after the inode table are marked free, and every record of the inode
table is unused and without pointers. -/
def Blank (fs : FileSystem) : Prop :=
  fs.disk.isSome = true ∧
  fs.meta_data.blocks = (imageOf fs).blocks ∧
  (imageOf fs).blocks < 4294967296 ∧
  fs.meta_data.inode_blocks < (imageOf fs).blocks ∧
  (∀ b, b < (imageOf fs).blocks → fs.isFree b = true → fs.meta_data.inode_blocks < b) ∧
  ∀ n, n < fs.meta_data.inode_blocks * INODES_PER_BLOCK →
    (inodeAt (imageOf fs) n).valid = 0 ∧ NoPointers (inodeAt (imageOf fs) n)

instance (fs : FileSystem) : Decidable (Blank fs) :=
  inferInstanceAs (Decidable (_ ∧ _ ∧ _ ∧ _ ∧ _ ∧ _))

/-- The consistency of a mounted file system that creations and appends maintain: the
geometry of `Blank`; every live inode of the table is well formed and has its nonzero
pointers in exactly its first `ceil(size / BLOCK_SIZE)` slots; every unused record is
without pointers; and the indirect block of a live inode is neither the indirect block
nor a data block of another live inode. -/
structure FsOK (fs : FileSystem) : Prop where
  disk : fs.disk.isSome = true
  blocks : fs.meta_data.blocks = (imageOf fs).blocks
  small : (imageOf fs).blocks < 4294967296
  table_lt : fs.meta_data.inode_blocks < (imageOf fs).blocks
  free_region : ∀ b, b < (imageOf fs).blocks → fs.isFree b = true →
    fs.meta_data.inode_blocks < b
  live : ∀ n, n / INODES_PER_BLOCK < fs.meta_data.inode_blocks →
    (inodeAt (imageOf fs) n).valid ≠ 0 → InodeWF fs n ∧ FileShape fs n
  dead : ∀ n, n / INODES_PER_BLOCK < fs.meta_data.inode_blocks →
    (inodeAt (imageOf fs) n).valid = 0 → NoPointers (inodeAt (imageOf fs) n)
  apart : ∀ n m, n / INODES_PER_BLOCK < fs.meta_data.inode_blocks →
    m / INODES_PER_BLOCK < fs.meta_data.inode_blocks → n ≠ m →
    (inodeAt (imageOf fs) n).valid ≠ 0 → (inodeAt (imageOf fs) m).valid ≠ 0 →
    (inodeAt (imageOf fs) m).indirect ≠ 0 →
    (inodeAt (imageOf fs) n).indirect ≠ (inodeAt (imageOf fs) m).indirect ∧
    ∀ j, j < POINTERS_PER_BLOCK + POINTERS_PER_INODE →
      slotOf fs n j ≠ (inodeAt (imageOf fs) m).indirect

/-- A call on a mounted file system: `fs_create`, or an append, that is an `fs_write` of
`length` bytes of `data` to an inode at the offset given by its current size. -/
inductive Op where
  /-- The call `fs_create(fs)`. -/
  | create : Op
  /-- The call `fs_write(fs, inode_number, data, length, size)`, `size` being the current
  size of the inode. -/
  | append (inode_number : Nat) (data : Buf) (length : Nat) : Op

/-- The file system after one call. -/
def Op.run (fs : FileSystem) : Op → FileSystem
  | Op.create => (fs_create fs).2
  | Op.append n data length =>
    (fs_write fs n data length (inodeAt (imageOf fs) n).size).2

/-- The file system after a sequence of calls, in order. -/
def runOps (fs : FileSystem) : List Op → FileSystem
  | [] => fs
  | op :: ops => runOps (op.run fs) ops

/-- The calls covered: an append writes at least one byte, to an inode number of the inode
table of `inode_blocks` blocks. -/
def Op.admissible (inode_blocks : Nat) : Op → Prop
  | Op.create => True
  | Op.append n _ length => 0 < length ∧ n / INODES_PER_BLOCK < inode_blocks

/-- A file system object whose device, if any, has no inode table block: at most one
block. -/
def Tableless (fs : FileSystem) : Prop := (imageOf fs).blocks ≤ 1

instance (fs : FileSystem) : Decidable (Tableless fs) :=
  inferInstanceAs (Decidable (_ ≤ _))

/-- A source buffer holding the byte 1 first, then zeros. -/
def bufOne : Buf := fun k => if k = 0 then 1 else 0

/-- Scenario U, on 10 blocks (128 inodes): `fs_create` (inode 0) and one byte of value 1
written to inode 0, which lands in data block 2. -/
def scenU : FileSystem := (fs_write (createdFs 10) 0 bufOne 1 0).2

/-- Scenario V, on 10 blocks: `fs_create` (inode 0), then two writes of one block each,
both at offset 0: the size is 8192 while only logical slot 0 has a block. -/
def scenV : FileSystem :=
  (fs_write (fs_write (createdFs 10) 0 bufA 4096 0).2 0 bufB 4096 0).2

/-- Scenario W: the image of `createdFs 10` with the size field of inode 0 set to
`2^32 - 1`, mounted. -/
def scenW : FileSystem :=
  (fs_mount unmountedFs ((imageOf (createdFs 10)).put 1
    (((imageOf (createdFs 10)).get 1).setInodeSize 0 4294967295))).2

/-- A raw device of `n` blocks after `fs_format`. -/
def formatted (n : Nat) : Disk := (fs_format unmountedFs (rawDevice n)).2

/-- A live record of size 0 without pointers. -/
def emptyRecord : Inode := { valid := 1, size := 0, direct := fun _ => 0, indirect := 0 }

/-- Scenario H, on 10 blocks: `fs_create` (inode 0) and `"hello"` written to it. -/
def scenH : FileSystem := (fs_write (createdFs 10) 0 bufHello 5 0).2

/-- A source buffer holding the byte 65 at index 20480, the first byte after 5 blocks, and
zeros elsewhere. -/
def bufMark : Buf := fun k => if k = 20480 then 65 else 0

/-- Scenario Y, on 10 blocks, continuing scenario R after the `fs_remove` of inode 0:
`fs_create` (inode 0 again, its record still holding `indirect = 7`), `fs_create`
(inode 1), and 5 blocks and 4 bytes of `bufMark` written to inode 1, whose sixth data block
is block 7: entry 0 of block 7 reads 65. -/
def scenY : FileSystem :=
  (fs_write (fs_create (fs_create scenR_removed).2).2 1 bufMark 20484 0).2

/-- Scenario Y continued: two writes of 3 blocks each to inode 0, both at offset 0: its size
is 24576, its first 5 slots hold its old direct pointers and slot 5 holds 65. -/
def scenY_grown : FileSystem :=
  (fs_write (fs_write scenY 0 bufA 12288 0).2 0 bufA 12288 0).2

/-! ## Words, blocks and the device -/


theorem getWord_lt (b : Block) (k : Nat) : getWord b k < 4294967296 := by
  unfold getWord
  omega

theorem byteOfNat_val (n : Nat) : (byteOfNat n).val = n % 256 := rfl

theorem getWord_setWord_same (b : Block) (k v : Nat) :
    getWord (setWord b k v) k = v % 4294967296 := by
  have h0 : (4 * k) / 4 = k := by omega
  have h1 : (4 * k + 1) / 4 = k := by omega
  have h2 : (4 * k + 2) / 4 = k := by omega
  have h3 : (4 * k + 3) / 4 = k := by omega
  have m0 : (4 * k) % 4 = 0 := by omega
  have m1 : (4 * k + 1) % 4 = 1 := by omega
  have m2 : (4 * k + 2) % 4 = 2 := by omega
  have m3 : (4 * k + 3) % 4 = 3 := by omega
  simp only [getWord, setWord, h0, h1, h2, h3, m0, m1, m2, m3, if_true, byteOfNat_val]
  norm_num
  omega

theorem getWord_setWord_ne (b : Block) (k j v : Nat) (h : j ≠ k) :
    getWord (setWord b k v) j = getWord b j := by
  have h0 : (4 * j) / 4 ≠ k := by omega
  have h1 : (4 * j + 1) / 4 ≠ k := by omega
  have h2 : (4 * j + 2) / 4 ≠ k := by omega
  have h3 : (4 * j + 3) / 4 ≠ k := by omega
  simp only [getWord, setWord, h0, h1, h2, h3, if_false]

theorem getWord_setWord (b : Block) (k j v : Nat) :
    getWord (setWord b k v) j = if j = k then v % 4294967296 else getWord b j := by
  by_cases h : j = k
  · subst h
    simp only [if_true]
    exact getWord_setWord_same b j v
  · simp only [h, if_false]
    exact getWord_setWord_ne b k j v h

theorem inodes_setInode_valid (b : Block) (j : Nat) (node : Inode) :
    ((b.setInode j node).inodes j).valid = node.valid % 4294967296 := by
  simp [Block.inodes, Block.setInode, getWord_setWord]

theorem inodes_setInode_size (b : Block) (j : Nat) (node : Inode) :
    ((b.setInode j node).inodes j).size = node.size % 4294967296 := by
  simp [Block.inodes, Block.setInode, getWord_setWord]

theorem inodes_setInode_indirect (b : Block) (j : Nat) (node : Inode) :
    ((b.setInode j node).inodes j).indirect = node.indirect % 4294967296 := by
  simp [Block.inodes, Block.setInode, getWord_setWord]

theorem inodes_setInode_direct (b : Block) (j : Nat) (node : Inode) (k : Nat)
    (hk : k < POINTERS_PER_INODE) :
    ((b.setInode j node).inodes j).direct k = node.direct k % 4294967296 := by
  unfold POINTERS_PER_INODE at hk
  have hk5 : k = 0 ∨ k = 1 ∨ k = 2 ∨ k = 3 ∨ k = 4 := by omega
  rcases hk5 with h | h | h | h | h <;> subst h <;>
    simp [Block.inodes, Block.setInode, getWord_setWord, POINTERS_PER_INODE]

theorem inodes_setInode_other (b : Block) (j i : Nat) (node : Inode) (h : i ≠ j) :
    (b.setInode j node).inodes i = b.inodes i := by
  have e : ∀ w, 8 * i ≤ w → w < 8 * i + 8 →
      getWord (b.setInode j node) w = getWord b w := by
    intro w h1 h2
    unfold Block.setInode
    rw [getWord_setWord_ne _ _ _ _ (by omega), getWord_setWord_ne _ _ _ _ (by omega),
      getWord_setWord_ne _ _ _ _ (by omega), getWord_setWord_ne _ _ _ _ (by omega),
      getWord_setWord_ne _ _ _ _ (by omega), getWord_setWord_ne _ _ _ _ (by omega),
      getWord_setWord_ne _ _ _ _ (by omega), getWord_setWord_ne _ _ _ _ (by omega)]
  unfold Block.inodes
  rw [e _ (by omega) (by omega), e _ (by omega) (by omega), e _ (by omega) (by omega)]
  congr 1
  funext k
  by_cases hk : k < POINTERS_PER_INODE
  · simp only [hk, if_true]
    unfold POINTERS_PER_INODE at hk
    exact e _ (by omega) (by omega)
  · simp only [hk, if_false]

theorem getWord_zero_block (k : Nat) : getWord zero_block k = 0 := by
  simp [getWord, zero_block]

theorem Disk.blocks_put (d : Disk) (k : Nat) (blk : Block) : (d.put k blk).blocks = d.blocks := by
  simp [Disk.put, Disk.blocks]

theorem Disk.get_put (d : Disk) (k j : Nat) (blk : Block) :
    (d.put k blk).get j = if j = k ∧ k < d.blocks then blk else d.get j := by
  unfold Disk.put Disk.get Disk.blocks
  simp only [List.getD_eq_getElem?_getD, List.getElem?_set]
  by_cases hjk : k = j
  · subst hjk
    by_cases hk : k < d.data.length
    · simp [hk]
    · have : d.data[k]? = none := List.getElem?_eq_none (by omega)
      simp [hk, this]
  · have : ¬ j = k := fun h => hjk h.symm
    simp [hjk, this]

theorem Disk.get_put_same (d : Disk) (k : Nat) (blk : Block) (hk : k < d.blocks) :
    (d.put k blk).get k = blk := by
  rw [Disk.get_put]
  simp [hk]

theorem Disk.get_put_ne (d : Disk) (k j : Nat) (blk : Block) (h : j ≠ k) :
    (d.put k blk).get j = d.get j := by
  rw [Disk.get_put]
  simp [h]

theorem disk_read_some (d : Disk) (k : Nat) :
    disk_read (some d) k = if k < d.blocks then some (d.get k) else none := by
  simp only [disk_read, disk_sanity_check]
  by_cases h : k < d.blocks
  · simp [h, Nat.not_le.mpr h]
  · simp [h, Nat.not_lt.mp h]

theorem disk_write_some (d : Disk) (k : Nat) (blk : Block) :
    disk_write (some d) k blk = if k < d.blocks then some (d.put k blk) else none := by
  simp only [disk_write, disk_sanity_check]
  by_cases h : k < d.blocks
  · simp [h, Nat.not_le.mpr h]
  · simp [h, Nat.not_lt.mp h]

/-! ## The allocator -/


theorem forLoop_search_none {ρ : Type} (p : Nat → Bool) (r : Nat → ρ) :
    ∀ (cnt i : Nat), (∀ t, i ≤ t → t < i + cnt → p t = false) →
      forLoop (fun t (_ : Unit) => if p t then (Step.ret (r t) : Step Unit ρ) else Step.next ())
        i cnt () = Sum.inl () := by
  intro cnt
  induction cnt with
  | zero => intro i _; rfl
  | succ c ih =>
    intro i h
    have hi : p i = false := h i (Nat.le_refl i) (by omega)
    simp only [forLoop, hi]
    exact ih (i + 1) (fun t h1 h2 => h t (by omega) (by omega))

theorem forLoop_search_some {ρ : Type} (p : Nat → Bool) (r : Nat → ρ) :
    ∀ (cnt i t : Nat), i ≤ t → t < i + cnt → p t = true → (∀ u, i ≤ u → u < t → p u = false) →
      forLoop (fun t (_ : Unit) => if p t then (Step.ret (r t) : Step Unit ρ) else Step.next ())
        i cnt () = Sum.inr (r t) := by
  intro cnt
  induction cnt with
  | zero => intro i t h1 h2; omega
  | succ c ih =>
    intro i t h1 h2 hp hlt
    by_cases hit : i = t
    · subst hit
      simp [forLoop, hp]
    · have hi : p i = false := hlt i (Nat.le_refl i) (by omega)
      simp only [forLoop, hi]
      exact ih (i + 1) t (by omega) (by omega) hp (fun u h3 h4 => hlt u (by omega) h4)

theorem find_free_block_none (fs : FileSystem)
    (h : ∀ t, t < fs.meta_data.blocks → fs.isFree t = false) :
    find_free_block fs = (-1, fs) := by
  unfold find_free_block
  show (match forLoop (fun t (_ : Unit) => if fs.isFree t then
      (Step.ret ((t : Int), fs.setFree t false) : Step Unit (Int × FileSystem))
      else Step.next ()) 0 fs.meta_data.blocks () with
    | Sum.inl _ => (-1, fs)
    | Sum.inr r => r) = _
  rw [forLoop_search_none fs.isFree (fun i => ((i : Int), fs.setFree i false))
    fs.meta_data.blocks 0 (fun t _ h2 => h t (by omega))]

theorem find_free_block_some (fs : FileSystem) (t : Nat) (ht : t < fs.meta_data.blocks)
    (hp : fs.isFree t = true) (hlt : ∀ u, u < t → fs.isFree u = false) :
    find_free_block fs = ((t : Int), fs.setFree t false) := by
  unfold find_free_block
  show (match forLoop (fun t (_ : Unit) => if fs.isFree t then
      (Step.ret ((t : Int), fs.setFree t false) : Step Unit (Int × FileSystem))
      else Step.next ()) 0 fs.meta_data.blocks () with
    | Sum.inl _ => (-1, fs)
    | Sum.inr r => r) = _
  rw [forLoop_search_some fs.isFree (fun i => ((i : Int), fs.setFree i false))
    fs.meta_data.blocks 0 t (Nat.zero_le t) (by omega) hp (fun u _ h2 => hlt u h2)]

/-- Either no scanned entry is free and the search fails, or it returns the least free index. -/
theorem find_free_block_cases (fs : FileSystem) :
    ((∀ t, t < fs.meta_data.blocks → fs.isFree t = false) ∧ find_free_block fs = (-1, fs)) ∨
    (∃ t, t < fs.meta_data.blocks ∧ fs.isFree t = true ∧ (∀ u, u < t → fs.isFree u = false) ∧
      find_free_block fs = ((t : Int), fs.setFree t false)) := by
  by_cases h : ∃ t, t < fs.meta_data.blocks ∧ fs.isFree t = true
  · right
    classical
    refine ⟨Nat.find h, (Nat.find_spec h).1, (Nat.find_spec h).2, ?_, ?_⟩
    · intro u hu
      have := Nat.find_min h hu
      have hu2 : u < fs.meta_data.blocks := lt_trans hu (Nat.find_spec h).1
      cases hf : fs.isFree u with
      | false => rfl
      | true => exact absurd ⟨hu2, hf⟩ this
    · apply find_free_block_some _ _ (Nat.find_spec h).1 (Nat.find_spec h).2
      intro u hu
      have := Nat.find_min h hu
      have hu2 : u < fs.meta_data.blocks := lt_trans hu (Nat.find_spec h).1
      cases hf : fs.isFree u with
      | false => rfl
      | true => exact absurd ⟨hu2, hf⟩ this
  · left
    have h2 : ∀ t, t < fs.meta_data.blocks → fs.isFree t = false := by
      intro t ht
      cases hf : fs.isFree t with
      | false => rfl
      | true => exact absurd ⟨t, ht, hf⟩ h
    exact ⟨h2, find_free_block_none fs h2⟩

theorem isFree_setFree (fs : FileSystem) (i b : Nat) (v : Bool) :
    (fs.setFree i v).isFree b = if b = i then (v && fs.isFree i || fs.isFree i && v
      || (v && decide (∃ m, fs.free_blocks = some m ∧ i < m.length))) else fs.isFree b := by
  unfold FileSystem.setFree FileSystem.isFree
  cases h : fs.free_blocks with
  | none => simp [h]
  | some m =>
    simp only [List.getD_eq_getElem?_getD, List.getElem?_set]
    by_cases hbi : i = b
    · subst hbi
      by_cases hi : i < m.length
      · cases v <;> simp [hi]
      · have : m[i]? = none := List.getElem?_eq_none (by omega)
        cases v <;> simp [hi, this]
    · have : ¬ b = i := fun h => hbi h.symm
      simp [hbi, this]

theorem isFree_setFree_ne (fs : FileSystem) (i b : Nat) (v : Bool) (h : b ≠ i) :
    (fs.setFree i v).isFree b = fs.isFree b := by
  rw [isFree_setFree]
  simp [h]

theorem isFree_setFree_false_same (fs : FileSystem) (i : Nat) :
    (fs.setFree i false).isFree i = false := by
  rw [isFree_setFree]
  simp

theorem countP_upd_false (p : Nat → Bool) (t : Nat) (hp : p t = true) :
    ∀ n, t < n → (List.range n).countP (upd p t false) + 1 = (List.range n).countP p := by
  intro n
  induction n with
  | zero => intro h; omega
  | succ m ih =>
    intro h
    rw [List.range_succ, List.countP_append, List.countP_append]
    by_cases htm : t = m
    · subst htm
      have hsame : (List.range t).countP (upd p t false) = (List.range t).countP p := by
        apply List.countP_congr
        intro x hx
        have : x ≠ t := by
          have := List.mem_range.mp hx
          omega
        simp [upd, this]
      simp [hsame, upd, hp]
    · have := ih (by omega)
      have hm : upd p t false m = p m := by
        have : m ≠ t := fun h => htm h.symm
        simp [upd, this]
      simp only [List.countP_cons, List.countP_nil, hm]
      omega

theorem countP_zero_of_forall (p : Nat → Bool) (n : Nat) (h : ∀ t, t < n → p t = false) :
    (List.range n).countP p = 0 := by
  rw [List.countP_eq_zero]
  intro x hx
  simp [h x (List.mem_range.mp hx)]


/-! ## The bitmap built by `fs_mount` -/

theorem forLoop_marks (D : Option Disk) (M : Nat → Nat → Prop)
    (body : Nat → FileSystem → Step FileSystem Unit)
    (hstep : ∀ t s, s.disk = D → ∃ s1, body t s = Step.next s1 ∧ s1.disk = D ∧
      ∀ b, (s1.isFree b = true ↔ s.isFree b = true ∧ ¬ M t b)) :
    ∀ cnt i s, s.disk = D → ∃ s1, forLoop body i cnt s = Sum.inl s1 ∧ s1.disk = D ∧
      ∀ b, (s1.isFree b = true ↔ s.isFree b = true ∧ ∀ t, i ≤ t → t < i + cnt → ¬ M t b) := by
  intro cnt
  induction cnt with
  | zero =>
    intro i s hs
    refine ⟨s, rfl, hs, fun b => ⟨fun h => ⟨h, fun t h1 h2 => by omega⟩, fun h => h.1⟩⟩
  | succ c ih =>
    intro i s hs
    obtain ⟨s1, hb, hd, hm⟩ := hstep i s hs
    obtain ⟨s2, hl, hd2, hm2⟩ := ih (i + 1) s1 hd
    refine ⟨s2, ?_, hd2, ?_⟩
    · simp only [forLoop, hb]
      exact hl
    · intro b
      rw [hm2 b, hm b]
      constructor
      · rintro ⟨⟨h1, h2⟩, h3⟩
        refine ⟨h1, fun t ht1 ht2 => ?_⟩
        by_cases hti : t = i
        · subst hti; exact h2
        · exact h3 t (by omega) (by omega)
      · rintro ⟨h1, h2⟩
        exact ⟨⟨h1, h2 i (Nat.le_refl i) (by omega)⟩, fun t ht1 ht2 => h2 t (by omega) (by omega)⟩

theorem setFree_disk (fs : FileSystem) (i : Nat) (v : Bool) :
    (fs.setFree i v).disk = fs.disk := by
  unfold FileSystem.setFree
  cases fs.free_blocks <;> rfl

theorem setFree_meta (fs : FileSystem) (i : Nat) (v : Bool) :
    (fs.setFree i v).meta_data = fs.meta_data := by
  unfold FileSystem.setFree
  cases fs.free_blocks <;> rfl

theorem isFree_setFree_false (fs : FileSystem) (i b : Nat) :
    ((fs.setFree i false).isFree b = true ↔ fs.isFree b = true ∧ ¬ b = i) := by
  by_cases h : b = i
  · subst h
    simp [isFree_setFree_false_same]
  · rw [isFree_setFree_ne _ _ _ _ h]
    simp [h]

theorem mark_inode_spec (d : Disk) (blk : Block) (j : Nat) (g : FileSystem)
    (hg : g.disk = some d) :
    ∃ s1, mark_inode blk j g = Step.next s1 ∧ s1.disk = some d ∧
      ∀ b, (s1.isFree b = true ↔ g.isFree b = true ∧ ¬ marksInode d blk j b) := by
  unfold mark_inode
  by_cases hv : (blk.inodes j).valid = 0
  · refine ⟨g, by simp only [hv, if_true], hg, fun b => ?_⟩
    unfold marksInode
    simp [hv]
  · simp only [hv, if_false]
    obtain ⟨g1, hl1, hd1, hm1⟩ := forLoop_marks (some d)
      (fun k b => b = (blk.inodes j).direct k) (mark_direct (blk.inodes j))
      (fun t s hs => ⟨_, rfl, (setFree_disk s _ _).trans hs, fun b => isFree_setFree_false s _ b⟩)
      POINTERS_PER_INODE 0 g hg
    rw [hl1]
    dsimp only
    by_cases hind : (blk.inodes j).indirect = 0
    · refine ⟨g1, by simp only [hind, if_true], hd1, fun b => ?_⟩
      rw [hm1 b]
      unfold marksInode
      simp only [hind, ne_eq, not_true_eq_false, false_and, or_false]
      constructor
      · rintro ⟨h1, h2⟩
        refine ⟨h1, ?_⟩
        rintro ⟨_, k, hk, hb⟩
        exact h2 k (Nat.zero_le k) (by omega) hb
      · rintro ⟨h1, h2⟩
        exact ⟨h1, fun k _ hk hb => h2 ⟨hv, k, by omega, hb⟩⟩
    · simp only [hind, if_false, setFree_disk, hd1, disk_read_some]
      by_cases hlt : (blk.inodes j).indirect < d.blocks
      · simp only [hlt, if_true]
        obtain ⟨g3, hl3, hd3, hm3⟩ := forLoop_marks (some d)
          (fun k b => b = (d.get (blk.inodes j).indirect).pointers k)
          (mark_pointers (d.get (blk.inodes j).indirect))
          (fun t s hs => ⟨_, rfl, (setFree_disk s _ _).trans hs, fun b => isFree_setFree_false s _ b⟩)
          POINTERS_PER_BLOCK 0 (g1.setFree (blk.inodes j).indirect false)
          ((setFree_disk _ _ _).trans hd1)
        rw [hl3]
        refine ⟨g3, rfl, hd3, fun b => ?_⟩
        rw [hm3 b, isFree_setFree_false, hm1 b]
        unfold marksInode
        constructor
        · rintro ⟨⟨⟨h1, h2⟩, h3⟩, h4⟩
          refine ⟨h1, ?_⟩
          rintro ⟨_, (⟨k, hk, hb⟩ | ⟨_, (hb | ⟨_, k, hk, hb⟩)⟩)⟩
          · exact h2 k (Nat.zero_le k) (by omega) hb
          · exact h3 hb
          · exact h4 k (Nat.zero_le k) (by omega) hb
        · rintro ⟨h1, h2⟩
          refine ⟨⟨⟨h1, fun k _ hk hb => h2 ⟨hv, Or.inl ⟨k, by omega, hb⟩⟩⟩,
            fun hb => h2 ⟨hv, Or.inr ⟨hind, Or.inl hb⟩⟩⟩,
            fun k _ hk hb => h2 ⟨hv, Or.inr ⟨hind, Or.inr ⟨hlt, k, by omega, hb⟩⟩⟩⟩
      · simp only [hlt, if_false]
        refine ⟨_, rfl, (setFree_disk _ _ _).trans hd1, fun b => ?_⟩
        rw [isFree_setFree_false, hm1 b]
        unfold marksInode
        constructor
        · rintro ⟨⟨h1, h2⟩, h3⟩
          refine ⟨h1, ?_⟩
          rintro ⟨_, (⟨k, hk, hb⟩ | ⟨_, (hb | ⟨h5, _⟩)⟩)⟩
          · exact h2 k (Nat.zero_le k) (by omega) hb
          · exact h3 hb
          · exact hlt h5
        · rintro ⟨h1, h2⟩
          exact ⟨⟨h1, fun k _ hk hb => h2 ⟨hv, Or.inl ⟨k, by omega, hb⟩⟩⟩,
            fun hb => h2 ⟨hv, Or.inr ⟨hind, Or.inl hb⟩⟩⟩

theorem mark_inode_block_spec (d : Disk) (i : Nat) (f : FileSystem) (hf : f.disk = some d) :
    ∃ s1, mark_inode_block i f = Step.next s1 ∧ s1.disk = some d ∧
      ∀ b, (s1.isFree b = true ↔ f.isFree b = true ∧ ¬ marksBlock d i b) := by
  unfold mark_inode_block
  simp only [setFree_disk, hf, disk_read_some]
  by_cases hi : i < d.blocks
  · simp only [hi, if_true]
    obtain ⟨s1, hl, hd1, hm⟩ := forLoop_marks (some d) (marksInode d (d.get i))
      (mark_inode (d.get i)) (fun t s hs => mark_inode_spec d (d.get i) t s hs)
      INODES_PER_BLOCK 0 (f.setFree i false) ((setFree_disk _ _ _).trans hf)
    refine ⟨s1, by rw [hl], hd1, fun b => ?_⟩
    rw [hm b, isFree_setFree_false]
    unfold marksBlock
    constructor
    · rintro ⟨⟨h1, h2⟩, h3⟩
      refine ⟨h1, ?_⟩
      rintro (h4 | ⟨_, j, hj, h5⟩)
      · exact h2 h4
      · exact h3 j (Nat.zero_le j) (by omega) h5
    · rintro ⟨h1, h2⟩
      exact ⟨⟨h1, fun h => h2 (Or.inl h)⟩,
        fun j _ hj h5 => h2 (Or.inr ⟨hi, j, by omega, h5⟩)⟩
  · simp only [hi, if_false]
    refine ⟨_, rfl, (setFree_disk _ _ _).trans hf, fun b => ?_⟩
    rw [isFree_setFree_false]
    unfold marksBlock
    constructor
    · rintro ⟨h1, h2⟩
      refine ⟨h1, ?_⟩
      rintro (h3 | ⟨h3, _⟩)
      · exact h2 h3
      · exact hi h3
    · rintro ⟨h1, h2⟩
      exact ⟨h1, fun h => h2 (Or.inl h)⟩

theorem fs_init_free_block_map_spec (fs : FileSystem) (d : Disk) (hd : fs.disk = some d) :
    (fs_init_free_block_map fs).disk = some d ∧
    ∀ b, ((fs_init_free_block_map fs).isFree b = true ↔
      fs.isFree b = true ∧ b ≠ 0 ∧
        ∀ i, 1 ≤ i → i < 1 + fs.meta_data.inode_blocks → ¬ marksBlock d i b) := by
  unfold fs_init_free_block_map
  obtain ⟨s1, hl, hd1, hm⟩ := forLoop_marks (some d) (marksBlock d) mark_inode_block
    (fun t s hs => mark_inode_block_spec d t s hs)
    fs.meta_data.inode_blocks 1 (fs.setFree 0 false) ((setFree_disk _ _ _).trans hd)
  simp only [setFree_meta]
  rw [hl]
  refine ⟨hd1, fun b => ?_⟩
  rw [hm b, isFree_setFree_false]
  tauto

/-! ## Loading and saving inode records -/

theorem fs_load_inode_ok (d : Disk) (n : Nat) (node : Inode)
    (hib : n / INODES_PER_BLOCK + 1 < d.blocks) (hvalid : (inodeAt d n).valid ≠ 0) :
    fs_load_save_inode (some d) n node 0 = (true, inodeAt d n, some d) := by
  unfold fs_load_save_inode
  simp only [disk_read_some, hib, if_true]
  unfold inodeAt at hvalid
  simp only [hvalid, if_false, if_true]
  rfl

theorem fs_save_inode_ok (d : Disk) (n : Nat) (node : Inode)
    (hib : n / INODES_PER_BLOCK + 1 < d.blocks) :
    fs_load_save_inode (some d) n node 1 =
      (true, node, some (d.put (n / INODES_PER_BLOCK + 1)
        ((d.get (n / INODES_PER_BLOCK + 1)).setInode (n % INODES_PER_BLOCK) node))) := by
  unfold fs_load_save_inode
  simp only [disk_read_some, disk_write_some, hib, if_true]
  simp

/-! ## Reading -/

theorem cmin_le_left (a b : Nat) : cmin a b ≤ a := by
  unfold cmin
  split_ifs <;> omega

theorem cmin_le_right (a b : Nat) : cmin a b ≤ b := by
  unfold cmin
  split_ifs <;> omega

theorem cmin_eq (a b : Nat) : cmin a b = min a b := by
  unfold cmin
  split_ifs <;> omega

theorem memcpy_in (dst src : Buf) (dOff sOff n k : Nat) (h1 : dOff ≤ k) (h2 : k < dOff + n) :
    memcpy dst dOff src sOff n k = src (sOff + (k - dOff)) := by
  unfold memcpy
  simp [h1, h2]

theorem memcpy_out (dst src : Buf) (dOff sOff n k : Nat) (h : k < dOff ∨ dOff + n ≤ k) :
    memcpy dst dOff src sOff n k = dst k := by
  unfold memcpy
  have : ¬ (dOff ≤ k ∧ k < dOff + n) := by omega
  simp [this]

/-- The loop of `fs_read`, started at logical block `i` with `bytes_read` bytes copied, on a
file whose slots are all allocated up to the end of the range: it returns the number of
bytes to read, with the bytes of the range in the buffer. -/
theorem read_loop_ok (fs : FileSystem) (d : Disk) (hdisk : fs.disk = some d) (ino : Inode)
    (ind : Block) (btr O : Nat) (out0 : Buf)
    (hslots : ∀ j, j * BLOCK_SIZE < O + btr ∨ j = O / BLOCK_SIZE →
      slotPtr ino ind j ≠ 0 ∧ slotPtr ino ind j < d.blocks ∧
      (POINTERS_PER_INODE ≤ j → ino.indirect ≠ 0))
    (hfit : O + btr ≤ (POINTERS_PER_BLOCK + POINTERS_PER_INODE) * BLOCK_SIZE)
    (hO : O < (POINTERS_PER_BLOCK + POINTERS_PER_INODE) * BLOCK_SIZE) :
    ∀ (cnt i : Nat) (s : ReadState), i + cnt = POINTERS_PER_BLOCK + POINTERS_PER_INODE →
      O + s.bytes_read = i * BLOCK_SIZE + s.block_offset → s.block_offset < BLOCK_SIZE →
      (s.bytes_read < btr ∨ (btr = 0 ∧ s.bytes_read = 0 ∧ i = O / BLOCK_SIZE)) →
      (∀ k, k < s.bytes_read →
        s.data k = d.get (slotPtr ino ind ((O + k) / BLOCK_SIZE)) ((O + k) % BLOCK_SIZE)) →
      (∀ k, s.bytes_read ≤ k → s.data k = out0 k) →
      ∃ r, forLoop (read_body fs ino ind btr) i cnt s = Sum.inr ((btr : Int), r) ∧
        (∀ k, k < btr →
          r k = d.get (slotPtr ino ind ((O + k) / BLOCK_SIZE)) ((O + k) % BLOCK_SIZE)) ∧
        (∀ k, btr ≤ k → r k = out0 k) := by
  intro cnt
  induction cnt with
  | zero =>
    intro i s hi hpos hbo hlt _ _
    exfalso
    simp only [POINTERS_PER_BLOCK, POINTERS_PER_INODE, BLOCK_SIZE] at *
    omega
  | succ c ih =>
    intro i s hi hpos hbo hlt hdata hrest
    have hsl := hslots i (by
      simp only [POINTERS_PER_BLOCK, POINTERS_PER_INODE, BLOCK_SIZE] at *
      omega)
    obtain ⟨hnz, hltN, hindnz⟩ := hsl
    have hbody : read_body fs ino ind btr i s =
        read_copy fs btr s (slotPtr ino ind i) := by
      unfold read_body slotPtr
      by_cases h5 : i < POINTERS_PER_INODE
      · simp only [h5, if_true]
      · simp only [h5, if_false, hindnz (Nat.le_of_not_lt h5)]
    have hcopy : read_copy fs btr s (slotPtr ino ind i) =
        (if s.bytes_read + cmin (BLOCK_SIZE - s.block_offset) (btr - s.bytes_read) = btr then
          Step.ret (((s.bytes_read + cmin (BLOCK_SIZE - s.block_offset) (btr - s.bytes_read)
            : Nat) : Int),
            memcpy s.data s.bytes_read (d.get (slotPtr ino ind i)) s.block_offset
              (cmin (BLOCK_SIZE - s.block_offset) (btr - s.bytes_read)))
        else Step.next
          { data := memcpy s.data s.bytes_read (d.get (slotPtr ino ind i)) s.block_offset
              (cmin (BLOCK_SIZE - s.block_offset) (btr - s.bytes_read)),
            bytes_read := s.bytes_read + cmin (BLOCK_SIZE - s.block_offset) (btr - s.bytes_read),
            block_offset := 0 }) := by
      unfold read_copy
      simp only [hnz, if_false, hdisk, disk_read_some, hltN, if_true]
    have hnew : ∀ k, k < s.bytes_read + cmin (BLOCK_SIZE - s.block_offset) (btr - s.bytes_read) →
        memcpy s.data s.bytes_read (d.get (slotPtr ino ind i)) s.block_offset
              (cmin (BLOCK_SIZE - s.block_offset) (btr - s.bytes_read)) k =
          d.get (slotPtr ino ind ((O + k) / BLOCK_SIZE)) ((O + k) % BLOCK_SIZE) := by
      intro k hk
      by_cases hkb : k < s.bytes_read
      · rw [memcpy_out _ _ _ _ _ _ (Or.inl hkb)]
        exact hdata k hkb
      · rw [memcpy_in _ _ _ _ _ _ (by omega) hk]
        have hle := cmin_le_left (BLOCK_SIZE - s.block_offset) (btr - s.bytes_read)
        have e1 : (O + k) / BLOCK_SIZE = i := by
          simp only [BLOCK_SIZE] at *
          omega
        have e2 : (O + k) % BLOCK_SIZE = s.block_offset + (k - s.bytes_read) := by
          simp only [BLOCK_SIZE] at *
          omega
        rw [e1, e2]
    have hold : ∀ k, s.bytes_read + cmin (BLOCK_SIZE - s.block_offset) (btr - s.bytes_read) ≤ k →
        memcpy s.data s.bytes_read (d.get (slotPtr ino ind i)) s.block_offset
              (cmin (BLOCK_SIZE - s.block_offset) (btr - s.bytes_read)) k = out0 k := by
      intro k hk
      rw [memcpy_out _ _ _ _ _ _ (Or.inr hk)]
      exact hrest k (by omega)
    simp only [forLoop, hbody, hcopy]
    by_cases hfin : s.bytes_read + cmin (BLOCK_SIZE - s.block_offset) (btr - s.bytes_read) = btr
    · simp only [hfin, if_true]
      refine ⟨_, rfl, fun k hk => ?_, fun k hk => ?_⟩
      · exact hnew k (by omega)
      · exact hold k (by omega)
    · simp only [hfin, if_false]
      have hle1 := cmin_le_left (BLOCK_SIZE - s.block_offset) (btr - s.bytes_read)
      have hle2 := cmin_le_right (BLOCK_SIZE - s.block_offset) (btr - s.bytes_read)
      have hceq : cmin (BLOCK_SIZE - s.block_offset) (btr - s.bytes_read)
          = BLOCK_SIZE - s.block_offset := by
        unfold cmin at hfin ⊢
        split_ifs at hfin ⊢ with hc
        · rfl
        · exfalso
          rcases hlt with h | ⟨h1, h2, _⟩
          · omega
          · omega
      apply ih (i + 1)
      · omega
      · show O + (s.bytes_read + cmin (BLOCK_SIZE - s.block_offset) (btr - s.bytes_read))
          = (i + 1) * BLOCK_SIZE + 0
        rw [hceq]
        simp only [BLOCK_SIZE] at *
        omega
      · show 0 < BLOCK_SIZE
        simp only [BLOCK_SIZE]
        omega
      · left
        show s.bytes_read + cmin (BLOCK_SIZE - s.block_offset) (btr - s.bytes_read) < btr
        rcases hlt with h | ⟨h1, h2, _⟩
        · omega
        · omega
      · exact hnew
      · exact hold

theorem slotPtr_indirect_ne_zero (d : Disk) (ino : Inode) (j : Nat)
    (hj : POINTERS_PER_INODE ≤ j) (h : slotPtr ino (indirectBlock d ino) j ≠ 0) :
    ino.indirect ≠ 0 := by
  intro h0
  apply h
  unfold slotPtr indirectBlock
  have : ¬ j < POINTERS_PER_INODE := by omega
  simp only [this, if_false, h0, if_true]
  exact getWord_zero_block _

/-- The function `fs_read` on a live inode whose slots are allocated up to its size, at an
offset below the size: it returns `min(length, size - offset)` and copies the bytes of the
logical stream, leaving the rest of the buffer. -/
theorem fs_read_ok (fs : FileSystem) (d : Disk) (n : Nat) (out : Buf) (L O : Nat)
    (hdisk : fs.disk = some d)
    (hib : n / INODES_PER_BLOCK + 1 < d.blocks)
    (hvalid : (inodeAt d n).valid ≠ 0)
    (hO : O < (inodeAt d n).size)
    (hsize : (inodeAt d n).size ≤ (POINTERS_PER_BLOCK + POINTERS_PER_INODE) * BLOCK_SIZE)
    (hind : (inodeAt d n).indirect ≠ 0 → (inodeAt d n).indirect < d.blocks)
    (hslots : ∀ j, j * BLOCK_SIZE < (inodeAt d n).size →
      slotPtr (inodeAt d n) (indirectBlock d (inodeAt d n)) j ≠ 0 ∧
      slotPtr (inodeAt d n) (indirectBlock d (inodeAt d n)) j < d.blocks) :
    (fs_read fs n out L O).1 = ((cmin L ((inodeAt d n).size - O) : Nat) : Int) ∧
    (∀ k, k < cmin L ((inodeAt d n).size - O) →
      (fs_read fs n out L O).2 k =
        d.get (slotPtr (inodeAt d n) (indirectBlock d (inodeAt d n)) ((O + k) / BLOCK_SIZE))
          ((O + k) % BLOCK_SIZE)) ∧
    (∀ k, cmin L ((inodeAt d n).size - O) ≤ k → (fs_read fs n out L O).2 k = out k) := by
  have hle := cmin_le_right L ((inodeAt d n).size - O)
  have hindread : (if (inodeAt d n).indirect ≠ 0 then disk_read (some d) (inodeAt d n).indirect
      else some zero_block) = some (indirectBlock d (inodeAt d n)) := by
    unfold indirectBlock
    by_cases h0 : (inodeAt d n).indirect = 0
    · simp [h0]
    · simp [h0, disk_read_some, hind h0]
  obtain ⟨r, hloop, hr1, hr2⟩ := read_loop_ok fs d hdisk (inodeAt d n)
    (indirectBlock d (inodeAt d n)) (cmin L ((inodeAt d n).size - O)) O out
    (by
      intro j hj
      have hjs : j * BLOCK_SIZE < (inodeAt d n).size := by
        simp only [BLOCK_SIZE] at *
        omega
      obtain ⟨h1, h2⟩ := hslots j hjs
      exact ⟨h1, h2, fun h5 => slotPtr_indirect_ne_zero d _ j h5 h1⟩)
    (by omega) (by omega)
    (POINTERS_PER_BLOCK + POINTERS_PER_INODE - O / BLOCK_SIZE) (O / BLOCK_SIZE)
    { data := out, bytes_read := 0, block_offset := O % BLOCK_SIZE }
    (by
      simp only [POINTERS_PER_BLOCK, POINTERS_PER_INODE, BLOCK_SIZE] at *
      omega)
    (by
      show O + 0 = O / BLOCK_SIZE * BLOCK_SIZE + O % BLOCK_SIZE
      simp only [BLOCK_SIZE]
      omega)
    (by
      show O % BLOCK_SIZE < BLOCK_SIZE
      simp only [BLOCK_SIZE]
      omega)
    (by
      show 0 < cmin L ((inodeAt d n).size - O) ∨ _
      by_cases h : 0 < cmin L ((inodeAt d n).size - O)
      · exact Or.inl h
      · exact Or.inr ⟨by omega, rfl, rfl⟩)
    (by intro k hk; exact absurd hk (Nat.not_lt_zero k))
    (by intro k _; rfl)
  have hres : fs_read fs n out L O = (((cmin L ((inodeAt d n).size - O) : Nat) : Int), r) := by
    unfold fs_read
    rw [hdisk, fs_load_inode_ok d n _ hib hvalid]
    simp only [ge_iff_le, Nat.not_le.mpr hO, if_false, hindread, hloop]
  rw [hres]
  exact ⟨rfl, hr1, hr2⟩

/-! ## Writing: pointer tables -/

theorem slotPtr_upd_direct (ino : Inode) (ind : Block) (i b j : Nat)
    (hi : i < POINTERS_PER_INODE) :
    slotPtr { ino with direct := upd ino.direct i b } ind j =
      if j = i then b else slotPtr ino ind j := by
  unfold slotPtr upd
  by_cases hj : j < POINTERS_PER_INODE
  · simp only [hj, if_true]
  · have : ¬ j = i := by omega
    simp only [hj, if_false, this]

theorem slotPtr_setWord (ino : Inode) (ind : Block) (i b j : Nat)
    (hi : POINTERS_PER_INODE ≤ i) (hb : b < 4294967296) :
    slotPtr ino (setWord ind (i - POINTERS_PER_INODE) b) j =
      if j = i then b else slotPtr ino ind j := by
  unfold slotPtr Block.pointers
  by_cases hj : j < POINTERS_PER_INODE
  · have : ¬ j = i := by omega
    simp only [hj, if_true, this, if_false]
  · simp only [hj, if_false]
    by_cases hji : j = i
    · subst hji
      simp only [if_true]
      rw [getWord_setWord_same]
      omega
    · simp only [hji, if_false]
      apply getWord_setWord_ne
      omega

theorem TableOK.region {lo N : Nat} {free : Nat → Bool} {ino : Inode} {ind : Block}
    (h : TableOK lo N free ino ind) (i : Nat)
    (hi : i < POINTERS_PER_BLOCK + POINTERS_PER_INODE) (hnz : slotPtr ino ind i ≠ 0) :
    lo < slotPtr ino ind i ∧ slotPtr ino ind i < N := (h.1 i hi hnz).1

theorem TableOK.ne_ind {lo N : Nat} {free : Nat → Bool} {ino : Inode} {ind : Block}
    (h : TableOK lo N free ino ind) (i : Nat)
    (hi : i < POINTERS_PER_BLOCK + POINTERS_PER_INODE) (hnz : slotPtr ino ind i ≠ 0) :
    slotPtr ino ind i ≠ ino.indirect := (h.1 i hi hnz).2.1

theorem TableOK.used {lo N : Nat} {free : Nat → Bool} {ino : Inode} {ind : Block}
    (h : TableOK lo N free ino ind) (i : Nat)
    (hi : i < POINTERS_PER_BLOCK + POINTERS_PER_INODE) (hnz : slotPtr ino ind i ≠ 0) :
    free (slotPtr ino ind i) = false := (h.1 i hi hnz).2.2.1

theorem TableOK.inj {lo N : Nat} {free : Nat → Bool} {ino : Inode} {ind : Block}
    (h : TableOK lo N free ino ind) (i : Nat)
    (hi : i < POINTERS_PER_BLOCK + POINTERS_PER_INODE) (hnz : slotPtr ino ind i ≠ 0)
    (j : Nat) (hj : j < POINTERS_PER_BLOCK + POINTERS_PER_INODE)
    (he : slotPtr ino ind i = slotPtr ino ind j) : i = j := (h.1 i hi hnz).2.2.2 j hj he

theorem TableOK.ind_region {lo N : Nat} {free : Nat → Bool} {ino : Inode} {ind : Block}
    (h : TableOK lo N free ino ind) (hnz : ino.indirect ≠ 0) :
    lo < ino.indirect ∧ ino.indirect < N := (h.2.1 hnz).1

theorem TableOK.ind_used {lo N : Nat} {free : Nat → Bool} {ino : Inode} {ind : Block}
    (h : TableOK lo N free ino ind) (hnz : ino.indirect ≠ 0) :
    free ino.indirect = false := (h.2.1 hnz).2

theorem TableOK.free_region {lo N : Nat} {free : Nat → Bool} {ino : Inode} {ind : Block}
    (h : TableOK lo N free ino ind) (b : Nat) (hb : b < N) (hf : free b = true) :
    lo < b := h.2.2 b hb hf

/-- Allocating a free block `b` for the empty slot `i` keeps the table well formed. -/
theorem TableOK.alloc_slot {lo N : Nat} {free free1 : Nat → Bool} {ino ino1 : Inode}
    {ind ind1 : Block} (h : TableOK lo N free ino ind) (i b : Nat)
    (hbN : b < N) (hbf : free b = true)
    (hslot : ∀ j, slotPtr ino1 ind1 j = if j = i then b else slotPtr ino ind j)
    (hind : ino1.indirect = ino.indirect)
    (hfree : ∀ x, free1 x = if x = b then false else free x) :
    TableOK lo N free1 ino1 ind1 := by
  have hb0 : b ≠ 0 := by
    have := h.free_region b hbN hbf
    omega
  have hbslot : ∀ j, j < POINTERS_PER_BLOCK + POINTERS_PER_INODE → slotPtr ino ind j ≠ b := by
    intro j hj he
    have hnz : slotPtr ino ind j ≠ 0 := by rw [he]; exact hb0
    have := h.used j hj hnz
    rw [he, hbf] at this
    exact Bool.noConfusion this
  refine ⟨fun j hj hnz => ?_, fun hnz => ?_, fun x hx hf => ?_⟩
  · rw [hslot j] at hnz ⊢
    by_cases hji : j = i
    · simp only [hji, if_true] at hnz ⊢
      refine ⟨⟨h.free_region b hbN hbf, hbN⟩, ?_, ?_, fun k hk he => ?_⟩
      · rw [hind]
        intro he
        have hnzi : ino.indirect ≠ 0 := by rw [← he]; exact hb0
        have := h.ind_used hnzi
        rw [← he, hbf] at this
        exact Bool.noConfusion this
      · rw [hfree b]
        simp
      · rw [hslot k] at he
        by_cases hki : k = i
        · exact hki.symm
        · simp only [hki, if_false] at he
          exact absurd he.symm (hbslot k hk)
    · simp only [hji, if_false] at hnz ⊢
      refine ⟨h.region j hj hnz, ?_, ?_, fun k hk he => ?_⟩
      · rw [hind]
        exact h.ne_ind j hj hnz
      · rw [hfree]
        have : slotPtr ino ind j ≠ b := hbslot j hj
        simp only [this, if_false]
        exact h.used j hj hnz
      · rw [hslot k] at he
        by_cases hki : k = i
        · simp only [hki, if_true] at he
          exact absurd he (hbslot j hj)
        · simp only [hki, if_false] at he
          exact h.inj j hj hnz k hk he
  · rw [hind] at hnz ⊢
    refine ⟨h.ind_region hnz, ?_⟩
    rw [hfree]
    split_ifs
    · rfl
    · exact h.ind_used hnz
  · rw [hfree] at hf
    by_cases hxb : x = b
    · simp [hxb] at hf
    · simp only [hxb, if_false] at hf
      exact h.free_region x hx hf

/-- Allocating a free block `b` as the indirect block of an inode that has none keeps the
table well formed. -/
theorem TableOK.alloc_ind {lo N : Nat} {free free1 : Nat → Bool} {ino ino1 : Inode}
    {ind ind1 : Block} (h : TableOK lo N free ino ind) (b : Nat)
    (hbN : b < N) (hbf : free b = true)
    (hslot : ∀ j, slotPtr ino1 ind1 j = slotPtr ino ind j)
    (hind : ino1.indirect = b)
    (hfree : ∀ x, free1 x = if x = b then false else free x) :
    TableOK lo N free1 ino1 ind1 := by
  have hb0 : b ≠ 0 := by
    have := h.free_region b hbN hbf
    omega
  have hbslot : ∀ j, j < POINTERS_PER_BLOCK + POINTERS_PER_INODE → slotPtr ino ind j ≠ b := by
    intro j hj he
    have hnz : slotPtr ino ind j ≠ 0 := by rw [he]; exact hb0
    have := h.used j hj hnz
    rw [he, hbf] at this
    exact Bool.noConfusion this
  refine ⟨fun j hj hnz => ?_, fun hnz => ?_, fun x hx hf => ?_⟩
  · rw [hslot j] at hnz ⊢
    refine ⟨h.region j hj hnz, ?_, ?_, fun k hk he => ?_⟩
    · rw [hind]
      exact hbslot j hj
    · rw [hfree]
      have : slotPtr ino ind j ≠ b := hbslot j hj
      simp only [this, if_false]
      exact h.used j hj hnz
    · rw [hslot k] at he
      exact h.inj j hj hnz k hk he
  · rw [hind]
    refine ⟨⟨h.free_region b hbN hbf, hbN⟩, ?_⟩
    rw [hfree]
    simp
  · rw [hfree] at hf
    by_cases hxb : x = b
    · simp [hxb] at hf
    · simp only [hxb, if_false] at hf
      exact h.free_region x hx hf

/-! ## Writing: the bitmap and the image -/

theorem isFree_setFree_false_eq (fs : FileSystem) (b x : Nat) :
    (fs.setFree b false).isFree x = if x = b then false else fs.isFree x := by
  by_cases h : x = b
  · subst h
    simp [isFree_setFree_false_same]
  · simp [h, isFree_setFree_ne _ _ _ _ h]

theorem imageOf_setFree (fs : FileSystem) (b : Nat) (v : Bool) :
    imageOf (fs.setFree b v) = imageOf fs := by
  unfold imageOf
  rw [setFree_disk]

theorem imageOf_of_disk (fs : FileSystem) (d : Disk) (h : fs.disk = some d) : imageOf fs = d := by
  unfold imageOf
  rw [h]

theorem disk_of_isSome (fs : FileSystem) (h : fs.disk.isSome = true) :
    fs.disk = some (imageOf fs) := by
  unfold imageOf
  cases hd : fs.disk with
  | none => rw [hd] at h; exact absurd h (by simp)
  | some d => rfl

theorem freeCount_setFree (fs : FileSystem) (b : Nat) (hb : b < fs.meta_data.blocks)
    (hf : fs.isFree b = true) :
    freeCount (fs.setFree b false) + 1 = freeCount fs := by
  unfold freeCount
  rw [setFree_meta]
  have hfun : (fs.setFree b false).isFree = upd fs.isFree b false := by
    funext x
    rw [isFree_setFree_false_eq]
    rfl
  rw [hfun]
  exact countP_upd_false fs.isFree b hf _ hb

theorem freeCount_eq_zero (fs : FileSystem)
    (h : ∀ t, t < fs.meta_data.blocks → fs.isFree t = false) : freeCount fs = 0 :=
  countP_zero_of_forall _ _ h

theorem toU32_natCast (b : Nat) (hb : b < 4294967296) : toU32 (b : Int) = b := by
  unfold toU32
  omega

theorem toU32_neg_one : toU32 (-1) = 4294967295 := by
  unfold toU32
  omega

theorem zeroSlots_succ (ino : Inode) (ind : Block) (a b : Nat) :
    zeroSlots ino ind a (b + 1) =
      zeroSlots ino ind a b + (if a ≤ b ∧ slotPtr ino ind b = 0 then 1 else 0) := by
  unfold zeroSlots
  rw [List.range_succ, List.countP_append]
  by_cases h : a ≤ b ∧ slotPtr ino ind b = 0
  · simp [h]
  · simp [h]

theorem zeroSlots_mono (ino : Inode) (ind : Block) (a b : Nat) :
    zeroSlots ino ind a b ≤ zeroSlots ino ind a (b + 1) := by
  rw [zeroSlots_succ]
  omega

theorem zeroSlots_le (ino : Inode) (ind : Block) (a : Nat) :
    ∀ b, zeroSlots ino ind a b ≤ b - a := by
  intro b
  induction b with
  | zero => simp [zeroSlots]
  | succ c ih =>
    rw [zeroSlots_succ]
    split_ifs with h
    · omega
    · omega

/-- When the first slot of the range holds a pointer, the zero slots of the range are at
most its length minus one. -/
theorem zeroSlots_lt (ino : Inode) (ind : Block) (a : Nat) (ha : slotPtr ino ind a ≠ 0) :
    ∀ b, a < b → zeroSlots ino ind a b + 1 ≤ b - a := by
  intro b
  induction b with
  | zero => intro h; omega
  | succ c ih =>
    intro h
    rw [zeroSlots_succ]
    by_cases hac : a = c
    · subst hac
      have h0 := zeroSlots_le ino ind a a
      simp only [ha, and_false, if_false]
      omega
    · have := ih (by omega)
      split_ifs with h1
      · omega
      · omega

theorem zeroSlots_mono_le (ino : Inode) (ind : Block) (a b : Nat) :
    ∀ c, b ≤ c → zeroSlots ino ind a b ≤ zeroSlots ino ind a c := by
  intro c
  induction c with
  | zero =>
    intro h
    have : b = 0 := by omega
    rw [this]
  | succ k ih =>
    intro h
    by_cases hb : b = k + 1
    · rw [hb]
    · have := ih (by omega)
      have := zeroSlots_mono ino ind a k
      omega

theorem allocSlot_fs (i b : Nat) (s : WriteState) :
    (allocSlot i b s).fs = s.fs.setFree b false := by
  unfold allocSlot
  split_ifs <;> rfl

theorem allocSlot_bytes (i b : Nat) (s : WriteState) :
    (allocSlot i b s).bytes_written = s.bytes_written := by
  unfold allocSlot
  split_ifs <;> rfl

theorem allocSlot_offset (i b : Nat) (s : WriteState) :
    (allocSlot i b s).block_offset = s.block_offset := by
  unfold allocSlot
  split_ifs <;> rfl

theorem allocSlot_changes (i b : Nat) (s : WriteState) :
    (allocSlot i b s).inode_changes = true := by
  unfold allocSlot
  split_ifs <;> rfl

theorem allocSlot_indirect (i b : Nat) (s : WriteState) :
    (allocSlot i b s).inode.indirect = s.inode.indirect := by
  unfold allocSlot
  split_ifs <;> rfl

theorem allocSlot_valid (i b : Nat) (s : WriteState) :
    (allocSlot i b s).inode.valid = s.inode.valid := by
  unfold allocSlot
  split_ifs <;> rfl

theorem allocSlot_size (i b : Nat) (s : WriteState) :
    (allocSlot i b s).inode.size = s.inode.size := by
  unfold allocSlot
  split_ifs <;> rfl

theorem allocSlot_slot (i b : Nat) (s : WriteState) (hb : b < 4294967296) (j : Nat) :
    slotPtr (allocSlot i b s).inode (allocSlot i b s).indirect j =
      if j = i then b else slotPtr s.inode s.indirect j := by
  unfold allocSlot
  by_cases h5 : i < POINTERS_PER_INODE
  · simp only [h5, if_true]
    exact slotPtr_upd_direct _ _ _ _ _ h5
  · simp only [h5, if_false]
    exact slotPtr_setWord _ _ _ _ _ (Nat.le_of_not_lt h5) hb

theorem allocSlot_block (i b : Nat) (s : WriteState) (h5 : i < POINTERS_PER_INODE) :
    (allocSlot i b s).indirect = s.indirect := by
  unfold allocSlot
  simp only [h5, if_true]

/-- Allocating the free block `b` for the empty slot `i` keeps the invariant of the loop. -/
theorem WInv.take_slot {lo N L O start : Nat} {data : Buf} {fs0 : FileSystem} {ino0 : Inode}
    {ind0 : Block} {i : Nat} {s : WriteState}
    (h : WInv lo N L O start data fs0 ino0 ind0 i i s)
    (hi : i < POINTERS_PER_BLOCK + POINTERS_PER_INODE)
    (hz : slotPtr s.inode s.indirect i = 0)
    (hind : POINTERS_PER_INODE ≤ i → s.inode.indirect ≠ 0)
    (b : Nat) (hbN : b < N) (hN : N < 4294967296) (hbm : b < s.fs.meta_data.blocks)
    (hbf : s.fs.isFree b = true) :
    WInv lo N L O start data fs0 ino0 ind0 i (i + 1) (allocSlot i b s) := by
  have hb32 : b < 4294967296 := by omega
  have hslot := allocSlot_slot i b s hb32
  have himg : imageOf (allocSlot i b s).fs = imageOf s.fs := by
    rw [allocSlot_fs, imageOf_setFree]
  have hsame : ∀ j, slotPtr s.inode s.indirect j ≠ 0 →
      slotPtr (allocSlot i b s).inode (allocSlot i b s).indirect j
        = slotPtr s.inode s.indirect j := by
    intro j hnz
    rw [hslot j]
    have : ¬ j = i := by
      intro hji
      rw [hji] at hnz
      exact hnz hz
    simp only [this, if_false]
  refine
    { disk := ?_, blocks := ?_, meta_eq := ?_, table := ?_, sync := ?_, noind := ?_,
      written := ?_, keep := ?_, keep_ind := ?_, fresh := ?_, fresh_ind := ?_, done := ?_,
      frame := ?_, frame0 := ?_, fixed_valid := ?_, fixed_size := ?_, freemono := ?_,
      count := ?_, start_le := h.start_le, le_hi := Nat.le_succ i,
      ind_late := fun h1 h2 => by
        rw [allocSlot_indirect] at h2
        exact Nat.le_succ_of_le (h.ind_late h1 h2),
      ind_need := fun h1 h2 => by
        rw [allocSlot_indirect] at h2
        exact h.ind_need h1 h2 }
  · rw [himg, allocSlot_fs, setFree_disk]
    exact h.disk
  · rw [himg]
    exact h.blocks
  · rw [allocSlot_fs, setFree_meta]
    exact h.meta_eq
  · apply h.table.alloc_slot i b hbN hbf hslot (allocSlot_indirect i b s)
    intro x
    rw [allocSlot_fs]
    exact isFree_setFree_false_eq s.fs b x
  · intro _ hc
    rw [allocSlot_changes] at hc
    exact absurd hc (by simp)
  · intro h0
    rw [allocSlot_indirect] at h0
    by_cases h5 : i < POINTERS_PER_INODE
    · rw [allocSlot_block i b s h5]
      exact h.noind h0
    · exact absurd h0 (hind (Nat.le_of_not_lt h5))
  · intro q hq1 hq2
    rw [allocSlot_bytes] at hq2
    obtain ⟨hq, hw1, hw2⟩ := h.written q hq1 hq2
    rw [hsame _ hw1, himg]
    exact ⟨hq, hw1, hw2⟩
  · intro j hj hnz
    have hk := h.keep j hj hnz
    have hnz2 : slotPtr s.inode s.indirect j ≠ 0 := by rw [hk]; exact hnz
    rw [hsame j hnz2]
    exact hk
  · intro hnz
    rw [allocSlot_indirect]
    exact h.keep_ind hnz
  · intro j hj hnz
    rw [hslot j] at hnz ⊢
    by_cases hji : j = i
    · simp only [hji, if_true]
      right
      exact ⟨h.start_le, Nat.lt_succ_self i, h.freemono b hbf⟩
    · simp only [hji, if_false] at hnz ⊢
      rcases h.fresh j hj hnz with h1 | ⟨h1, h2, h3⟩
      · exact Or.inl h1
      · exact Or.inr ⟨h1, by omega, h3⟩
  · intro hnz
    rw [allocSlot_indirect] at hnz ⊢
    exact h.fresh_ind hnz
  · intro j hj1 hj2
    have := h.done j hj1 hj2
    rw [hsame j this]
    exact this
  · intro blk h1 h2 h3 h4
    rw [himg]
    exact h.frame blk h1 h2 h3 h4
  · intro hst h1 k hk
    rw [himg]
    exact h.frame0 hst h1 k hk
  · rw [allocSlot_valid]
    exact h.fixed_valid
  · rw [allocSlot_size]
    exact h.fixed_size
  · intro x hx
    rw [allocSlot_fs, isFree_setFree_false_eq] at hx
    by_cases hxb : x = b
    · simp [hxb] at hx
    · simp only [hxb, if_false] at hx
      exact h.freemono x hx
  · have hc := h.count
    have hfc := freeCount_setFree s.fs b hbm hbf
    rw [allocSlot_fs, allocSlot_indirect, zeroSlots_succ]
    have hle := h.start_le
    have hz0 : slotPtr ino0 ind0 i = 0 := by
      by_contra hne
      have := h.keep i hi hne
      rw [hz] at this
      exact hne this.symm
    simp only [hle, hz0, and_self, if_true]
    omega

theorem WInv.weaken {lo N L O start : Nat} {data : Buf} {fs0 : FileSystem} {ino0 : Inode}
    {ind0 : Block} {i : Nat} {s : WriteState}
    (h : WInv lo N L O start data fs0 ino0 ind0 i i s) :
    WInv lo N L O start data fs0 ino0 ind0 i (i + 1) s :=
  { h with
    fresh := fun j hj hnz => by
      rcases h.fresh j hj hnz with h1 | ⟨h1, h2, h3⟩
      · exact Or.inl h1
      · exact Or.inr ⟨h1, by omega, h3⟩
    count := by
      have := h.count
      have := zeroSlots_mono ino0 ind0 start i
      omega
    ind_late := fun h1 h2 => Nat.le_succ_of_le (h.ind_late h1 h2)
    le_hi := Nat.le_succ i }

theorem allocIndirect_isFree (b : Nat) (s : WriteState) (x : Nat) :
    (allocIndirect b s).fs.isFree x = if x = b then false else s.fs.isFree x := by
  rw [← isFree_setFree_false_eq]
  rfl

theorem allocIndirect_image (b : Nat) (s : WriteState) :
    imageOf (allocIndirect b s).fs = (imageOf s.fs).put b zero_block := by
  show (imageOf (s.fs.setFree b false)).put b zero_block = _
  rw [imageOf_setFree]

theorem allocIndirect_meta (b : Nat) (s : WriteState) :
    (allocIndirect b s).fs.meta_data = s.fs.meta_data := by
  show (s.fs.setFree b false).meta_data = _
  rw [setFree_meta]

/-- Allocating the free block `b` as the indirect block keeps the invariant of the loop. -/
theorem WInv.take_indirect {lo N L O start : Nat} {data : Buf} {fs0 : FileSystem} {ino0 : Inode}
    {ind0 : Block} {i hi : Nat} {s : WriteState}
    (h : WInv lo N L O start data fs0 ino0 ind0 i hi s)
    (hz : s.inode.indirect = 0) (h5 : POINTERS_PER_INODE ≤ hi)
    (hneed : POINTERS_PER_INODE * BLOCK_SIZE < O + L ∨ L = 0)
    (b : Nat) (hbN : b < N) (hbm : b < s.fs.meta_data.blocks)
    (hbf : s.fs.isFree b = true) :
    WInv lo N L O start data fs0 ino0 ind0 i hi (allocIndirect b s) := by
  have hzb := h.noind hz
  have hslot : ∀ j, slotPtr (allocIndirect b s).inode (allocIndirect b s).indirect j
      = slotPtr s.inode s.indirect j := by
    intro j
    show slotPtr { s.inode with indirect := b } zero_block j = _
    rw [hzb]
    rfl
  have himg := allocIndirect_image b s
  have hbN2 : b < (imageOf s.fs).blocks := by rw [h.blocks]; exact hbN
  have hb0 : lo < b := h.table.free_region b hbN hbf
  have hbslot : ∀ j, j < POINTERS_PER_BLOCK + POINTERS_PER_INODE →
      slotPtr s.inode s.indirect j ≠ 0 → slotPtr s.inode s.indirect j ≠ b := by
    intro j hj hnz he
    have := h.table.used j hj hnz
    rw [he, hbf] at this
    exact Bool.noConfusion this
  have hfree0 : fs0.isFree b = true := h.freemono b hbf
  have hino0 : ino0.indirect = 0 := by
    by_contra hne
    have := h.keep_ind hne
    rw [hz] at this
    exact hne this.symm
  refine
    { disk := ?_, blocks := ?_, meta_eq := ?_, table := ?_, sync := ?_, noind := ?_,
      written := ?_, keep := ?_, keep_ind := ?_, fresh := ?_, fresh_ind := ?_, done := ?_,
      frame := ?_, frame0 := ?_, fixed_valid := h.fixed_valid, fixed_size := h.fixed_size,
      freemono := ?_, count := ?_, start_le := h.start_le, le_hi := h.le_hi,
      ind_late := fun _ _ => h5, ind_need := fun _ _ => hneed }
  · rw [himg]
    show some ((imageOf (s.fs.setFree b false)).put b zero_block) = _
    rw [imageOf_setFree]
  · rw [himg, Disk.blocks_put]
    exact h.blocks
  · rw [allocIndirect_meta]
    exact h.meta_eq
  · exact h.table.alloc_ind b hbN hbf hslot rfl (allocIndirect_isFree b s)
  · intro _ _
    rw [himg]
    exact Disk.get_put_same _ _ _ hbN2
  · intro h0
    rfl
  · intro q hq1 hq2
    obtain ⟨hq, hw1, hw2⟩ := h.written q hq1 hq2
    rw [hslot, himg]
    refine ⟨hq, hw1, ?_⟩
    rw [Disk.get_put_ne _ _ _ _ (hbslot _ hq hw1)]
    exact hw2
  · intro j hj hnz
    rw [hslot]
    exact h.keep j hj hnz
  · intro hnz
    exact absurd hino0 hnz
  · intro j hj hnz
    rw [hslot] at hnz ⊢
    exact h.fresh j hj hnz
  · intro _
    right
    exact hfree0
  · intro j hj1 hj2
    rw [hslot]
    exact h.done j hj1 hj2
  · intro blk h1 h2 h3 h4
    rw [himg]
    have : blk ≠ b := by
      intro he
      rw [he, hfree0] at h2
      exact Bool.noConfusion h2
    rw [Disk.get_put_ne _ _ _ _ this]
    exact h.frame blk h1 h2 h3 h4
  · intro hst h1 k hk
    rw [himg]
    have hk1 := h.keep start hst h1
    have hnz : slotPtr s.inode s.indirect start ≠ 0 := by rw [hk1]; exact h1
    have := hbslot start hst hnz
    rw [hk1] at this
    rw [Disk.get_put_ne _ _ _ _ this]
    exact h.frame0 hst h1 k hk
  · intro x hx
    rw [allocIndirect_isFree] at hx
    by_cases hxb : x = b
    · simp [hxb] at hx
    · simp only [hxb, if_false] at hx
      exact h.freemono x hx
  · have hc := h.count
    have hfc := freeCount_setFree s.fs b hbm hbf
    have e1 : freeCount (allocIndirect b s).fs = freeCount (s.fs.setFree b false) := rfl
    have e2 : (allocIndirect b s).inode.indirect = b := rfl
    rw [e1, e2]
    have hbne : b ≠ 0 := by omega
    simp only [hino0, hz, hbne, ne_eq, not_true_eq_false, and_false, if_false, true_and,
      not_false_eq_true, and_self, if_true] at hc ⊢
    omega

theorem write_copy_eq (data : Buf) (L : Nat) (s : WriteState) (btc p : Nat)
    (hdisk : s.fs.disk = some (imageOf s.fs)) (hp : p < (imageOf s.fs).blocks)
    (hind : s.inode.indirect ≠ 0 → s.inode.indirect < (imageOf s.fs).blocks) :
    write_copy data L s btc p =
      if s.bytes_written + btc = L then Step.brk (copied data s btc p)
      else Step.next (copied data s btc p) := by
  unfold write_copy
  rw [hdisk]
  simp only [disk_read_some, disk_write_some, hp, if_true]
  unfold copied copiedDisk
  by_cases hflush : s.inode.indirect ≠ 0 ∧ s.inode_changes = true
  · have hlt := hind hflush.1
    have hlt2 : s.inode.indirect < ((imageOf s.fs).put p
        (memcpy ((imageOf s.fs).get p) s.block_offset data s.bytes_written btc)).blocks := by
      rw [Disk.blocks_put]
      exact hlt
    simp only [hflush, and_self, if_true, hlt2, ne_eq, not_false_eq_true]
  · simp only [hflush, if_false]

theorem copiedDisk_blocks (data : Buf) (s : WriteState) (btc p : Nat) :
    (copiedDisk data s btc p).blocks = (imageOf s.fs).blocks := by
  unfold copiedDisk
  split_ifs
  · rw [Disk.blocks_put, Disk.blocks_put]
  · rw [Disk.blocks_put]

theorem copiedDisk_get_other (data : Buf) (s : WriteState) (btc p x : Nat) (hxp : x ≠ p)
    (hxi : s.inode.indirect ≠ 0 → x ≠ s.inode.indirect) :
    (copiedDisk data s btc p).get x = (imageOf s.fs).get x := by
  unfold copiedDisk
  split_ifs with hf
  · rw [Disk.get_put_ne _ _ _ _ (hxi hf.1), Disk.get_put_ne _ _ _ _ hxp]
  · rw [Disk.get_put_ne _ _ _ _ hxp]

theorem copiedDisk_get_target (data : Buf) (s : WriteState) (btc p : Nat)
    (hp : p < (imageOf s.fs).blocks) (hpi : p ≠ s.inode.indirect) :
    (copiedDisk data s btc p).get p =
      memcpy ((imageOf s.fs).get p) s.block_offset data s.bytes_written btc := by
  unfold copiedDisk
  split_ifs with hf
  · rw [Disk.get_put_ne _ _ _ _ hpi, Disk.get_put_same _ _ _ hp]
  · rw [Disk.get_put_same _ _ _ hp]

theorem copiedDisk_get_indirect (data : Buf) (s : WriteState) (btc p : Nat)
    (hnz : s.inode.indirect ≠ 0) (hlt : s.inode.indirect < (imageOf s.fs).blocks)
    (hpi : p ≠ s.inode.indirect)
    (hsync : s.inode_changes = false → (imageOf s.fs).get s.inode.indirect = s.indirect) :
    (copiedDisk data s btc p).get s.inode.indirect = s.indirect := by
  unfold copiedDisk
  split_ifs with hf
  · rw [Disk.get_put_same]
    rw [Disk.blocks_put]
    exact hlt
  · rw [Disk.get_put_ne _ _ _ _ (Ne.symm hpi)]
    apply hsync
    cases hc : s.inode_changes with
    | false => rfl
    | true => exact absurd ⟨hnz, hc⟩ hf

theorem copied_inode (data : Buf) (s : WriteState) (btc p : Nat) :
    (copied data s btc p).inode = s.inode := rfl

theorem copied_indirect (data : Buf) (s : WriteState) (btc p : Nat) :
    (copied data s btc p).indirect = s.indirect := rfl

theorem copied_bytes (data : Buf) (s : WriteState) (btc p : Nat) :
    (copied data s btc p).bytes_written = s.bytes_written + btc := rfl

theorem copied_isFree (data : Buf) (s : WriteState) (btc p : Nat) :
    (copied data s btc p).fs.isFree = s.fs.isFree := rfl

theorem copied_meta (data : Buf) (s : WriteState) (btc p : Nat) :
    (copied data s btc p).fs.meta_data = s.fs.meta_data := rfl

/-- The copy step of iteration `i` of the loop of `fs_write` keeps the invariant and
completes the iteration. -/
theorem WInv.copy {lo N L O start : Nat} {data : Buf} {fs0 : FileSystem} {ino0 : Inode}
    {ind0 : Block} {i : Nat} {s : WriteState}
    (h : WInv lo N L O start data fs0 ino0 ind0 i (i + 1) s)
    (hi : i < POINTERS_PER_BLOCK + POINTERS_PER_INODE)
    (hnz : slotPtr s.inode s.indirect i ≠ 0) (btc : Nat)
    (hpos : O + s.bytes_written = i * BLOCK_SIZE + s.block_offset)
    (hfit : s.block_offset + btc ≤ BLOCK_SIZE)
    (hbo : s.bytes_written = 0 ∨ s.block_offset = 0)
    (hstart : start * BLOCK_SIZE ≤ O) :
    WInv lo N L O start data fs0 ino0 ind0 (i + 1) (i + 1)
      (copied data s btc (slotPtr s.inode s.indirect i)) := by
  have hreg := h.table.region i hi hnz
  have hpN : slotPtr s.inode s.indirect i < (imageOf s.fs).blocks := by
    rw [h.blocks]; exact hreg.2
  have hpi := h.table.ne_ind i hi hnz
  have hfree_p : ∀ blk, fs0.isFree blk = false → blk ≠ ino0.indirect →
      (∀ j, start ≤ j → j < POINTERS_PER_BLOCK + POINTERS_PER_INODE →
        slotPtr ino0 ind0 j ≠ blk) → blk ≠ slotPtr s.inode s.indirect i := by
    intro blk h2 _ h4 he
    rcases h.fresh i hi hnz with h1 | ⟨_, _, h3⟩
    · have := h.keep i hi h1
      exact h4 i h.start_le hi (by rw [← this, he])
    · rw [← he, h2] at h3
      exact Bool.noConfusion h3
  have hfree_i : ∀ blk, fs0.isFree blk = false → blk ≠ ino0.indirect →
      s.inode.indirect ≠ 0 → blk ≠ s.inode.indirect := by
    intro blk h2 h3 hne he
    rcases h.fresh_ind hne with h1 | h1
    · exact h3 (by rw [he, h.keep_ind h1])
    · rw [← he, h2] at h1
      exact Bool.noConfusion h1
  have himg : imageOf (copied data s btc (slotPtr s.inode s.indirect i)).fs
      = copiedDisk data s btc (slotPtr s.inode s.indirect i) := rfl
  refine
    { disk := rfl, blocks := ?_, meta_eq := h.meta_eq, table := h.table, sync := ?_,
      noind := h.noind,
      written := ?_, keep := h.keep, keep_ind := h.keep_ind, fresh := h.fresh,
      fresh_ind := h.fresh_ind, done := ?_,
      frame := ?_, frame0 := ?_, fixed_valid := h.fixed_valid, fixed_size := h.fixed_size,
      freemono := h.freemono, count := h.count, start_le := Nat.le_succ_of_le h.start_le,
      le_hi := Nat.le_refl _, ind_late := h.ind_late, ind_need := h.ind_need }
  · rw [himg, copiedDisk_blocks]
    exact h.blocks
  · intro hne _
    rw [himg, copied_inode, copied_indirect]
    rw [copied_inode] at hne
    have hlt : s.inode.indirect < (imageOf s.fs).blocks := by
      rw [h.blocks]; exact (h.table.ind_region hne).2
    exact copiedDisk_get_indirect data s btc _ hne hlt hpi (h.sync hne)
  · intro q hq1 hq2
    rw [himg, copied_inode, copied_indirect]
    by_cases hold : q < O + s.bytes_written
    · obtain ⟨hq, hw1, hw2⟩ := h.written q hq1 hold
      refine ⟨hq, hw1, ?_⟩
      have hqi : q / BLOCK_SIZE ≠ i := by
        simp only [BLOCK_SIZE] at *
        omega
      have hne : slotPtr s.inode s.indirect (q / BLOCK_SIZE) ≠ slotPtr s.inode s.indirect i :=
        fun he => hqi (h.table.inj _ hq hw1 i hi he)
      rw [copiedDisk_get_other data s btc _ _ hne (fun _ => h.table.ne_ind _ hq hw1)]
      exact hw2
    · have hq2' : q < O + (s.bytes_written + btc) := hq2
      have e1 : q / BLOCK_SIZE = i := by
        simp only [BLOCK_SIZE] at *
        omega
      have e2 : q % BLOCK_SIZE = s.block_offset + (q - (O + s.bytes_written)) := by
        simp only [BLOCK_SIZE] at *
        omega
      rw [e1]
      refine ⟨hi, hnz, ?_⟩
      rw [copiedDisk_get_target data s btc _ hpN hpi, e2,
        memcpy_in _ _ _ _ _ _ (by omega) (by omega)]
      congr 1
      omega
  · intro j hj1 hj2
    rw [copied_inode, copied_indirect]
    by_cases hji : j = i
    · rw [hji]; exact hnz
    · exact h.done j hj1 (by omega)
  · intro blk h1 h2 h3 h4
    rw [himg, copiedDisk_get_other data s btc _ _ (hfree_p blk h2 h3 h4)
      (hfree_i blk h2 h3)]
    exact h.frame blk h1 h2 h3 h4
  · intro hst h1 k hk
    rw [himg]
    have hk1 := h.keep start hst h1
    have hnz1 : slotPtr s.inode s.indirect start ≠ 0 := by rw [hk1]; exact h1
    by_cases he : slotPtr s.inode s.indirect start = slotPtr s.inode s.indirect i
    · have hsi : start = i := h.table.inj start hst hnz1 i hi he
      rw [← hk1, he, copiedDisk_get_target data s btc _ hpN hpi]
      have hkbo : k < s.block_offset := by
        simp only [BLOCK_SIZE] at *
        rcases hbo with hb | hb
        · subst hsi
          omega
        · subst hsi
          omega
      rw [memcpy_out _ _ _ _ _ _ (Or.inl hkbo), ← he, hk1]
      exact h.frame0 hst h1 k hk
    · rw [← hk1, copiedDisk_get_other data s btc _ _ he
        (fun _ => h.table.ne_ind start hst hnz1), hk1]
      exact h.frame0 hst h1 k hk

/-- The allocation and copy steps of iteration `i`: either no block is free and the loop
breaks with its state unchanged, or the iteration completes. -/
theorem write_slot_cases {lo N L O start : Nat} {data : Buf} {fs0 : FileSystem} {ino0 : Inode}
    {ind0 : Block} {i : Nat} {s : WriteState}
    (h : WInv lo N L O start data fs0 ino0 ind0 i i s)
    (hi : i < POINTERS_PER_BLOCK + POINTERS_PER_INODE)
    (hind : POINTERS_PER_INODE ≤ i → s.inode.indirect ≠ 0)
    (hmeta : fs0.meta_data.blocks = N) (hN : N < 4294967296) (btc : Nat)
    (hpos : O + s.bytes_written = i * BLOCK_SIZE + s.block_offset)
    (hfit : s.block_offset + btc ≤ BLOCK_SIZE)
    (hbo : s.bytes_written = 0 ∨ s.block_offset = 0)
    (hstart : start * BLOCK_SIZE ≤ O) :
    (write_slot data L i s btc (slotPtr s.inode s.indirect i) = Step.brk s ∧
      (∀ t, t < N → s.fs.isFree t = false) ∧ slotPtr s.inode s.indirect i = 0) ∨
    (∃ s1, write_slot data L i s btc (slotPtr s.inode s.indirect i) =
        (if s.bytes_written + btc = L then Step.brk s1 else Step.next s1) ∧
      WInv lo N L O start data fs0 ino0 ind0 (i + 1) (i + 1) s1 ∧
      s1.bytes_written = s.bytes_written + btc ∧ s1.block_offset = 0 ∧
      s1.inode_changes = false) := by
  have hmb : s.fs.meta_data.blocks = N := by rw [h.meta_eq]; exact hmeta
  unfold write_slot
  by_cases hz : slotPtr s.inode s.indirect i = 0
  · simp only [hz, if_true]
    rcases find_free_block_cases s.fs with ⟨hnone, hff⟩ | ⟨t, ht, htf, _, hff⟩
    · left
      rw [hff]
      refine ⟨?_, fun t ht => hnone t (by omega), trivial⟩
      simp only [if_true]
    · right
      have htN : t < N := by omega
      have ht32 : t < 4294967296 := by omega
      have hw := h.take_slot hi hz hind t htN hN ht htf
      have hsl : slotPtr (allocSlot i t s).inode (allocSlot i t s).indirect i = t := by
        rw [allocSlot_slot i t s ht32 i]
        simp
      have hne : t ≠ 0 := by
        have := h.table.free_region t htN htf
        omega
      have hnz : slotPtr (allocSlot i t s).inode (allocSlot i t s).indirect i ≠ 0 := by
        rw [hsl]; exact hne
      have hc := hw.copy hi hnz btc
        (by rw [allocSlot_bytes, allocSlot_offset]; exact hpos)
        (by rw [allocSlot_offset]; exact hfit)
        (by rw [allocSlot_bytes, allocSlot_offset]; exact hbo)
        hstart
      rw [hsl] at hc
      refine ⟨copied data (allocSlot i t s) btc t, ?_, hc, ?_, rfl, rfl⟩
      · rw [hff]
        have e1 : toU32 ((t : Int), s.fs.setFree t false).1 = t := toU32_natCast t ht32
        have e2 : ¬ t = toU32 (-1) := by rw [toU32_neg_one]; omega
        simp only [e1, e2, if_false]
        have hcopy := write_copy_eq data L (allocSlot i t s) btc t hw.disk
          (by rw [hw.blocks]; exact htN)
          (fun hne => by rw [hw.blocks]; exact (hw.table.ind_region hne).2)
        rw [allocSlot_bytes] at hcopy
        rw [← hcopy]
        unfold allocSlot
        split_ifs <;> rfl
      · rw [copied_bytes, allocSlot_bytes]
  · right
    simp only [hz, if_false]
    have hw := h.weaken
    have hc := hw.copy hi hz btc hpos hfit hbo hstart
    refine ⟨copied data s btc (slotPtr s.inode s.indirect i), ?_, hc, rfl, rfl, rfl⟩
    exact write_copy_eq data L s btc _ h.disk
      (by rw [h.blocks]; exact (h.table.region i hi hz).2)
      (fun hne => by rw [h.blocks]; exact (h.table.ind_region hne).2)

/-- One iteration of the loop of `fs_write`: either the allocator is exhausted and the loop
breaks with nothing copied in this iteration, or the iteration copies `bytes_to_copy` bytes
and the loop goes on unless all bytes are written; the invariant holds in both cases. -/
theorem write_body_cases {lo N L O start : Nat} {data : Buf} {fs0 : FileSystem} {ino0 : Inode}
    {ind0 : Block} {i : Nat} {s : WriteState}
    (h : WInv lo N L O start data fs0 ino0 ind0 i i s)
    (hi : i < POINTERS_PER_BLOCK + POINTERS_PER_INODE)
    (hmeta : fs0.meta_data.blocks = N) (hN : N < 4294967296)
    (hpos : O + s.bytes_written = i * BLOCK_SIZE + s.block_offset)
    (hbolt : s.block_offset < BLOCK_SIZE)
    (hbo : s.bytes_written = 0 ∨ s.block_offset = 0)
    (hstart : start * BLOCK_SIZE ≤ O)
    (hch : s.inode_changes = false)
    (hlt : 0 < L → s.bytes_written < L) :
    (∃ s1, write_body data L i s = Step.brk s1 ∧
      WInv lo N L O start data fs0 ino0 ind0 i i s1 ∧
      s1.bytes_written = s.bytes_written ∧ s1.block_offset = s.block_offset ∧
      s1.inode_changes = false ∧ (∀ t, t < N → s1.fs.isFree t = false) ∧
      slotPtr s1.inode s1.indirect i = 0) ∨
    (∃ s1, write_body data L i s =
        (if s.bytes_written + cmin (BLOCK_SIZE - s.block_offset) (L - s.bytes_written) = L
          then Step.brk s1 else Step.next s1) ∧
      WInv lo N L O start data fs0 ino0 ind0 (i + 1) (i + 1) s1 ∧
      s1.bytes_written =
        s.bytes_written + cmin (BLOCK_SIZE - s.block_offset) (L - s.bytes_written) ∧
      s1.block_offset = 0 ∧ s1.inode_changes = false) := by
  have hfit : s.block_offset + cmin (BLOCK_SIZE - s.block_offset) (L - s.bytes_written)
      ≤ BLOCK_SIZE := by
    have := cmin_le_left (BLOCK_SIZE - s.block_offset) (L - s.bytes_written)
    omega
  have hmb : s.fs.meta_data.blocks = N := by rw [h.meta_eq]; exact hmeta
  unfold write_body
  by_cases h5 : i < POINTERS_PER_INODE
  · have hsl : s.inode.direct i = slotPtr s.inode s.indirect i := by
      unfold slotPtr
      simp only [h5, if_true]
    simp only [h5, if_true, hsl]
    rcases write_slot_cases h hi (fun h => absurd h (by omega)) hmeta hN _ hpos hfit hbo hstart
      with ⟨h1, h2, h3⟩ | ⟨s1, h1, h2⟩
    · exact Or.inl ⟨s, h1, h, rfl, rfl, hch, h2, h3⟩
    · exact Or.inr ⟨s1, h1, h2⟩
  · simp only [h5, if_false]
    by_cases hz : s.inode.indirect = 0
    · simp only [hz, if_true]
      rcases find_free_block_cases s.fs with ⟨hnone, hff⟩ | ⟨t, ht, htf, _, hff⟩
      · left
        rw [hff]
        simp only [if_true]
        refine ⟨s, rfl, h, rfl, rfl, hch, fun t ht => hnone t (by omega), ?_⟩
        unfold slotPtr
        simp only [h5, if_false, h.noind hz]
        exact getWord_zero_block _
      · have htN : t < N := by omega
        have ht32 : t < 4294967296 := by omega
        have hneed : POINTERS_PER_INODE * BLOCK_SIZE < O + L ∨ L = 0 := by
          by_cases hL : L = 0
          · exact Or.inr hL
          · left
            have := hlt (Nat.pos_of_ne_zero hL)
            have h5' : POINTERS_PER_INODE ≤ i := Nat.le_of_not_lt h5
            have : POINTERS_PER_INODE * BLOCK_SIZE ≤ i * BLOCK_SIZE :=
              Nat.mul_le_mul_right _ h5'
            omega
        have hw := h.take_indirect hz (Nat.le_of_not_lt h5) hneed t htN ht htf
        have hne : t ≠ 0 := by
          have := h.table.free_region t htN htf
          omega
        have hbody : (let r := find_free_block s.fs
            let block_pointer := toU32 r.1
            if block_pointer = toU32 (-1) then Step.brk { s with fs := r.2 }
            else
              match disk_write r.2.disk block_pointer zero_block with
              | none => Step.ret (-1, r.2)
              | some d1 =>
                let fs1 := { r.2 with disk := some d1 }
                match disk_read fs1.disk block_pointer with
                | none => Step.ret (-1, fs1)
                | some indirect =>
                  write_slot data L i
                    { s with fs := fs1, inode := { s.inode with indirect := block_pointer },
                             indirect := indirect }
                    (cmin (BLOCK_SIZE - s.block_offset) (L - s.bytes_written))
                    (indirect.pointers (i - POINTERS_PER_INODE))) =
            write_slot data L i (allocIndirect t s)
              (cmin (BLOCK_SIZE - (allocIndirect t s).block_offset)
                (L - (allocIndirect t s).bytes_written))
              (slotPtr (allocIndirect t s).inode (allocIndirect t s).indirect i) := by
          rw [hff]
          have e1 : toU32 ((t : Int), s.fs.setFree t false).1 = t := toU32_natCast t ht32
          have e2 : ¬ t = toU32 (-1) := by rw [toU32_neg_one]; omega
          have e3 : (s.fs.setFree t false).disk = some (imageOf s.fs) := by
            rw [setFree_disk]; exact h.disk
          have e4 : t < (imageOf s.fs).blocks := by rw [h.blocks]; exact htN
          have e5 : t < ((imageOf s.fs).put t zero_block).blocks := by
            rw [Disk.blocks_put]; exact e4
          simp only [e1, e2, if_false, e3, disk_write_some, e4, if_true, disk_read_some, e5,
            Disk.get_put_same _ _ _ e4]
          unfold allocIndirect slotPtr
          simp only [h5, if_false, imageOf_setFree]
        rw [hbody]
        have hsi : (allocIndirect t s).inode.indirect ≠ 0 := hne
        rcases write_slot_cases hw hi (fun _ => hsi) hmeta hN _ hpos hfit hbo hstart
          with ⟨h1, h2, h3⟩ | ⟨s1, h1, h2⟩
        · exact Or.inl ⟨allocIndirect t s, h1, hw, rfl, rfl, hch, h2, h3⟩
        · exact Or.inr ⟨s1, h1, h2⟩
    · have hsl : s.indirect.pointers (i - POINTERS_PER_INODE) = slotPtr s.inode s.indirect i := by
        unfold slotPtr
        simp only [h5, if_false]
      simp only [hz, if_false, hsl]
      rcases write_slot_cases h hi (fun _ => hz) hmeta hN _ hpos hfit hbo hstart
        with ⟨h1, h2, h3⟩ | ⟨s1, h1, h2⟩
      · exact Or.inl ⟨s, h1, h, rfl, rfl, hch, h2, h3⟩
      · exact Or.inr ⟨s1, h1, h2⟩

/-! ## Writing: the loop -/

/-- The loop of `fs_write` from the head of iteration `i`: it ends normally or by `break`,
never by `return`, in a state that satisfies the invariant at some iteration `i1`; either
all bytes are written, or the allocator is exhausted, or the slots are used up. -/
theorem write_loop_ok {lo N L O start : Nat} {data : Buf} {fs0 : FileSystem} {ino0 : Inode}
    {ind0 : Block}
    (hmeta : fs0.meta_data.blocks = N) (hN : N < 4294967296)
    (hstart : start * BLOCK_SIZE ≤ O) :
    ∀ (cnt i : Nat) (s : WriteState), cnt = POINTERS_PER_BLOCK + POINTERS_PER_INODE - i →
      WInv lo N L O start data fs0 ino0 ind0 i i s → WPos L O i s →
      ∃ s1 i1, forLoop (write_body data L) i cnt s = Sum.inl s1 ∧
        i ≤ i1 ∧
        WInv lo N L O start data fs0 ino0 ind0 i1 i1 s1 ∧
        s1.inode_changes = false ∧ s.bytes_written ≤ s1.bytes_written ∧ s1.bytes_written ≤ L ∧
        (s1.bytes_written = L ∨
          (i1 * BLOCK_SIZE ≤ O + s1.bytes_written ∧
            (((∀ t, t < N → s1.fs.isFree t = false) ∧ slotPtr s1.inode s1.indirect i1 = 0) ∨
              POINTERS_PER_BLOCK + POINTERS_PER_INODE ≤ i1))) ∧
        (0 < L → ∀ j, i ≤ j → j < i1 → j * BLOCK_SIZE < O + s1.bytes_written) ∧
        (O + s1.bytes_written ≤ i1 * BLOCK_SIZE ∨ (i1 = i ∧ s1.bytes_written = s.bytes_written))
        ∧ (L = 0 → i1 ≤ i + 1)
    := by
  intro cnt
  induction cnt with
  | zero =>
    intro i s hi h hp
    refine ⟨s, i, rfl, Nat.le_refl _, h, hp.clean, Nat.le_refl _, hp.le, ?_, ?_, ?_,
      fun _ => Nat.le_succ i⟩
    · right
      have := hp.pos
      exact ⟨by omega, Or.inr (by omega)⟩
    · intro _ j h1 h2
      omega
    · exact Or.inr ⟨rfl, rfl⟩
  | succ c ih =>
    intro i s hi h hp
    have hilt : i < POINTERS_PER_BLOCK + POINTERS_PER_INODE := by omega
    have hcl := cmin_le_left (BLOCK_SIZE - s.block_offset) (L - s.bytes_written)
    have hcr := cmin_le_right (BLOCK_SIZE - s.block_offset) (L - s.bytes_written)
    have hple := hp.le
    have hpbolt := hp.bolt
    have hppos := hp.pos
    rcases write_body_cases h hilt hmeta hN hp.pos hp.bolt hp.bo hstart hp.clean hp.lt with
      ⟨s1, hb, hw, hbw, hbo, hch, hfree, hzero⟩ | ⟨s1, hb, hw, hbw, hbo, hch⟩
    · refine ⟨s1, i, ?_, Nat.le_refl _, hw, hch, by omega, by omega, ?_, ?_, ?_,
        fun _ => Nat.le_succ i⟩
      · simp only [forLoop, hb]
      · right
        exact ⟨by omega, Or.inl ⟨hfree, hzero⟩⟩
      · intro _ j h1 h2
        omega
      · exact Or.inr ⟨rfl, hbw⟩
    · by_cases hfin : s.bytes_written + cmin (BLOCK_SIZE - s.block_offset) (L - s.bytes_written) = L
      · rw [if_pos hfin] at hb
        refine ⟨s1, i + 1, ?_, Nat.le_succ _, hw, hch, by omega, by omega, ?_, ?_, ?_,
          fun _ => Nat.le_refl _⟩
        · simp only [forLoop, hb]
        · left
          omega
        · intro hL j h1 h2
          have hji : j = i := by omega
          have hlt := hp.lt hL
          subst hji
          have hpos1 : 0 < cmin (BLOCK_SIZE - s.block_offset) (L - s.bytes_written) := by omega
          simp only [BLOCK_SIZE] at *
          omega
        · left
          simp only [BLOCK_SIZE] at *
          rw [Nat.add_mul]
          omega
      · rw [if_neg hfin] at hb
        have hceq : cmin (BLOCK_SIZE - s.block_offset) (L - s.bytes_written)
            = BLOCK_SIZE - s.block_offset := by
          unfold cmin at hfin ⊢
          split_ifs at hfin ⊢ with hc
          · rfl
          · exfalso
            omega
        have hp1 : WPos L O (i + 1) s1 :=
          { pos := by
              rw [hbw, hbo, hceq, Nat.add_mul]
              simp only [BLOCK_SIZE] at *
              omega
            bolt := by
              rw [hbo]
              simp only [BLOCK_SIZE]
              omega
            bo := Or.inr hbo
            le := by omega
            lt := fun _ => by omega
            clean := hch }
        obtain ⟨s2, i2, hl, h1, h3, h4, h5, h6, h7, h8, h9, _⟩ :=
          ih (i + 1) s1 (by omega) hw hp1
        refine ⟨s2, i2, ?_, by omega, h3, h4, by omega, h6, h7, ?_, ?_, fun hL0 => ?_⟩
        · simp only [forLoop, hb]
          exact hl
        · intro hL j hj1 hj2
          by_cases hji : j = i
          · subst hji
            have hlt := hp.lt hL
            simp only [BLOCK_SIZE] at *
            omega
          · exact h8 hL j (by omega) hj2
        · left
          rcases h9 with h9 | ⟨h9a, h9b⟩
          · exact h9
          · have := hp1.pos
            rw [h9a, h9b]
            omega
        · exfalso
          apply hfin
          omega

theorem InodeWF.disk {fs : FileSystem} {n : Nat} (h : InodeWF fs n) :
    fs.disk = some (imageOf fs) := disk_of_isSome fs h.1

theorem InodeWF.table {fs : FileSystem} {n : Nat} (h : InodeWF fs n) :
    TableOK fs.meta_data.inode_blocks (imageOf fs).blocks fs.isFree (inodeAt (imageOf fs) n)
      (indirectBlock (imageOf fs) (inodeAt (imageOf fs) n)) := h.2.2.2.2.2.2

theorem InodeWF.ib_lt {fs : FileSystem} {n : Nat} (h : InodeWF fs n) :
    n / INODES_PER_BLOCK + 1 < (imageOf fs).blocks := by
  have h1 := h.2.2.2.1
  have h2 := h.2.2.2.2.1
  omega

theorem InodeWF.ib_le {fs : FileSystem} {n : Nat} (h : InodeWF fs n) :
    n / INODES_PER_BLOCK + 1 ≤ fs.meta_data.inode_blocks := h.2.2.2.1

theorem InodeWF.valid {fs : FileSystem} {n : Nat} (h : InodeWF fs n) :
    (inodeAt (imageOf fs) n).valid ≠ 0 := h.2.2.2.2.2.1

theorem indirect_read_eq (d : Disk) (ino : Inode) (h : ino.indirect ≠ 0 → ino.indirect < d.blocks) :
    (if ino.indirect ≠ 0 then disk_read (some d) ino.indirect else some zero_block)
      = some (indirectBlock d ino) := by
  unfold indirectBlock
  by_cases h0 : ino.indirect = 0
  · simp [h0]
  · simp [h0, disk_read_some, h h0]

/-- The invariant of the loop of `fs_write` holds when the loop starts on a well-formed
inode. -/
theorem writeStart_inv (fs : FileSystem) (n L O : Nat) (data : Buf) (h : InodeWF fs n) :
    WInv fs.meta_data.inode_blocks (imageOf fs).blocks L O (O / BLOCK_SIZE) data fs
      (inodeAt (imageOf fs) n) (indirectBlock (imageOf fs) (inodeAt (imageOf fs) n))
      (O / BLOCK_SIZE) (O / BLOCK_SIZE) (writeStart fs n O) :=
  { disk := h.disk
    blocks := rfl
    meta_eq := rfl
    table := h.table
    sync := fun hne _ => by
      show _ = indirectBlock _ _
      unfold indirectBlock
      have : ¬ (inodeAt (imageOf fs) n).indirect = 0 := hne
      simp only [this, if_false]
      rfl
    noind := fun h0 => by
      show indirectBlock _ _ = _
      unfold indirectBlock
      have : (inodeAt (imageOf fs) n).indirect = 0 := h0
      simp only [this, if_true]
    written := fun q h1 h2 => by
      have : q < O + 0 := h2
      omega
    keep := fun _ _ _ => rfl
    keep_ind := fun _ => rfl
    fresh := fun _ _ hnz => Or.inl hnz
    fresh_ind := fun hnz => Or.inl hnz
    done := fun j h1 h2 => by omega
    frame := fun _ _ _ _ _ => rfl
    frame0 := fun _ _ _ _ => rfl
    fixed_valid := rfl
    fixed_size := rfl
    freemono := fun _ hb => hb
    count := Nat.le_trans (Nat.le_add_right (freeCount fs) _) (Nat.le_add_right _ _)
    ind_late := fun h0 hne => absurd h0 hne
    ind_need := fun h0 hne => absurd h0 hne
    start_le := Nat.le_refl _
    le_hi := Nat.le_refl _ }

theorem writeStart_pos (fs : FileSystem) (n L O : Nat) : WPos L O (O / BLOCK_SIZE) (writeStart fs n O) :=
  { pos := by
      show O + 0 = O / BLOCK_SIZE * BLOCK_SIZE + O % BLOCK_SIZE
      simp only [BLOCK_SIZE]
      omega
    bolt := by
      show O % BLOCK_SIZE < BLOCK_SIZE
      simp only [BLOCK_SIZE]
      omega
    bo := Or.inl rfl
    le := Nat.zero_le _
    lt := fun h => h
    clean := rfl }

/-- The value of `fs_write` on a well-formed inode, from the final state of its loop. -/
theorem fs_write_eq (fs : FileSystem) (n : Nat) (data : Buf) (L O : Nat) (h : InodeWF fs n)
    (hO : O / BLOCK_SIZE < 2147483648) (s1 : WriteState)
    (hloop : forLoop (write_body data L) (O / BLOCK_SIZE)
      (POINTERS_PER_BLOCK + POINTERS_PER_INODE - O / BLOCK_SIZE) (writeStart fs n O) = Sum.inl s1)
    (hd1 : s1.fs.disk = some (imageOf s1.fs))
    (hb1 : (imageOf s1.fs).blocks = (imageOf fs).blocks) :
    fs_write fs n data L O =
      ((s1.bytes_written : Int), { s1.fs with disk := some (savedDisk n s1) }) := by
  have hib := h.ib_lt
  have hind : (inodeAt (imageOf fs) n).indirect ≠ 0 →
      (inodeAt (imageOf fs) n).indirect < (imageOf fs).blocks :=
    fun hne => (h.table.ind_region hne).2
  have hcounter : O / BLOCK_SIZE % 4294967296 = O / BLOCK_SIZE :=
    Nat.mod_eq_of_lt (Nat.lt_trans hO (by decide))
  unfold fs_write
  rw [h.disk, fs_load_inode_ok _ n _ hib h.valid]
  simp only [indirect_read_eq _ _ hind, hcounter]
  have hs : WriteState.mk fs (inodeAt (imageOf fs) n)
      (indirectBlock (imageOf fs) (inodeAt (imageOf fs) n)) 0 (O % BLOCK_SIZE) false
      = writeStart fs n O := rfl
  rw [hs, hloop]
  simp only
  rw [hd1, fs_save_inode_ok _ n _ (by rw [hb1]; exact hib)]
  rfl

theorem TableOK.congr {lo N : Nat} {free : Nat → Bool} {ino ino1 : Inode} {ind ind1 : Block}
    (h : TableOK lo N free ino ind)
    (hslot : ∀ j, slotPtr ino1 ind1 j = slotPtr ino ind j)
    (hind : ino1.indirect = ino.indirect) : TableOK lo N free ino1 ind1 := by
  refine ⟨fun j hj hnz => ?_, fun hnz => ?_, h.2.2⟩
  · rw [hslot j] at hnz ⊢
    rw [hind]
    refine ⟨h.region j hj hnz, h.ne_ind j hj hnz, h.used j hj hnz, fun k hk he => ?_⟩
    rw [hslot k] at he
    exact h.inj j hj hnz k hk he
  · rw [hind] at hnz ⊢
    exact ⟨h.ind_region hnz, h.ind_used hnz⟩

theorem inodeAt_valid_lt (d : Disk) (n : Nat) : (inodeAt d n).valid < 4294967296 :=
  getWord_lt _ _

theorem inodeAt_size_block (d : Disk) (n : Nat) :
    (inodeAt d n).size / BLOCK_SIZE < 2147483648 := by
  have h : (inodeAt d n).size < 4294967296 := getWord_lt _ _
  simp only [BLOCK_SIZE]
  omega

theorem offset_zero_block : 0 / BLOCK_SIZE < 2147483648 := by decide

theorem inodeAt_savedDisk (n : Nat) (s : WriteState)
    (hib : n / INODES_PER_BLOCK + 1 < (imageOf s.fs).blocks) :
    inodeAt (savedDisk n s) n =
      ((((imageOf s.fs).get (n / INODES_PER_BLOCK + 1)).setInode (n % INODES_PER_BLOCK)
        { s.inode with size := (s.inode.size + s.bytes_written) % 4294967296 }).inodes
        (n % INODES_PER_BLOCK)) := by
  unfold inodeAt savedDisk
  rw [Disk.get_put_same _ _ _ hib]

/-- The effect of `fs_write` on a well-formed inode, at an offset whose block index fits the
`int` loop counter: it returns a count `k ≤ L`, never -1, and leaves the file system as
`WriteResult` says. -/
theorem fs_write_ok (fs : FileSystem) (n : Nat) (data : Buf) (L O : Nat) (h : InodeWF fs n)
    (hO : O / BLOCK_SIZE < 2147483648) :
    ∃ k, k ≤ L ∧ (fs_write fs n data L O).1 = ((k : Nat) : Int) ∧
      WriteResult fs n data L O k (fs_write fs n data L O).2 := by
  have hmeta : fs.meta_data.blocks = (imageOf fs).blocks := h.2.1
  have hN : (imageOf fs).blocks < 4294967296 := h.2.2.1
  have hstart : O / BLOCK_SIZE * BLOCK_SIZE ≤ O := by
    simp only [BLOCK_SIZE]
    omega
  obtain ⟨s1, i1, hloop, hi1, hw, hclean, _, hle, hout, hcover, hend, hzero⟩ :=
    write_loop_ok hmeta hN hstart
      (POINTERS_PER_BLOCK + POINTERS_PER_INODE - O / BLOCK_SIZE) (O / BLOCK_SIZE)
      (writeStart fs n O) rfl (writeStart_inv fs n L O data h) (writeStart_pos fs n L O)
  have hres := fs_write_eq fs n data L O h hO s1 hloop hw.disk hw.blocks
  have hib := h.ib_lt
  have hib1 : n / INODES_PER_BLOCK + 1 < (imageOf s1.fs).blocks := by rw [hw.blocks]; exact hib
  have hible := h.ib_le
  rw [hres]
  refine ⟨s1.bytes_written, hle, rfl, ?_⟩
  -- the stored inode
  have hat := inodeAt_savedDisk n s1 hib1
  have hslot_small : ∀ j, j < POINTERS_PER_BLOCK + POINTERS_PER_INODE →
      slotPtr s1.inode s1.indirect j < 4294967296 := by
    intro j hj
    by_cases hz : slotPtr s1.inode s1.indirect j = 0
    · rw [hz]; omega
    · have := (hw.table.region j hj hz).2
      omega
  have hind_small : s1.inode.indirect < 4294967296 := by
    by_cases hz : s1.inode.indirect = 0
    · rw [hz]; omega
    · have := (hw.table.ind_region hz).2
      omega
  have e_valid : (inodeAt (savedDisk n s1) n).valid = (inodeAt (imageOf fs) n).valid := by
    rw [hat, inodes_setInode_valid]
    show s1.inode.valid % 4294967296 = _
    rw [hw.fixed_valid]
    exact Nat.mod_eq_of_lt (inodeAt_valid_lt _ _)
  have e_size : (inodeAt (savedDisk n s1) n).size =
      ((inodeAt (imageOf fs) n).size + s1.bytes_written) % 4294967296 := by
    rw [hat, inodes_setInode_size]
    show (s1.inode.size + s1.bytes_written) % 4294967296 % 4294967296 = _
    rw [hw.fixed_size, Nat.mod_mod]
  have e_ind : (inodeAt (savedDisk n s1) n).indirect = s1.inode.indirect := by
    rw [hat, inodes_setInode_indirect]
    exact Nat.mod_eq_of_lt hind_small
  have e_dir : ∀ k, k < POINTERS_PER_INODE →
      (inodeAt (savedDisk n s1) n).direct k = s1.inode.direct k := by
    intro k hk
    rw [hat, inodes_setInode_direct _ _ _ _ hk]
    have := hslot_small k (by
      simp only [POINTERS_PER_BLOCK, POINTERS_PER_INODE] at *
      omega)
    unfold slotPtr at this
    simp only [hk, if_true] at this
    exact Nat.mod_eq_of_lt this
  have hget : ∀ x, fs.meta_data.inode_blocks < x →
      (savedDisk n s1).get x = (imageOf s1.fs).get x := by
    intro x hx
    unfold savedDisk
    exact Disk.get_put_ne _ _ _ _ (by omega)
  have e_block : indirectBlock (savedDisk n s1) (inodeAt (savedDisk n s1) n) = s1.indirect := by
    unfold indirectBlock
    rw [e_ind]
    by_cases hz : s1.inode.indirect = 0
    · simp only [hz, if_true]
      exact (hw.noind hz).symm
    · simp only [hz, if_false]
      rw [hget _ (hw.table.ind_region hz).1]
      exact hw.sync hz hclean
  have e_slot : ∀ j, slotPtr (inodeAt (savedDisk n s1) n)
      (indirectBlock (savedDisk n s1) (inodeAt (savedDisk n s1) n)) j
        = slotPtr s1.inode s1.indirect j := by
    intro j
    rw [e_block]
    unfold slotPtr
    by_cases hj : j < POINTERS_PER_INODE
    · simp only [hj, if_true]
      exact e_dir j hj
    · simp only [hj, if_false]
  have hblocks : (savedDisk n s1).blocks = (imageOf fs).blocks := by
    unfold savedDisk
    rw [Disk.blocks_put]
    exact hw.blocks
  have key : ∀ fs1 : FileSystem, imageOf fs1 = savedDisk n s1 → fs1.isFree = s1.fs.isFree →
      fs1.meta_data = s1.fs.meta_data → fs1.disk.isSome = true →
      WriteResult fs n data L O s1.bytes_written fs1 := by
    intro fs1 himg hfree hm hsome
    refine
      { wf := ?_, blocks_eq := ?_, meta_eq := ?_, valid_eq := ?_,
        size_eq := ?_, written := ?_, keep := ?_, old := ?_, freemono := ?_,
        frame := ?_, others := ?_, fresh := ?_, keep_ind := ?_, fresh_ind := ?_,
        reach := ?_ }
    · refine ⟨hsome, ?_, ?_, ?_, ?_, ?_, ?_⟩
      · rw [hm, himg, hw.meta_eq, hblocks]
        exact hmeta
      · rw [himg, hblocks]
        exact hN
      · rw [hm, hw.meta_eq]
        exact h.2.2.2.1
      · rw [hm, himg, hw.meta_eq, hblocks]
        exact h.2.2.2.2.1
      · rw [himg, e_valid]
        exact h.valid
      · rw [hm, himg, hfree, hw.meta_eq, hblocks]
        exact hw.table.congr e_slot e_ind
    · rw [himg]
      exact hblocks
    · rw [hm]
      exact hw.meta_eq
    · rw [himg]
      exact e_valid
    · rw [himg]
      exact e_size
    · intro q hq1 hq2
      obtain ⟨hq, hw1, hw2⟩ := hw.written q hq1 hq2
      unfold slotOf
      rw [himg, e_slot]
      refine ⟨hq, hw1, ?_⟩
      rw [hget _ (hw.table.region _ hq hw1).1]
      exact hw2
    · intro j hj hnz
      unfold slotOf
      rw [himg, e_slot]
      exact hw.keep j hj hnz
    · intro q hq1 hq hnz
      unfold slotOf at hnz ⊢
      have hreg := h.table.region _ hq hnz
      rw [himg, hget _ hreg.1]
      by_cases hqs : q / BLOCK_SIZE = O / BLOCK_SIZE
      · rw [hqs] at hnz ⊢
        rw [hqs] at hq
        apply hw.frame0 hq hnz
        simp only [BLOCK_SIZE] at *
        omega
      · have hlt : q / BLOCK_SIZE < O / BLOCK_SIZE := by
          have : q / BLOCK_SIZE ≤ O / BLOCK_SIZE := Nat.div_le_div_right (Nat.le_of_lt hq1)
          omega
        have hfr := hw.frame _ hreg.2 (h.table.used _ hq hnz)
          (h.table.ne_ind _ hq hnz)
          (fun j hj1 hj2 he => by
            have := h.table.inj _ hq hnz j hj2 he.symm
            omega)
        rw [hfr]
    · rw [hfree]
      exact hw.freemono
    · intro blk hblk hnf hib0 hni hsl
      rw [himg]
      unfold savedDisk
      rw [Disk.get_put_ne _ _ _ _ hib0]
      exact hw.frame blk hblk hnf hni (fun j _ hj => hsl j hj)
    · intro m hmn hm
      have hfr : ∀ blk, 0 < blk → blk ≤ fs.meta_data.inode_blocks →
          (imageOf s1.fs).get blk = (imageOf fs).get blk := by
        intro blk hb0 hb
        have hlt := h.2.2.2.2.1
        apply hw.frame blk (by omega)
        · cases hfb : fs.isFree blk
          · rfl
          · have := h.table.free_region blk (by omega) hfb
            omega
        · intro he
          have hz : (inodeAt (imageOf fs) n).indirect ≠ 0 := by omega
          have := (h.table.ind_region hz).1
          omega
        · intro j _ hj he
          have hz : slotPtr (inodeAt (imageOf fs) n)
              (indirectBlock (imageOf fs) (inodeAt (imageOf fs) n)) j ≠ 0 := by omega
          have := (h.table.region j hj hz).1
          omega
      rw [himg]
      unfold inodeAt savedDisk
      by_cases hb : m / INODES_PER_BLOCK = n / INODES_PER_BLOCK
      · have hoff : m % INODES_PER_BLOCK ≠ n % INODES_PER_BLOCK := by
          intro he
          apply hmn
          rw [← Nat.div_add_mod m INODES_PER_BLOCK, ← Nat.div_add_mod n INODES_PER_BLOCK, hb, he]
        rw [hb, Disk.get_put_same _ _ _ hib1, inodes_setInode_other _ _ _ _ hoff,
          hfr (n / INODES_PER_BLOCK + 1) (Nat.succ_pos _) hible]
      · rw [Disk.get_put_ne _ _ _ _ (fun he => hb (Nat.succ_injective he)),
          hfr (m / INODES_PER_BLOCK + 1) (Nat.succ_pos _) hm]
    · intro j hj hnz
      unfold slotOf at hnz ⊢
      rw [himg, e_slot] at hnz ⊢
      rcases hw.fresh j hj hnz with h1 | ⟨_, _, h3⟩
      · exact Or.inl h1
      · exact Or.inr h3
    · intro hz
      rw [himg, e_ind]
      exact hw.keep_ind hz
    · intro hz
      rw [himg, e_ind] at hz ⊢
      exact hw.fresh_ind hz
    · refine ⟨i1, hi1, fun j hj => ?_, hcover, ?_, ?_, ?_, ?_, hzero⟩
      · unfold slotOf
        rw [himg, e_slot]
        constructor
        · intro hnz
          rcases hw.fresh j hj hnz with h1 | ⟨h1, h2, _⟩
          · exact Or.inl h1
          · exact Or.inr ⟨h1, h2⟩
        · rintro (h1 | ⟨h1, h2⟩)
          · have hk := hw.keep j hj h1
            rw [hk]
            exact h1
          · exact hw.done j h1 h2
      · rcases hend with h1 | ⟨h1, h2⟩
        · exact Or.inl h1
        · exact Or.inr ⟨h1, h2⟩
      · rw [hfree]
        unfold slotOf
        rw [himg, e_slot]
        rcases hout with h1 | ⟨h1, h2⟩
        · exact Or.inl h1
        · exact Or.inr ⟨h1, h2⟩
      · have hfc : freeCount fs1 = freeCount s1.fs := by
          unfold freeCount
          rw [hfree, hm]
        rw [hfc, himg, e_ind]
        exact hw.count
      · intro h0 h1
        rw [himg, e_ind] at h1
        exact ⟨hw.ind_late h0 h1, hw.ind_need h0 h1⟩
  exact key _ rfl rfl rfl rfl

/-! ## Consequences for whole calls -/

theorem blocksFor_lt_iff (j S : Nat) : j < blocksFor S ↔ j * BLOCK_SIZE < S := by
  unfold blocksFor
  simp only [BLOCK_SIZE]
  omega

/-- A call of `fs_write` with enough free blocks and enough slots writes all its bytes:
enough free blocks are one per zero slot that the range touches, and one more when the
range reaches the indirect slots while the inode has no indirect block. -/
theorem write_full {fs fs1 : FileSystem} {n : Nat} {data : Buf} {L O k : Nat}
    (hwf : InodeWF fs n) (hres : WriteResult fs n data L O k fs1) (hk : k ≤ L) (hL : 0 < L)
    (hfit : O + L ≤ (POINTERS_PER_BLOCK + POINTERS_PER_INODE) * BLOCK_SIZE)
    (hfree : zeroSlots (inodeAt (imageOf fs) n)
        (indirectBlock (imageOf fs) (inodeAt (imageOf fs) n)) (O / BLOCK_SIZE)
        (blocksFor (O + L)) +
      (if (inodeAt (imageOf fs) n).indirect = 0 ∧ POINTERS_PER_INODE * BLOCK_SIZE < O + L
        then 1 else 0) ≤ freeCount fs) :
    k = L := by
  obtain ⟨i1, hi1, hshape, _, _, hout, hcount, hind, _⟩ := hres.reach
  rcases hout with h | ⟨h1, h2⟩
  · exact h
  · by_contra hne
    have hklt : k < L := by omega
    have hi1T : i1 < blocksFor (O + L) := by
      rw [blocksFor_lt_iff]
      omega
    rcases h2 with ⟨hex, hz⟩ | hfull
    · have hfc : freeCount fs1 = 0 := by
        apply freeCount_eq_zero
        intro t ht
        rw [hres.meta_eq, hwf.2.1] at ht
        exact hex t ht
      have hi1N : i1 < POINTERS_PER_BLOCK + POINTERS_PER_INODE := by
        simp only [POINTERS_PER_BLOCK, POINTERS_PER_INODE, BLOCK_SIZE] at *
        omega
      have hz0 : slotPtr (inodeAt (imageOf fs) n)
          (indirectBlock (imageOf fs) (inodeAt (imageOf fs) n)) i1 = 0 := by
        by_contra hnz
        have := (hshape i1 hi1N).mpr (Or.inl hnz)
        exact this hz
      have hzs := zeroSlots_succ (inodeAt (imageOf fs) n)
        (indirectBlock (imageOf fs) (inodeAt (imageOf fs) n)) (O / BLOCK_SIZE) i1
      simp only [hi1, hz0, and_self, if_true] at hzs
      have hmono := zeroSlots_mono_le (inodeAt (imageOf fs) n)
        (indirectBlock (imageOf fs) (inodeAt (imageOf fs) n)) (O / BLOCK_SIZE) (i1 + 1)
        (blocksFor (O + L)) (by omega)
      have hite : (if (inodeAt (imageOf fs) n).indirect = 0 ∧
            (inodeAt (imageOf fs1) n).indirect ≠ 0 then 1 else 0) ≤
          (if (inodeAt (imageOf fs) n).indirect = 0 ∧
            POINTERS_PER_INODE * BLOCK_SIZE < O + L then 1 else 0) := by
        by_cases hc : (inodeAt (imageOf fs) n).indirect = 0 ∧
            (inodeAt (imageOf fs1) n).indirect ≠ 0
        · have := (hind hc.1 hc.2).2
          have hc2 : (inodeAt (imageOf fs) n).indirect = 0 ∧
              POINTERS_PER_INODE * BLOCK_SIZE < O + L := ⟨hc.1, by omega⟩
          simp only [hc, hc2, and_self, if_true, ne_eq, not_false_eq_true, le_refl]
        · simp only [hc, if_false]
          omega
      omega
    · simp only [POINTERS_PER_BLOCK, POINTERS_PER_INODE, BLOCK_SIZE] at *
      omega

/-- Reading a whole file whose bytes are stored in allocated slots returns its bytes. -/
theorem fs_read_content (fs : FileSystem) (n : Nat) (out : Buf) (S : Nat) (C : Nat → Byte)
    (hwf : InodeWF fs n) (hsize : (inodeAt (imageOf fs) n).size = S) (hS0 : 0 < S)
    (hS : S ≤ (POINTERS_PER_BLOCK + POINTERS_PER_INODE) * BLOCK_SIZE)
    (hc : ∀ q, q < S → slotOf fs n (q / BLOCK_SIZE) ≠ 0 ∧
      (imageOf fs).get (slotOf fs n (q / BLOCK_SIZE)) (q % BLOCK_SIZE) = C q) :
    (fs_read fs n out S 0).1 = ((S : Nat) : Int) ∧
    ∀ k, k < S → (fs_read fs n out S 0).2 k = C k := by
  have hslots : ∀ j, j * BLOCK_SIZE < (inodeAt (imageOf fs) n).size →
      slotPtr (inodeAt (imageOf fs) n) (indirectBlock (imageOf fs) (inodeAt (imageOf fs) n)) j
        ≠ 0 ∧
      slotPtr (inodeAt (imageOf fs) n) (indirectBlock (imageOf fs) (inodeAt (imageOf fs) n)) j
        < (imageOf fs).blocks := by
    intro j hj
    rw [hsize] at hj
    have hq := (hc (j * BLOCK_SIZE) hj).1
    have e : j * BLOCK_SIZE / BLOCK_SIZE = j := by
      simp only [BLOCK_SIZE]
      omega
    rw [e] at hq
    have hjN : j < POINTERS_PER_BLOCK + POINTERS_PER_INODE := by
      simp only [POINTERS_PER_BLOCK, POINTERS_PER_INODE, BLOCK_SIZE] at *
      omega
    exact ⟨hq, (hwf.table.region j hjN hq).2⟩
  obtain ⟨h1, h2, _⟩ := fs_read_ok fs (imageOf fs) n out S 0 hwf.disk hwf.ib_lt hwf.valid
    (by rw [hsize]; exact hS0) (by rw [hsize]; exact hS)
    (fun hne => (hwf.table.ind_region hne).2) hslots
  have hcm : cmin S ((inodeAt (imageOf fs) n).size - 0) = S := by
    rw [hsize, cmin_eq]
    simp
  rw [hcm] at h1 h2
  refine ⟨h1, fun k hk => ?_⟩
  rw [h2 k hk]
  have := (hc k hk).2
  unfold slotOf at this
  simp only [Nat.zero_add]
  exact this

/-! ## Mount rebuilds the bitmap exactly -/

theorem fs_mount_true_iff (fs : FileSystem) (d : Disk) (h : (fs_mount fs d).1 = true) :
    fs.disk = none ∧ 0 < d.blocks ∧ d.blocks = (d.get 0).super.blocks ∧
    (d.blocks / 10 + (if d.blocks % 10 ≠ 0 then 1 else 0)) = (d.get 0).super.inode_blocks ∧
    ((d.blocks / 10 + (if d.blocks % 10 ≠ 0 then 1 else 0)) * INODES_PER_BLOCK) % 4294967296
      = (d.get 0).super.inodes ∧
    (d.get 0).super.magic_number = MAGIC_NUMBER ∧
    (fs_mount fs d).2 = fs_init_free_block_map
      ⟨some d, some (List.replicate d.blocks true), (d.get 0).super⟩ := by
  unfold fs_mount at h ⊢
  cases hdisk : fs.disk with
  | some x => simp [hdisk] at h
  | none =>
    simp only [hdisk, Option.isSome_none, Bool.false_eq_true, if_false, disk_read_some] at h ⊢
    by_cases h0 : 0 < d.blocks
    · simp only [h0, if_true] at h ⊢
      generalize (if d.blocks % 10 ≠ 0 then 1 else 0) = r at h ⊢
      split_ifs at h ⊢ with h1 h2 h3 h4
      exact ⟨trivial, trivial, not_not.mp h1, not_not.mp h2, not_not.mp h3, not_not.mp h4, rfl⟩
    · simp [h0] at h

/-- Claim C4: after a successful `fs_mount` of an image whose pointers obey the layout
invariant, a block index below `blocks` is marked free exactly when it lies after the inode
table and no live inode refers to it (as a nonzero direct pointer, as its indirect block, or
as a nonzero pointer inside its indirect block). -/
theorem fs_mount_bitmap_exact (fs : FileSystem) (d : Disk)
    (hmount : (fs_mount fs d).1 = true) (hlayout : LayoutOK d) :
    ∀ b, b < d.blocks →
      ((fs_mount fs d).2.isFree b = true ↔
        ((d.get 0).super.inode_blocks < b ∧
         ∀ n, n < (d.get 0).super.inode_blocks * INODES_PER_BLOCK → ¬ Refers d n b)) := by
  intro b hb
  obtain ⟨_, _, _, _, _, _, hfs⟩ := fs_mount_true_iff fs d hmount
  rw [hfs]
  have hspec := (fs_init_free_block_map_spec
    ⟨some d, some (List.replicate d.blocks true), (d.get 0).super⟩ d rfl).2 b
  rw [hspec]
  have hfree : FileSystem.isFree ⟨some d, some (List.replicate d.blocks true),
      (d.get 0).super⟩ b = true := by
    simp [FileSystem.isFree, List.getElem?_replicate, hb]
  simp only [hfree, true_and]
  constructor
  · rintro ⟨hb0, hmarks⟩
    have hgt : (d.get 0).super.inode_blocks < b := by
      by_contra hle
      exact hmarks b (by omega) (by omega) (Or.inl rfl)
    refine ⟨hgt, fun n hn href => ?_⟩
    obtain ⟨hv, _, hcases⟩ := href
    have hlay := hlayout n hn hv
    have hdiv : n / INODES_PER_BLOCK < (d.get 0).super.inode_blocks := by
      unfold INODES_PER_BLOCK at hn ⊢
      omega
    have hmod : n % INODES_PER_BLOCK < INODES_PER_BLOCK := by
      unfold INODES_PER_BLOCK
      omega
    apply hmarks (n / INODES_PER_BLOCK + 1) (Nat.le_add_left 1 _) (by omega)
    right
    refine ⟨by omega, n % INODES_PER_BLOCK, hmod, hv, ?_⟩
    rcases hcases with ⟨k, hk, hdk⟩ | hi | ⟨hi, k, hk, hpk⟩
    · exact Or.inl ⟨k, hk, hdk.symm⟩
    · have hne : (inodeAt d n).indirect ≠ 0 := by rw [hi]; exact hb0
      exact Or.inr ⟨hne, Or.inl hi.symm⟩
    · exact Or.inr ⟨hi, Or.inr ⟨(hlay.2 hi).1.2, k, hk, hpk.symm⟩⟩
  · rintro ⟨hgt, hrefs⟩
    refine ⟨by omega, fun i hi1 hi2 hm => ?_⟩
    rcases hm with hbi | ⟨_, j, hj, hv, hcases⟩
    · omega
    · have hn : (i - 1) * INODES_PER_BLOCK + j < (d.get 0).super.inode_blocks * INODES_PER_BLOCK := by
        unfold INODES_PER_BLOCK at hj ⊢
        omega
      have hdiv : ((i - 1) * INODES_PER_BLOCK + j) / INODES_PER_BLOCK + 1 = i := by
        unfold INODES_PER_BLOCK at hj ⊢
        omega
      have hmod : ((i - 1) * INODES_PER_BLOCK + j) % INODES_PER_BLOCK = j := by
        unfold INODES_PER_BLOCK at hj ⊢
        omega
      have hat : inodeAt d ((i - 1) * INODES_PER_BLOCK + j) = (d.get i).inodes j := by
        unfold inodeAt
        rw [hdiv, hmod]
      apply hrefs _ hn
      unfold Refers
      rw [hat]
      refine ⟨hv, by omega, ?_⟩
      rcases hcases with ⟨k, hk, hdk⟩ | ⟨hi, (hbi | ⟨_, k, hk, hpk⟩)⟩
      · exact Or.inl ⟨k, hk, hdk.symm⟩
      · exact Or.inr (Or.inl hbi.symm)
      · exact Or.inr (Or.inr ⟨hi, k, hk, hpk.symm⟩)

/-! ## Round trips -/

/-- Claim C1 (amended): on a mounted file system whose inode `n` is well formed and has
size 0, for every buffer `B` and length `0 < L ≤ POINTERS_PER_INODE * BLOCK_SIZE`, when the
bitmap holds at least `ceil(L / BLOCK_SIZE)` free blocks, `fs_write(n, B, L, 0)` returns `L`
and a following `fs_read(n, out, L, 0)` returns `L` with `out[0..L)` equal to `B[0..L)`. -/
theorem write_read_roundtrip (fs : FileSystem) (n : Nat) (B out : Buf) (L : Nat)
    (hwf : InodeWF fs n) (hsize : (inodeAt (imageOf fs) n).size = 0)
    (hL0 : 0 < L) (hL : L ≤ POINTERS_PER_INODE * BLOCK_SIZE)
    (hfree : blocksFor L ≤ freeCount fs) :
    (fs_write fs n B L 0).1 = ((L : Nat) : Int) ∧
    (fs_read (fs_write fs n B L 0).2 n out L 0).1 = ((L : Nat) : Int) ∧
    ∀ k, k < L → (fs_read (fs_write fs n B L 0).2 n out L 0).2 k = B k := by
  obtain ⟨k, hk, hret, hres⟩ := fs_write_ok fs n B L 0 hwf offset_zero_block
  have hkL : k = L := by
    apply write_full hwf hres hk hL0
    · simp only [POINTERS_PER_BLOCK, POINTERS_PER_INODE, BLOCK_SIZE] at *
      omega
    · have hz := zeroSlots_le (inodeAt (imageOf fs) n)
        (indirectBlock (imageOf fs) (inodeAt (imageOf fs) n)) (0 / BLOCK_SIZE)
        (blocksFor (0 + L))
      have hno : ¬ ((inodeAt (imageOf fs) n).indirect = 0 ∧
          POINTERS_PER_INODE * BLOCK_SIZE < 0 + L) := by
        intro h
        omega
      simp only [hno, if_false]
      simp only [Nat.zero_add, Nat.zero_div, Nat.sub_zero] at hz ⊢
      omega
  subst hkL
  refine ⟨hret, ?_⟩
  apply fs_read_content _ n out k B hres.wf
  · rw [hres.size_eq, hsize]
    simp only [POINTERS_PER_INODE, BLOCK_SIZE] at hL
    omega
  · exact hL0
  · simp only [POINTERS_PER_BLOCK, POINTERS_PER_INODE, BLOCK_SIZE] at *
    omega
  · intro q hq
    obtain ⟨_, h1, h2⟩ := hres.written q (Nat.zero_le q) (by omega)
    exact ⟨h1, h2⟩

theorem countP_lt_range (c : Nat) : ∀ n, (List.range n).countP (fun j => decide (j < c)) = min c n := by
  intro n
  induction n with
  | zero => simp
  | succ k ih =>
    rw [List.range_succ, List.countP_append, ih]
    by_cases h : k < c
    · simp [h]
      omega
    · simp [h]
      omega

theorem nonzeroPointers_of_shape (fs : FileSystem) (n : Nat) (h : FileShape fs n) :
    nonzeroPointers (imageOf fs) n = blocksFor (inodeAt (imageOf fs) n).size := by
  unfold nonzeroPointers
  have hc : (List.range (POINTERS_PER_INODE + POINTERS_PER_BLOCK)).countP
      (fun i => decide (slotPtr (inodeAt (imageOf fs) n)
        (indirectBlock (imageOf fs) (inodeAt (imageOf fs) n)) i ≠ 0)) =
      (List.range (POINTERS_PER_INODE + POINTERS_PER_BLOCK)).countP
        (fun j => decide (j < blocksFor (inodeAt (imageOf fs) n).size)) := by
    apply List.countP_congr
    intro j hj
    have hjN : j < POINTERS_PER_BLOCK + POINTERS_PER_INODE := by
      have := List.mem_range.mp hj
      omega
    have := h.2 j hjN
    unfold slotOf at this
    simp only [decide_eq_true_eq]
    exact this
  rw [hc, countP_lt_range]
  have : blocksFor (inodeAt (imageOf fs) n).size ≤ POINTERS_PER_INODE + POINTERS_PER_BLOCK := by
    have := h.1
    unfold blocksFor
    simp only [POINTERS_PER_BLOCK, POINTERS_PER_INODE, BLOCK_SIZE] at *
    omega
  omega

/-- An append of `L > 0` bytes at the end of a well-formed inode of the right shape keeps
the inode well formed and of the right shape, whatever count it returns. -/
theorem append_step (fs : FileSystem) (n : Nat) (B : Buf) (L : Nat) (hwf : InodeWF fs n)
    (hshape : FileShape fs n) (hL : 0 < L) :
    InodeWF (fs_write fs n B L (inodeAt (imageOf fs) n).size).2 n ∧
    FileShape (fs_write fs n B L (inodeAt (imageOf fs) n).size).2 n := by
  obtain ⟨k, hk, _, hres⟩ := fs_write_ok fs n B L (inodeAt (imageOf fs) n).size hwf
    (inodeAt_size_block _ _)
  refine ⟨hres.wf, ?_⟩
  have hfit : (inodeAt (imageOf fs) n).size + k ≤
      (POINTERS_PER_BLOCK + POINTERS_PER_INODE) * BLOCK_SIZE := by
    by_cases hk0 : k = 0
    · rw [hk0]
      exact hshape.1
    · have := (hres.written ((inodeAt (imageOf fs) n).size + k - 1) (by omega) (by omega)).1
      simp only [POINTERS_PER_BLOCK, POINTERS_PER_INODE, BLOCK_SIZE] at *
      omega
  have hsz : (inodeAt (imageOf (fs_write fs n B L (inodeAt (imageOf fs) n).size).2) n).size
      = (inodeAt (imageOf fs) n).size + k := by
    rw [hres.size_eq]
    simp only [POINTERS_PER_BLOCK, POINTERS_PER_INODE, BLOCK_SIZE] at hfit
    omega
  obtain ⟨i1, hi1, hiff, hcover, hend, _⟩ := hres.reach
  refine ⟨by rw [hsz]; exact hfit, fun j hj => ?_⟩
  rw [hiff j hj, hsz, hshape.2 j hj, blocksFor_lt_iff, blocksFor_lt_iff]
  constructor
  · rintro (h1 | ⟨h1, h2⟩)
    · omega
    · exact hcover hL j h1 h2
  · intro h
    by_cases hlt : j * BLOCK_SIZE < (inodeAt (imageOf fs) n).size
    · exact Or.inl hlt
    · right
      have hge : (inodeAt (imageOf fs) n).size / BLOCK_SIZE ≤ j := by
        simp only [BLOCK_SIZE] at *
        omega
      refine ⟨hge, ?_⟩
      rcases hend with h1 | ⟨h1, h2⟩
      · simp only [BLOCK_SIZE] at *
        omega
      · omega

/-! ## Creations and appends keep the file system consistent -/

theorem inodes_setInodeValid_other (b : Block) (j i v : Nat) (h : i ≠ j) :
    (b.setInodeValid j v).inodes i = b.inodes i := by
  have e : ∀ w, 8 * i ≤ w → w < 8 * i + 8 →
      getWord (b.setInodeValid j v) w = getWord b w := by
    intro w h1 h2
    unfold Block.setInodeValid
    rw [getWord_setWord_ne _ _ _ _ (by omega)]
  unfold Block.inodes
  rw [e _ (by omega) (by omega), e _ (by omega) (by omega), e _ (by omega) (by omega)]
  congr 1
  funext k
  by_cases hk : k < POINTERS_PER_INODE
  · simp only [hk, if_true]
    unfold POINTERS_PER_INODE at hk
    exact e _ (by omega) (by omega)
  · simp only [hk, if_false]

theorem inodes_setInodeSize_other (b : Block) (j i v : Nat) (h : i ≠ j) :
    (b.setInodeSize j v).inodes i = b.inodes i := by
  have e : ∀ w, 8 * i ≤ w → w < 8 * i + 8 →
      getWord (b.setInodeSize j v) w = getWord b w := by
    intro w h1 h2
    unfold Block.setInodeSize
    rw [getWord_setWord_ne _ _ _ _ (by omega)]
  unfold Block.inodes
  rw [e _ (by omega) (by omega), e _ (by omega) (by omega), e _ (by omega) (by omega)]
  congr 1
  funext k
  by_cases hk : k < POINTERS_PER_INODE
  · simp only [hk, if_true]
    unfold POINTERS_PER_INODE at hk
    exact e _ (by omega) (by omega)
  · simp only [hk, if_false]

/-- The record `j` after `block.inodes[j].valid = 1; block.inodes[j].size = 0`. -/
theorem inodes_created (b : Block) (j : Nat) :
    (((b.setInodeValid j 1).setInodeSize j 0).inodes j).valid = 1 ∧
    (((b.setInodeValid j 1).setInodeSize j 0).inodes j).size = 0 ∧
    (((b.setInodeValid j 1).setInodeSize j 0).inodes j).indirect = (b.inodes j).indirect ∧
    (((b.setInodeValid j 1).setInodeSize j 0).inodes j).direct = (b.inodes j).direct := by
  unfold Block.setInodeValid Block.setInodeSize Block.inodes
  refine ⟨?_, ?_, ?_, ?_⟩
  · show getWord _ _ = 1
    rw [getWord_setWord_ne _ _ _ _ (by omega), getWord_setWord_same]
  · show getWord _ _ = 0
    rw [getWord_setWord_same]
  · show getWord _ _ = getWord _ _
    rw [getWord_setWord_ne _ _ _ _ (by omega), getWord_setWord_ne _ _ _ _ (by omega)]
  · funext k
    show (if k < POINTERS_PER_INODE then getWord _ _ else 0) = _
    by_cases hk : k < POINTERS_PER_INODE
    · simp only [hk, if_true]
      unfold POINTERS_PER_INODE at hk
      rw [getWord_setWord_ne _ _ _ _ (by omega), getWord_setWord_ne _ _ _ _ (by omega)]
    · simp only [hk, if_false]

theorem forLoop_ret {σ ρ : Type} (body : Nat → σ → Step σ ρ) :
    ∀ (cnt i : Nat) (s : σ) (r : ρ), forLoop body i cnt s = Sum.inr r →
      ∃ j t, i ≤ j ∧ j < i + cnt ∧ body j t = Step.ret r := by
  intro cnt
  induction cnt with
  | zero =>
    intro i s r h
    simp [forLoop] at h
  | succ c ih =>
    intro i s r h
    unfold forLoop at h
    cases hb : body i s with
    | next s1 =>
      rw [hb] at h
      obtain ⟨j, t, h1, h2, h3⟩ := ih (i + 1) s1 r h
      exact ⟨j, t, by omega, by omega, h3⟩
    | brk s1 =>
      rw [hb] at h
      simp at h
    | ret r1 =>
      rw [hb] at h
      simp only [Sum.inr.injEq] at h
      subst h
      exact ⟨i, s, Nat.le_refl i, by omega, hb⟩

/-- What `fs_create` does to the file system: nothing, or it turns one unused record `j`
of an inode block `i` into a live record of size 0. -/
theorem fs_create_cases (fs : FileSystem) (d : Disk) (hd : fs.disk = some d) :
    (fs_create fs).2 = fs ∨
    ∃ i j, 1 ≤ i ∧ i ≤ fs.meta_data.inode_blocks ∧ i < d.blocks ∧ j < INODES_PER_BLOCK ∧
      ((d.get i).inodes j).valid = 0 ∧
      (fs_create fs).2 =
        { fs with disk := some (d.put i (((d.get i).setInodeValid j 1).setInodeSize j 0)) } := by
  unfold fs_create
  cases h : forLoop (create_block fs) 1 fs.meta_data.inode_blocks () with
  | inl u => exact Or.inl rfl
  | inr r =>
    obtain ⟨i, t, hi1, hi2, hb⟩ := forLoop_ret _ _ _ _ _ h
    unfold create_block at hb
    rw [hd, disk_read_some] at hb
    by_cases hlt : i < d.blocks
    · simp only [hlt, if_true] at hb
      cases hin : forLoop (create_record fs i (d.get i)) 0 INODES_PER_BLOCK () with
      | inl u =>
        rw [hin] at hb
        simp at hb
      | inr r1 =>
        rw [hin] at hb
        simp only [Step.ret.injEq] at hb
        subst hb
        obtain ⟨j, t1, _, hj2, hr⟩ := forLoop_ret _ _ _ _ _ hin
        unfold create_record at hr
        by_cases hv : ((d.get i).inodes j).valid = 0
        · simp only [hv, if_true] at hr
          rw [hd, disk_write_some] at hr
          simp only [hlt, if_true, Step.ret.injEq] at hr
          right
          refine ⟨i, j, hi1, by omega, hlt, by omega, hv, ?_⟩
          rw [← hr]
        · simp only [hv, if_false] at hr
          simp at hr
    · simp only [hlt, if_false] at hb
      simp at hb

theorem TableOK.mono {lo N : Nat} {free free1 : Nat → Bool} {ino : Inode} {ind : Block}
    (h : TableOK lo N free ino ind) (hf : ∀ b, free1 b = true → free b = true) :
    TableOK lo N free1 ino ind := by
  have hfalse : ∀ b, free b = false → free1 b = false := by
    intro b hb
    cases h1 : free1 b
    · rfl
    · rw [hf b h1] at hb
      exact absurd hb (by simp)
  refine ⟨fun j hj hnz => ?_, fun hnz => ?_, fun b hb hb1 => h.free_region b hb (hf b hb1)⟩
  · exact ⟨h.region j hj hnz, h.ne_ind j hj hnz, hfalse _ (h.used j hj hnz),
      fun k hk he => h.inj j hj hnz k hk he⟩
  · exact ⟨h.ind_region hnz, hfalse _ (h.ind_used hnz)⟩

/-- Well-formedness of inode `m` carries over to a file system with the same record and
indirect block for `m`, the same geometry, and no more free blocks. -/
theorem InodeWF.transfer {fs fs1 : FileSystem} {m : Nat} (h : InodeWF fs m)
    (hsome : fs1.disk.isSome = true) (hmeta : fs1.meta_data = fs.meta_data)
    (hblocks : (imageOf fs1).blocks = (imageOf fs).blocks)
    (hrec : inodeAt (imageOf fs1) m = inodeAt (imageOf fs) m)
    (hind : indirectBlock (imageOf fs1) (inodeAt (imageOf fs) m) =
      indirectBlock (imageOf fs) (inodeAt (imageOf fs) m))
    (hfree : ∀ b, fs1.isFree b = true → fs.isFree b = true) : InodeWF fs1 m := by
  obtain ⟨_, h2, h3, h4, h5, h6, h7⟩ := h
  refine ⟨hsome, ?_, ?_, ?_, ?_, ?_, ?_⟩
  · rw [hmeta, hblocks]
    exact h2
  · rw [hblocks]
    exact h3
  · rw [hmeta]
    exact h4
  · rw [hmeta, hblocks]
    exact h5
  · rw [hrec]
    exact h6
  · rw [hmeta, hblocks, hrec, hind]
    exact h7.mono hfree

theorem FileShape.carry_over {fs fs1 : FileSystem} {m : Nat} (h : FileShape fs m)
    (hrec : inodeAt (imageOf fs1) m = inodeAt (imageOf fs) m)
    (hind : indirectBlock (imageOf fs1) (inodeAt (imageOf fs) m) =
      indirectBlock (imageOf fs) (inodeAt (imageOf fs) m)) : FileShape fs1 m := by
  unfold FileShape slotOf at h ⊢
  rw [hrec, hind]
  exact h

theorem slotOf_transfer {fs fs1 : FileSystem} {m : Nat}
    (hrec : inodeAt (imageOf fs1) m = inodeAt (imageOf fs) m)
    (hind : indirectBlock (imageOf fs1) (inodeAt (imageOf fs) m) =
      indirectBlock (imageOf fs) (inodeAt (imageOf fs) m)) (j : Nat) :
    slotOf fs1 m j = slotOf fs m j := by
  unfold slotOf
  rw [hrec, hind]

/-- A write to inode `n` leaves the indirect block of another live inode `m` alone. -/
theorem write_other_indirect {fs fs1 : FileSystem} {n m : Nat} {data : Buf} {L O k : Nat}
    (h : FsOK fs) (hres : WriteResult fs n data L O k fs1)
    (hn : n / INODES_PER_BLOCK < fs.meta_data.inode_blocks)
    (hm : m / INODES_PER_BLOCK < fs.meta_data.inode_blocks) (hmn : m ≠ n)
    (hvn : (inodeAt (imageOf fs) n).valid ≠ 0) (hvm : (inodeAt (imageOf fs) m).valid ≠ 0) :
    indirectBlock (imageOf fs1) (inodeAt (imageOf fs) m) =
      indirectBlock (imageOf fs) (inodeAt (imageOf fs) m) := by
  unfold indirectBlock
  by_cases hz : (inodeAt (imageOf fs) m).indirect = 0
  · simp only [hz, if_true]
  · simp only [hz, if_false]
    have wfm := (h.live m hm hvm).1
    have hap := h.apart n m hn hm (fun e => hmn e.symm) hvn hvm hz
    have hreg := wfm.table.ind_region hz
    apply hres.frame _ hreg.2 (wfm.table.ind_used hz)
    · intro he
      have := hreg.1
      rw [he] at this
      omega
    · exact fun he => hap.1 he.symm
    · exact fun j hj he => hap.2 j hj he

/-- Consistency is kept by a write to a live inode that leaves that inode well formed and
of the right shape. -/
theorem FsOK.of_write {fs fs1 : FileSystem} {n : Nat} {data : Buf} {L O k : Nat}
    (h : FsOK fs) (hn : n / INODES_PER_BLOCK < fs.meta_data.inode_blocks)
    (hvn : (inodeAt (imageOf fs) n).valid ≠ 0)
    (hres : WriteResult fs n data L O k fs1) (hwf1 : InodeWF fs1 n)
    (hsh1 : FileShape fs1 n) : FsOK fs1 := by
  have hother : ∀ m, m / INODES_PER_BLOCK < fs.meta_data.inode_blocks → m ≠ n →
      (inodeAt (imageOf fs) m).valid ≠ 0 →
      indirectBlock (imageOf fs1) (inodeAt (imageOf fs) m) =
        indirectBlock (imageOf fs) (inodeAt (imageOf fs) m) :=
    fun m hm hmn hvm => write_other_indirect h hres hn hm hmn hvn hvm
  refine
    { disk := hwf1.1, blocks := hwf1.2.1, small := hwf1.2.2.1, table_lt := hwf1.2.2.2.2.1,
      free_region := ?_, live := ?_, dead := ?_, apart := ?_ }
  · intro b hb hf
    rw [hres.meta_eq]
    rw [hres.blocks_eq] at hb
    exact h.free_region b hb (hres.freemono b hf)
  · intro m hm hv1
    rw [hres.meta_eq] at hm
    by_cases hmn : m = n
    · subst hmn
      exact ⟨hwf1, hsh1⟩
    · have hrec := hres.others m hmn hm
      rw [hrec] at hv1
      obtain ⟨wfm, shm⟩ := h.live m hm hv1
      have hind := hother m hm hmn hv1
      exact ⟨wfm.transfer hwf1.1 hres.meta_eq hres.blocks_eq hrec hind hres.freemono,
        shm.carry_over hrec hind⟩
  · intro m hm hv0
    rw [hres.meta_eq] at hm
    have hmn : m ≠ n := by
      intro e
      subst e
      rw [hres.valid_eq] at hv0
      exact hvn hv0
    have hrec := hres.others m hmn hm
    rw [hrec] at hv0 ⊢
    exact h.dead m hm hv0
  · intro a b ha hb hab hva hvb hib
    rw [hres.meta_eq] at ha hb
    by_cases han : a = n
    · subst han
      have hbn : b ≠ a := fun e => hab e.symm
      have hrecb := hres.others b hbn hb
      rw [hrecb] at hvb hib ⊢
      have wfb := (h.live b hb hvb).1
      have husedb := wfb.table.ind_used hib
      have hap := h.apart a b ha hb hab hvn hvb hib
      constructor
      · by_cases hz : (inodeAt (imageOf fs) a).indirect = 0
        · intro he
          have hnz : (inodeAt (imageOf fs1) a).indirect ≠ 0 := by
            rw [he]
            exact hib
          rcases hres.fresh_ind hnz with h1 | h1
          · exact h1 hz
          · rw [he, husedb] at h1
            exact absurd h1 (by simp)
        · rw [hres.keep_ind hz]
          exact hap.1
      · intro j hj he
        have hnz : slotOf fs1 a j ≠ 0 := by
          rw [he]
          exact hib
        rcases hres.fresh j hj hnz with h1 | h1
        · rw [hres.keep j hj h1] at he
          exact hap.2 j hj he
        · rw [he, husedb] at h1
          exact absurd h1 (by simp)
    · have hreca := hres.others a han ha
      rw [hreca] at hva ⊢
      have wfa := (h.live a ha hva).1
      have hinda := hother a ha han hva
      have hslot := slotOf_transfer hreca hinda
      by_cases hbn : b = n
      · subst hbn
        by_cases hz : (inodeAt (imageOf fs) b).indirect = 0
        · rcases hres.fresh_ind hib with h1 | h1
          · exact absurd hz h1
          · constructor
            · intro he
              have hnz : (inodeAt (imageOf fs) a).indirect ≠ 0 := by
                rw [he]
                exact hib
              have := wfa.table.ind_used hnz
              rw [he, h1] at this
              exact absurd this (by simp)
            · intro j hj he
              rw [hslot j] at he
              have hnz : slotOf fs a j ≠ 0 := by
                rw [he]
                exact hib
              have := wfa.table.used j hj hnz
              unfold slotOf at he
              rw [he, h1] at this
              exact absurd this (by simp)
        · rw [hres.keep_ind hz]
          have hap := h.apart a b ha hb hab hva hvn hz
          refine ⟨hap.1, fun j hj => ?_⟩
          rw [hslot j]
          exact hap.2 j hj
      · have hrecb := hres.others b hbn hb
        rw [hrecb] at hvb hib ⊢
        have hap := h.apart a b ha hb hab hva hvb hib
        refine ⟨hap.1, fun j hj => ?_⟩
        rw [hslot j]
        exact hap.2 j hj

theorem slotPtr_noPointers (d : Disk) (ino : Inode) (h : NoPointers ino) (j : Nat) :
    slotPtr ino (indirectBlock d ino) j = 0 := by
  unfold slotPtr indirectBlock
  by_cases hj : j < POINTERS_PER_INODE
  · simp only [hj, if_true]
    exact h.2 j hj
  · simp only [hj, if_false, h.1, if_true]
    exact getWord_zero_block _

theorem TableOK.of_noPointers {lo N : Nat} {free : Nat → Bool} (d : Disk) (ino : Inode)
    (h : NoPointers ino) (hfree : ∀ b, b < N → free b = true → lo < b) :
    TableOK lo N free ino (indirectBlock d ino) :=
  ⟨fun j _ hnz => absurd (slotPtr_noPointers d ino h j) hnz, fun hnz => absurd h.1 hnz, hfree⟩

theorem blocksFor_zero : blocksFor 0 = 0 := by
  unfold blocksFor BLOCK_SIZE
  omega

theorem fs_load_invalid (fs : FileSystem) (n : Nat) (node : Inode)
    (hv : (inodeAt (imageOf fs) n).valid = 0) :
    (fs_load_save_inode fs.disk n node 0).1 = false := by
  unfold fs_load_save_inode
  cases hd : fs.disk with
  | none => simp [disk_read, disk_sanity_check]
  | some d =>
    have himg : imageOf fs = d := imageOf_of_disk fs d hd
    rw [himg] at hv
    unfold inodeAt at hv
    simp only [disk_read_some]
    by_cases hlt : n / INODES_PER_BLOCK + 1 < d.blocks
    · simp only [hlt, if_true, hv]
    · simp only [hlt, if_false]

theorem fs_write_invalid (fs : FileSystem) (n : Nat) (data : Buf) (L O : Nat)
    (hv : (inodeAt (imageOf fs) n).valid = 0) : (fs_write fs n data L O).2 = fs := by
  have hl := fs_load_invalid fs n Inode.uninit hv
  unfold fs_write
  rcases hr : fs_load_save_inode fs.disk n Inode.uninit 0 with ⟨b, ino, dd⟩
  rw [hr] at hl
  simp only at hl
  subst hl
  rfl

/-- Consistency is kept by `fs_create`. -/
theorem FsOK.of_create {fs : FileSystem} (h : FsOK fs) : FsOK (fs_create fs).2 := by
  rcases fs_create_cases fs (imageOf fs) (disk_of_isSome fs h.disk) with he | ⟨i, j, hi1, hi2, hi3, hj, hv, he⟩
  · rw [he]
    exact h
  · rw [he]
    have key : ∀ fs1 : FileSystem,
        imageOf fs1 = (imageOf fs).put i ((((imageOf fs).get i).setInodeValid j 1).setInodeSize j 0) →
        fs1.meta_data = fs.meta_data → fs1.isFree = fs.isFree → fs1.disk.isSome = true →
        FsOK fs1 := by
      intro fs1 himg hmeta hfree hsome
      have hblocks : (imageOf fs1).blocks = (imageOf fs).blocks := by
        rw [himg, Disk.blocks_put]
      have hget : ∀ x, x ≠ i → (imageOf fs1).get x = (imageOf fs).get x := by
        intro x hx
        rw [himg]
        exact Disk.get_put_ne _ _ _ _ hx
      have hold : ∀ m, ¬ (m / INODES_PER_BLOCK + 1 = i ∧ m % INODES_PER_BLOCK = j) →
          inodeAt (imageOf fs1) m = inodeAt (imageOf fs) m := by
        intro m hm
        unfold inodeAt
        by_cases hb : m / INODES_PER_BLOCK + 1 = i
        · have hoff : m % INODES_PER_BLOCK ≠ j := fun e => hm ⟨hb, e⟩
          rw [himg, hb, Disk.get_put_same _ _ _ hi3, inodes_setInodeSize_other _ _ _ _ hoff,
            inodes_setInodeValid_other _ _ _ _ hoff]
        · rw [hget _ hb]
      have hnew : ∀ m, m / INODES_PER_BLOCK + 1 = i → m % INODES_PER_BLOCK = j →
          (inodeAt (imageOf fs1) m).valid = 1 ∧ (inodeAt (imageOf fs1) m).size = 0 ∧
          NoPointers (inodeAt (imageOf fs1) m) := by
        intro m hb hoff
        have hm : m / INODES_PER_BLOCK < fs.meta_data.inode_blocks := by omega
        have hvm : (inodeAt (imageOf fs) m).valid = 0 := by
          unfold inodeAt
          rw [hb, hoff]
          exact hv
        have hnp := h.dead m hm hvm
        have hc := inodes_created ((imageOf fs).get i) j
        have hrec : inodeAt (imageOf fs1) m =
            ((((imageOf fs).get i).setInodeValid j 1).setInodeSize j 0).inodes j := by
          unfold inodeAt
          rw [himg, hb, hoff, Disk.get_put_same _ _ _ hi3]
        have hrec0 : inodeAt (imageOf fs) m = ((imageOf fs).get i).inodes j := by
          unfold inodeAt
          rw [hb, hoff]
        rw [hrec]
        refine ⟨hc.1, hc.2.1, ?_⟩
        unfold NoPointers
        rw [hc.2.2.1, hc.2.2.2, ← hrec0]
        exact hnp
      have hindb : ∀ m, m / INODES_PER_BLOCK < fs.meta_data.inode_blocks →
          (inodeAt (imageOf fs) m).valid ≠ 0 →
          indirectBlock (imageOf fs1) (inodeAt (imageOf fs) m) =
            indirectBlock (imageOf fs) (inodeAt (imageOf fs) m) := by
        intro m hm hvm
        unfold indirectBlock
        by_cases hz : (inodeAt (imageOf fs) m).indirect = 0
        · simp only [hz, if_true]
        · simp only [hz, if_false]
          have := ((h.live m hm hvm).1.table.ind_region hz).1
          exact hget _ (by omega)
      have hfr1 : ∀ b, b < (imageOf fs1).blocks → fs1.isFree b = true →
          fs1.meta_data.inode_blocks < b := by
        intro b hb hf
        rw [hmeta]
        rw [hblocks] at hb
        rw [hfree] at hf
        exact h.free_region b hb hf
      refine
        { disk := hsome, blocks := ?_, small := ?_, table_lt := ?_,
          free_region := hfr1, live := ?_, dead := ?_, apart := ?_ }
      · rw [hmeta, hblocks]
        exact h.blocks
      · rw [hblocks]
        exact h.small
      · rw [hmeta, hblocks]
        exact h.table_lt
      · intro m hm hv1
        by_cases hnw : m / INODES_PER_BLOCK + 1 = i ∧ m % INODES_PER_BLOCK = j
        · obtain ⟨hv1, hs1, hnp⟩ := hnew m hnw.1 hnw.2
          constructor
          · refine ⟨hsome, ?_, ?_, hm, ?_, ?_, ?_⟩
            · rw [hmeta, hblocks]
              exact h.blocks
            · rw [hblocks]
              exact h.small
            · rw [hmeta, hblocks]
              exact h.table_lt
            · rw [hv1]
              exact Nat.one_ne_zero
            · exact TableOK.of_noPointers _ _ hnp hfr1
          · unfold FileShape slotOf
            rw [hs1, blocksFor_zero]
            refine ⟨Nat.zero_le _, fun k _ => ?_⟩
            rw [slotPtr_noPointers _ _ hnp k]
            simp
        · have hrec := hold m hnw
          rw [hmeta] at hm
          rw [hrec] at hv1
          obtain ⟨wfm, shm⟩ := h.live m hm hv1
          have hind := hindb m hm hv1
          refine ⟨wfm.transfer hsome hmeta hblocks hrec hind (fun b hb => ?_),
            shm.carry_over hrec hind⟩
          rw [hfree] at hb
          exact hb
      · intro m hm hv0
        by_cases hnw : m / INODES_PER_BLOCK + 1 = i ∧ m % INODES_PER_BLOCK = j
        · exact (hnew m hnw.1 hnw.2).2.2
        · have hrec := hold m hnw
          rw [hmeta] at hm
          rw [hrec] at hv0 ⊢
          exact h.dead m hm hv0
      · intro a b ha hb hab hva hvb hib
        rw [hmeta] at ha hb
        by_cases hnb : b / INODES_PER_BLOCK + 1 = i ∧ b % INODES_PER_BLOCK = j
        · exact absurd (hnew b hnb.1 hnb.2).2.2.1 hib
        · have hrecb := hold b hnb
          rw [hrecb] at hvb hib ⊢
          by_cases hna : a / INODES_PER_BLOCK + 1 = i ∧ a % INODES_PER_BLOCK = j
          · have hnp := (hnew a hna.1 hna.2).2.2
            constructor
            · rw [hnp.1]
              exact fun e => hib e.symm
            · intro k _
              unfold slotOf
              rw [slotPtr_noPointers _ _ hnp k]
              exact fun e => hib e.symm
          · have hreca := hold a hna
            rw [hreca] at hva ⊢
            have hinda := hindb a ha hva
            have hap := h.apart a b ha hb hab hva hvb hib
            refine ⟨hap.1, fun k hk => ?_⟩
            rw [slotOf_transfer hreca hinda k]
            exact hap.2 k hk
    exact key _ rfl rfl rfl rfl

theorem Blank.ok {fs : FileSystem} (h : Blank fs) : FsOK fs := by
  obtain ⟨h1, h2, h3, h4, h5, h6⟩ := h
  have hnone : ∀ n, n / INODES_PER_BLOCK < fs.meta_data.inode_blocks →
      (inodeAt (imageOf fs) n).valid = 0 ∧ NoPointers (inodeAt (imageOf fs) n) := by
    intro n hn
    apply h6
    have := Nat.div_add_mod n INODES_PER_BLOCK
    have := Nat.mod_lt n (show 0 < INODES_PER_BLOCK by decide)
    have : (n / INODES_PER_BLOCK + 1) * INODES_PER_BLOCK
        ≤ fs.meta_data.inode_blocks * INODES_PER_BLOCK := Nat.mul_le_mul_right _ hn
    rw [Nat.add_mul, Nat.mul_comm] at this
    omega
  exact
    { disk := h1, blocks := h2, small := h3, table_lt := h4, free_region := h5,
      live := fun n hn hv => absurd (hnone n hn).1 hv,
      dead := fun n hn _ => (hnone n hn).2,
      apart := fun n _ hn _ _ hv _ _ => absurd (hnone n hn).1 hv }

theorem fs_create_meta (fs : FileSystem) (h : fs.disk.isSome = true) :
    (fs_create fs).2.meta_data = fs.meta_data := by
  rcases fs_create_cases fs (imageOf fs) (disk_of_isSome fs h) with he | ⟨i, j, _, _, _, _, _, he⟩
  · rw [he]
  · rw [he]

/-- Consistency is kept by every covered call, and the cached superblock stays. -/
theorem FsOK.of_run {fs : FileSystem} (h : FsOK fs) (op : Op)
    (hop : op.admissible fs.meta_data.inode_blocks) :
    FsOK (op.run fs) ∧ (op.run fs).meta_data = fs.meta_data := by
  cases op with
  | create => exact ⟨h.of_create, fs_create_meta fs h.disk⟩
  | append n data L =>
    obtain ⟨hL, hn⟩ := hop
    show FsOK (fs_write fs n data L (inodeAt (imageOf fs) n).size).2 ∧
      (fs_write fs n data L (inodeAt (imageOf fs) n).size).2.meta_data = fs.meta_data
    by_cases hv : (inodeAt (imageOf fs) n).valid = 0
    · rw [fs_write_invalid fs n data L _ hv]
      exact ⟨h, rfl⟩
    · obtain ⟨hwf, hsh⟩ := h.live n hn hv
      obtain ⟨k, _, _, hres⟩ := fs_write_ok fs n data L (inodeAt (imageOf fs) n).size hwf
        (inodeAt_size_block _ _)
      obtain ⟨hwf1, hsh1⟩ := append_step fs n data L hwf hsh hL
      exact ⟨h.of_write hn hv hres hwf1 hsh1, hres.meta_eq⟩

theorem FsOK.of_runOps (ops : List Op) :
    ∀ (fs : FileSystem), FsOK fs →
      (∀ op, op ∈ ops → op.admissible fs.meta_data.inode_blocks) →
      FsOK (runOps fs ops) ∧ (runOps fs ops).meta_data = fs.meta_data := by
  induction ops with
  | nil =>
    intro fs h _
    exact ⟨h, rfl⟩
  | cons op ops ih =>
    intro fs h hops
    obtain ⟨h1, hm⟩ := h.of_run op (hops op (List.mem_cons_self op ops))
    obtain ⟨h2, hm2⟩ := ih (op.run fs) h1 (fun o ho => by
      rw [hm]
      exact hops o (List.mem_cons_of_mem op ho))
    exact ⟨h2, hm2.trans hm⟩

/-- From a mounted file system without files, every sequence of covered calls leaves
every live inode with exactly `ceil(size / BLOCK_SIZE)` nonzero pointers, in its first
slots. -/
theorem block_count_of_blank (fs0 : FileSystem) (ops : List Op) (h0 : Blank fs0)
    (hops : ∀ op, op ∈ ops → op.admissible fs0.meta_data.inode_blocks) :
    ∀ n, n < fs0.meta_data.inode_blocks * INODES_PER_BLOCK →
      (inodeAt (imageOf (runOps fs0 ops)) n).valid ≠ 0 →
      nonzeroPointers (imageOf (runOps fs0 ops)) n =
        blocksFor (inodeAt (imageOf (runOps fs0 ops)) n).size ∧
      ∀ j, j < POINTERS_PER_BLOCK + POINTERS_PER_INODE →
        (slotOf (runOps fs0 ops) n j ≠ 0 ↔
          j < blocksFor (inodeAt (imageOf (runOps fs0 ops)) n).size) := by
  intro n hn hv
  obtain ⟨hok, hm⟩ := FsOK.of_runOps ops fs0 h0.ok hops
  have hn1 : n / INODES_PER_BLOCK < (runOps fs0 ops).meta_data.inode_blocks := by
    rw [hm]
    exact (Nat.div_lt_iff_lt_mul (by decide)).mpr hn
  obtain ⟨_, hsh⟩ := hok.live n hn1 hv
  exact ⟨nonzeroPointers_of_shape _ n hsh, hsh.2⟩

/-! ## The file system after `fs_format` and `fs_mount` -/

theorem forLoop_keeps {σ ρ : Type} (P : σ → Prop) (body : Nat → σ → Step σ ρ)
    (hstep : ∀ t s s1, P s → (body t s = Step.next s1 ∨ body t s = Step.brk s1) → P s1) :
    ∀ (cnt i : Nat) (s s1 : σ), P s → forLoop body i cnt s = Sum.inl s1 → P s1 := by
  intro cnt
  induction cnt with
  | zero =>
    intro i s s1 hs h
    simp only [forLoop, Sum.inl.injEq] at h
    rw [← h]
    exact hs
  | succ c ih =>
    intro i s s1 hs h
    unfold forLoop at h
    cases hb : body i s with
    | next s2 =>
      rw [hb] at h
      exact ih (i + 1) s2 s1 (hstep i s s2 hs (Or.inl hb)) h
    | brk s2 =>
      rw [hb] at h
      simp only [Sum.inl.injEq] at h
      rw [← h]
      exact hstep i s s2 hs (Or.inr hb)
    | ret r =>
      rw [hb] at h
      simp at h

theorem mark_inode_meta (M : SuperBlock) (blk : Block) (j : Nat) (g s1 : FileSystem)
    (hg : g.meta_data = M)
    (h : mark_inode blk j g = Step.next s1 ∨ mark_inode blk j g = Step.brk s1) :
    s1.meta_data = M := by
  have hdir : ∀ g1, (match forLoop (mark_direct (blk.inodes j)) 0 POINTERS_PER_INODE g with
      | Sum.inl h => h
      | Sum.inr _ => g) = g1 → g1.meta_data = M := by
    intro g1 he
    cases hl : forLoop (mark_direct (blk.inodes j)) 0 POINTERS_PER_INODE g with
    | inl x =>
      rw [hl] at he
      rw [← he]
      refine forLoop_keeps (fun s => s.meta_data = M) _ (fun t s s2 hs hb => ?_) _ _ _ _ hg hl
      unfold mark_direct at hb
      simp only [Step.next.injEq, reduceCtorEq, or_false] at hb
      rw [← hb, setFree_meta]
      exact hs
    | inr x =>
      rw [hl] at he
      rw [← he]
      exact hg
  unfold mark_inode at h
  by_cases hv : (blk.inodes j).valid = 0
  · simp only [hv, if_true, Step.next.injEq, reduceCtorEq, or_false] at h
    rw [← h]
    exact hg
  · simp only [hv, if_false] at h
    generalize hg1 : (match forLoop (mark_direct (blk.inodes j)) 0 POINTERS_PER_INODE g with
      | Sum.inl h => h
      | Sum.inr _ => g) = g1 at h
    have hm1 := hdir g1 hg1
    by_cases hi : (blk.inodes j).indirect = 0
    · simp only [hi, if_true, Step.next.injEq, reduceCtorEq, or_false] at h
      rw [← h]
      exact hm1
    · simp only [hi, if_false] at h
      have hm2 : (g1.setFree (blk.inodes j).indirect false).meta_data = M := by
        rw [setFree_meta]
        exact hm1
      cases hr : disk_read (g1.setFree (blk.inodes j).indirect false).disk (blk.inodes j).indirect with
      | none =>
        rw [hr] at h
        simp only [Step.next.injEq, reduceCtorEq, or_false] at h
        rw [← h]
        exact hm2
      | some ind =>
        simp only [hr] at h
        cases hl : forLoop (mark_pointers ind) 0 POINTERS_PER_BLOCK
            (g1.setFree (blk.inodes j).indirect false) with
        | inl x =>
          rw [hl] at h
          simp only [Step.next.injEq, reduceCtorEq, or_false] at h
          rw [← h]
          refine forLoop_keeps (fun s => s.meta_data = M) _ (fun t s s2 hs hb => ?_) _ _ _ _ hm2 hl
          unfold mark_pointers at hb
          simp only [Step.next.injEq, reduceCtorEq, or_false] at hb
          rw [← hb, setFree_meta]
          exact hs
        | inr x =>
          rw [hl] at h
          simp only [Step.next.injEq, reduceCtorEq, or_false] at h
          rw [← h]
          exact hm2

theorem mark_inode_block_meta (M : SuperBlock) (i : Nat) (f s1 : FileSystem)
    (hf : f.meta_data = M)
    (h : mark_inode_block i f = Step.next s1 ∨ mark_inode_block i f = Step.brk s1) :
    s1.meta_data = M := by
  have hm1 : (f.setFree i false).meta_data = M := by
    rw [setFree_meta]
    exact hf
  unfold mark_inode_block at h
  cases hr : disk_read (f.setFree i false).disk i with
  | none =>
    simp only [hr, Step.next.injEq, reduceCtorEq, or_false] at h
    rw [← h]
    exact hm1
  | some blk =>
    simp only [hr] at h
    cases hl : forLoop (mark_inode blk) 0 INODES_PER_BLOCK (f.setFree i false) with
    | inl x =>
      rw [hl] at h
      simp only [Step.next.injEq, reduceCtorEq, or_false] at h
      rw [← h]
      exact forLoop_keeps (fun s => s.meta_data = M) _
        (fun t s s2 hs hb => mark_inode_meta M blk t s s2 hs hb) _ _ _ _ hm1 hl
    | inr x =>
      rw [hl] at h
      simp only [Step.next.injEq, reduceCtorEq, or_false] at h
      rw [← h]
      exact hm1

theorem fs_init_free_block_map_meta (fs : FileSystem) :
    (fs_init_free_block_map fs).meta_data = fs.meta_data := by
  unfold fs_init_free_block_map
  have hm0 : (fs.setFree 0 false).meta_data = fs.meta_data := setFree_meta _ _ _
  cases hl : forLoop mark_inode_block 1 (fs.setFree 0 false).meta_data.inode_blocks
      (fs.setFree 0 false) with
  | inl x =>
    simp only [hl]
    exact forLoop_keeps (fun s => s.meta_data = fs.meta_data) _
      (fun t s s2 hs hb => mark_inode_block_meta _ t s s2 hs hb) _ _ _ _ hm0 hl
  | inr x =>
    simp only [hl]
    exact hm0

theorem format_loop : ∀ (cnt i : Nat) (d : Disk), i + cnt ≤ d.blocks →
    ∃ d1, forLoop format_body i cnt d = (Sum.inl d1 : Disk ⊕ Unit) ∧ d1.blocks = d.blocks ∧
      ∀ x, d1.get x = if i ≤ x ∧ x < i + cnt then zero_block else d.get x := by
  intro cnt
  induction cnt with
  | zero =>
    intro i d _
    refine ⟨d, rfl, rfl, fun x => ?_⟩
    have : ¬ (i ≤ x ∧ x < i + 0) := by omega
    simp only [this, if_false]
  | succ c ih =>
    intro i d h
    have hi : i < d.blocks := by omega
    have hb : format_body i d = Step.next (d.put i zero_block) := by
      unfold format_body
      rw [disk_write_some]
      simp only [hi, if_true]
    obtain ⟨d1, hl, hbl, hget⟩ := ih (i + 1) (d.put i zero_block) (by
      rw [Disk.blocks_put]
      omega)
    refine ⟨d1, ?_, ?_, fun x => ?_⟩
    · simp only [forLoop, hb]
      exact hl
    · rw [hbl, Disk.blocks_put]
    · rw [hget x, Disk.get_put]
      by_cases hx : x = i
      · subst hx
        have h1 : ¬ (x + 1 ≤ x ∧ x < x + 1 + c) := by omega
        have h2 : x ≤ x ∧ x < x + (c + 1) := by omega
        simp only [h1, h2, hi, if_false, if_true, and_self]
      · by_cases hr : i + 1 ≤ x ∧ x < i + 1 + c
        · have h2 : i ≤ x ∧ x < i + (c + 1) := by omega
          simp only [hr, h2, if_true, and_self]
        · have h2 : ¬ (i ≤ x ∧ x < i + (c + 1)) := by omega
          simp only [hr, h2, hx, if_false, false_and]

/-- The device after `fs_format` on an unmounted file system object: the superblock in
block 0, zeros in every other block below `2^31`. -/
theorem fs_format_spec (disk : Disk) (h : 0 < disk.blocks) :
    (fs_format unmountedFs disk).1 = true ∧
    (fs_format unmountedFs disk).2.blocks = disk.blocks ∧
    (fs_format unmountedFs disk).2.get 0 = zero_block.setSuper
      { magic_number := MAGIC_NUMBER, blocks := disk.blocks % 4294967296,
        inode_blocks := (disk.blocks / 10 + (if disk.blocks % 10 ≠ 0 then 1 else 0)) % 4294967296,
        inodes := ((disk.blocks / 10 + (if disk.blocks % 10 ≠ 0 then 1 else 0)) % 4294967296
          * INODES_PER_BLOCK) % 4294967296 } ∧
    ∀ x, 1 ≤ x → x < disk.blocks → x < 2147483648 →
      (fs_format unmountedFs disk).2.get x = zero_block := by
  unfold fs_format
  simp only [unmountedFs, Option.isSome_none, Bool.false_eq_true, if_false, disk_write_some, h,
    if_true]
  generalize hblk : zero_block.setSuper
      { magic_number := MAGIC_NUMBER, blocks := disk.blocks % 4294967296,
        inode_blocks := (disk.blocks / 10 + (if disk.blocks % 10 ≠ 0 then 1 else 0)) % 4294967296,
        inodes := ((disk.blocks / 10 + (if disk.blocks % 10 ≠ 0 then 1 else 0)) % 4294967296
          * INODES_PER_BLOCK) % 4294967296 } = blk
  generalize hlast : (if disk.blocks < 2147483648 then disk.blocks else 2147483648) = last
  have hlast1 : last ≤ disk.blocks := by
    rw [← hlast]
    split_ifs <;> omega
  have hlast2 : ∀ x, x < disk.blocks → x < 2147483648 → x < last := by
    intro x h1 h2
    rw [← hlast]
    split_ifs <;> omega
  obtain ⟨d1, hl, hbl, hget⟩ := format_loop (last - 1) 1 (disk.put 0 blk) (by
    rw [Disk.blocks_put]
    omega)
  rw [hl]
  refine ⟨rfl, ?_, ?_, fun x hx1 hx2 hx3 => ?_⟩
  · show d1.blocks = _
    rw [hbl, Disk.blocks_put]
  · show d1.get 0 = _
    rw [hget 0]
    have : ¬ (1 ≤ 0 ∧ 0 < 1 + (last - 1)) := by omega
    simp only [this, if_false]
    exact Disk.get_put_same _ _ _ h
  · show d1.get x = _
    rw [hget x]
    have := hlast2 x hx2 hx3
    have : 1 ≤ x ∧ x < 1 + (last - 1) := by omega
    simp only [this, if_true, and_self]

theorem super_setSuper (b : Block) (s : SuperBlock) :
    (b.setSuper s).super = ⟨s.magic_number % 4294967296, s.blocks % 4294967296,
      s.inode_blocks % 4294967296, s.inodes % 4294967296⟩ := by
  simp [Block.super, Block.setSuper, getWord_setWord]

theorem fs_mount_ok (d : Disk) (h0 : 0 < d.blocks) (h1 : d.blocks = (d.get 0).super.blocks)
    (h2 : d.blocks / 10 + (if d.blocks % 10 ≠ 0 then 1 else 0) = (d.get 0).super.inode_blocks)
    (h3 : ((d.blocks / 10 + (if d.blocks % 10 ≠ 0 then 1 else 0)) * INODES_PER_BLOCK)
      % 4294967296 = (d.get 0).super.inodes)
    (h4 : (d.get 0).super.magic_number = MAGIC_NUMBER) :
    fs_mount unmountedFs d = (true, fs_init_free_block_map
      ⟨some d, some (List.replicate d.blocks true), (d.get 0).super⟩) := by
  unfold fs_mount
  simp only [unmountedFs, Option.isSome_none, Bool.false_eq_true, if_false, disk_read_some, h0,
    if_true]
  rw [if_neg (not_not.mpr h1), if_neg (not_not.mpr h2), if_neg (not_not.mpr h3),
    if_neg (not_not.mpr h4)]

/-- The file system after `fs_format` and `fs_mount` on a device of `2 ≤ N < 2^32`
blocks is mounted and without files. -/
theorem freshFs_blank (N : Nat) (h2 : 2 ≤ N) (hN : N < 4294967296) : Blank (freshFs N) := by
  have hraw : (rawDevice N).blocks = N := by
    simp [rawDevice, Disk.blocks]
  obtain ⟨_, hbl, hsb, hzero⟩ := fs_format_spec (rawDevice N) (by omega)
  unfold freshFs
  generalize (fs_format unmountedFs (rawDevice N)).2 = d at hbl hsb hzero
  rw [hraw] at hbl hsb hzero
  have hib : N / 10 + (if N % 10 ≠ 0 then 1 else 0) < N := by
    split_ifs <;> omega
  have hsuper : (d.get 0).super = ⟨MAGIC_NUMBER, N, N / 10 + (if N % 10 ≠ 0 then 1 else 0),
      ((N / 10 + (if N % 10 ≠ 0 then 1 else 0)) * INODES_PER_BLOCK) % 4294967296⟩ := by
    rw [hsb, super_setSuper]
    have e1 : MAGIC_NUMBER % 4294967296 = MAGIC_NUMBER := by decide
    have e2 : N % 4294967296 = N := Nat.mod_eq_of_lt hN
    have e3 : (N / 10 + (if N % 10 ≠ 0 then 1 else 0)) % 4294967296
        = N / 10 + (if N % 10 ≠ 0 then 1 else 0) := Nat.mod_eq_of_lt (by omega)
    simp only [e1, e2, e3, Nat.mod_mod]
  have hmount := fs_mount_ok d (by omega) (by rw [hsuper, hbl]) (by rw [hsuper, hbl])
    (by rw [hsuper, hbl]) (by rw [hsuper])
  rw [hmount]
  show Blank (fs_init_free_block_map ⟨some d, some (List.replicate d.blocks true), (d.get 0).super⟩)
  obtain ⟨hdisk, hfree⟩ := fs_init_free_block_map_spec
    ⟨some d, some (List.replicate d.blocks true), (d.get 0).super⟩ d rfl
  have hmeta := fs_init_free_block_map_meta
    ⟨some d, some (List.replicate d.blocks true), (d.get 0).super⟩
  generalize fs_init_free_block_map
    ⟨some d, some (List.replicate d.blocks true), (d.get 0).super⟩ = fs at hdisk hfree hmeta
  have himg : imageOf fs = d := imageOf_of_disk fs d hdisk
  have hm : fs.meta_data = ⟨MAGIC_NUMBER, N, N / 10 + (if N % 10 ≠ 0 then 1 else 0),
      ((N / 10 + (if N % 10 ≠ 0 then 1 else 0)) * INODES_PER_BLOCK) % 4294967296⟩ := by
    rw [hmeta]
    exact hsuper
  refine ⟨by rw [hdisk]; rfl, ?_, ?_, ?_, ?_, ?_⟩
  · rw [himg, hm, hbl]
  · rw [himg, hbl]
    exact hN
  · rw [himg, hm, hbl]
    exact hib
  · intro b hb hf
    rw [hm]
    show N / 10 + (if N % 10 ≠ 0 then 1 else 0) < b
    obtain ⟨_, hb0, hmarks⟩ := (hfree b).mp hf
    by_contra hle
    have hmk := hmarks b (by omega) (by
      show b < 1 + (d.get 0).super.inode_blocks
      rw [hsuper]
      show b < 1 + (N / 10 + (if N % 10 ≠ 0 then 1 else 0))
      omega)
    exact hmk (Or.inl rfl)
  · intro n hn
    rw [hm] at hn
    have hn1 : n < (N / 10 + (if N % 10 ≠ 0 then 1 else 0)) * INODES_PER_BLOCK := hn
    have hblk : n / INODES_PER_BLOCK + 1 < N := by
      have : n / INODES_PER_BLOCK < N / 10 + (if N % 10 ≠ 0 then 1 else 0) :=
        (Nat.div_lt_iff_lt_mul (by decide)).mpr hn1
      omega
    have hrec : inodeAt (imageOf fs) n = zero_block.inodes (n % INODES_PER_BLOCK) := by
      unfold inodeAt
      rw [himg, hzero _ (Nat.succ_pos _) hblk (by
        have : n / INODES_PER_BLOCK < N / 10 + (if N % 10 ≠ 0 then 1 else 0) :=
          (Nat.div_lt_iff_lt_mul (by decide)).mpr hn1
        split_ifs at this <;> omega)]
    rw [hrec]
    refine ⟨getWord_zero_block _, getWord_zero_block _, fun k hk => ?_⟩
    show (if k < POINTERS_PER_INODE then getWord zero_block _ else 0) = 0
    simp only [hk, if_true]
    exact getWord_zero_block _

/-! ### Devices too small or too large for an inode table -/

theorem Tableless.invalid {fs : FileSystem} (h : Tableless fs) (n : Nat) :
    (inodeAt (imageOf fs) n).valid = 0 := by
  unfold Tableless Disk.blocks at h
  unfold inodeAt Disk.get
  have : (imageOf fs).data[n / INODES_PER_BLOCK + 1]? = none :=
    List.getElem?_eq_none (Nat.le_trans h (Nat.le_add_left 1 _))
  rw [List.getD_eq_getElem?_getD, this, Option.getD_none]
  exact getWord_zero_block _

theorem Tableless.create {fs : FileSystem} (h : Tableless fs) : (fs_create fs).2 = fs := by
  cases hd : fs.disk with
  | none =>
    unfold fs_create
    cases hl : forLoop (create_block fs) 1 fs.meta_data.inode_blocks () with
    | inl u => rfl
    | inr r =>
      obtain ⟨j, t, _, _, hb⟩ := forLoop_ret _ _ _ _ _ hl
      unfold create_block at hb
      rw [hd] at hb
      simp [disk_read] at hb
  | some d =>
    rcases fs_create_cases fs d hd with he | ⟨i, j, hi1, _, hi3, _⟩
    · exact he
    · have : imageOf fs = d := imageOf_of_disk fs d hd
      unfold Tableless at h
      rw [this] at h
      omega

theorem Tableless.runOps (ops : List Op) :
    ∀ (fs : FileSystem), Tableless fs → runOps fs ops = fs := by
  induction ops with
  | nil =>
    intro fs _
    rfl
  | cons op ops ih =>
    intro fs h
    have hrun : op.run fs = fs := by
      cases op with
      | create => exact h.create
      | append n data L => exact fs_write_invalid fs n data L _ (h.invalid n)
    show SimpleFS.runOps (op.run fs) ops = fs
    rw [hrun]
    exact ih fs h

/-- The file system object after `fs_format` and `fs_mount` on a raw device is mounted and
without files, or it has no inode table block (devices of at most one block, and devices
of `2^32` blocks or more, on which `fs_mount` fails). -/
theorem freshFs_cases (N : Nat) : Blank (freshFs N) ∨ Tableless (freshFs N) := by
  by_cases h2 : 2 ≤ N
  · by_cases hN : N < 4294967296
    · exact Or.inl (freshFs_blank N h2 hN)
    · right
      have hraw : (rawDevice N).blocks = N := by
        simp [rawDevice, Disk.blocks]
      obtain ⟨_, hbl, hsb, _⟩ := fs_format_spec (rawDevice N) (by omega)
      unfold freshFs
      generalize (fs_format unmountedFs (rawDevice N)).2 = d at hbl hsb
      rw [hraw] at hbl hsb
      have hne : d.blocks ≠ (d.get 0).super.blocks := by
        rw [hsb, super_setSuper, hbl]
        show N ≠ N % 4294967296 % 4294967296
        have := Nat.mod_lt N (show 0 < 4294967296 by decide)
        rw [Nat.mod_mod]
        omega
      have hm : fs_mount unmountedFs d = (false, unmountedFs) := by
        unfold fs_mount
        have h0 : 0 < d.blocks := by omega
        simp only [unmountedFs, Option.isSome_none, Bool.false_eq_true, if_false,
          disk_read_some, h0, if_true]
        rw [if_pos hne]
      rw [hm]
      show (imageOf unmountedFs).blocks ≤ 1
      decide
  · right
    have hN : N = 0 ∨ N = 1 := by omega
    rcases hN with h | h <;> subst h <;> decide!

/-- Claim C7 (amended): in every state reached from `fs_format` and `fs_mount` on a raw
device by any sequence of `fs_create` calls and of `fs_write` calls that append (a
positive length, at the offset given by the current size of the inode, to an inode number
of the inode table), every inode with `valid != 0` has exactly `ceil(size / BLOCK_SIZE)`
nonzero pointers among `direct[0..4]` and the entries of its indirect block, and they are
its first `ceil(size / BLOCK_SIZE)` slots. -/
theorem block_count_matches_size (N : Nat) (ops : List Op)
    (hops : ∀ op, op ∈ ops → op.admissible (freshFs N).meta_data.inode_blocks) :
    ∀ n, n < (freshFs N).meta_data.inode_blocks * INODES_PER_BLOCK →
      (inodeAt (imageOf (runOps (freshFs N) ops)) n).valid ≠ 0 →
      nonzeroPointers (imageOf (runOps (freshFs N) ops)) n =
        blocksFor (inodeAt (imageOf (runOps (freshFs N) ops)) n).size ∧
      ∀ j, j < POINTERS_PER_BLOCK + POINTERS_PER_INODE →
        (slotOf (runOps (freshFs N) ops) n j ≠ 0 ↔
          j < blocksFor (inodeAt (imageOf (runOps (freshFs N) ops)) n).size) := by
  rcases freshFs_cases N with hb | ht
  · exact block_count_of_blank (freshFs N) ops hb hops
  · intro n _ hv
    rw [Tableless.runOps ops _ ht] at hv
    exact absurd (ht.invalid n) hv

/-! ## Mount validation and formatting -/

theorem ceil_tenth (N : Nat) : N / 10 + (if N % 10 ≠ 0 then 1 else 0) = (N + 9) / 10 := by
  split_ifs <;> omega

theorem Disk.get_beyond (d : Disk) (x : Nat) (h : d.blocks ≤ x) : d.get x = zero_block := by
  unfold Disk.get
  unfold Disk.blocks at h
  rw [List.getD_eq_getElem?_getD, List.getElem?_eq_none h, Option.getD_none]

theorem fs_stat_invalid (fs : FileSystem) (n : Nat)
    (hv : (inodeAt (imageOf fs) n).valid = 0) : fs_stat fs n = -1 := by
  have hl := fs_load_invalid fs n Inode.uninit hv
  unfold fs_stat
  rcases hr : fs_load_save_inode fs.disk n Inode.uninit 0 with ⟨b, ino, dd⟩
  rw [hr] at hl
  simp only at hl
  subst hl
  rfl

theorem find_free_block_fail (fs : FileSystem) (h : (find_free_block fs).1 = -1) :
    find_free_block fs = (-1, fs) := by
  rcases find_free_block_cases fs with ⟨_, he⟩ | ⟨t, _, _, _, he⟩
  · exact he
  · rw [he] at h
    simp only at h
    omega

/-- Claim C19: if no scanned entry of the bitmap is free, `find_free_block` returns -1 and
leaves the file system object unchanged; otherwise it returns the least index `t` with
`free_blocks[t]` true, sets that entry to false and leaves every other entry, the device
and the cached superblock unchanged. In the loop of `fs_write`, when a slot needs a block
(a zero direct pointer, a missing indirect block, or a zero entry of the indirect block)
and `find_free_block` returns -1, the iteration ends by `break` with the loop state
unchanged, so that -1 is never used as a block number. -/
theorem find_free_block_first_fit (fs : FileSystem) :
    ((∀ t, t < fs.meta_data.blocks → fs.isFree t = false) →
      find_free_block fs = (-1, fs)) ∧
    (∀ t, t < fs.meta_data.blocks → fs.isFree t = true →
      (∀ u, u < t → fs.isFree u = false) →
      (find_free_block fs).1 = ((t : Nat) : Int) ∧
      (find_free_block fs).2.isFree t = false ∧
      (∀ b, b ≠ t → (find_free_block fs).2.isFree b = fs.isFree b) ∧
      (find_free_block fs).2.disk = fs.disk ∧
      (find_free_block fs).2.meta_data = fs.meta_data) ∧
    (∀ (data : Buf) (L i : Nat) (s : WriteState), s.fs = fs →
      (find_free_block fs).1 = -1 →
      (if i < POINTERS_PER_INODE then s.inode.direct i = 0
        else s.inode.indirect = 0 ∨ s.indirect.pointers (i - POINTERS_PER_INODE) = 0) →
      write_body data L i s = Step.brk s) := by
  refine ⟨find_free_block_none fs, fun t ht hp hlt => ?_, fun data L i s hs hfail hzero => ?_⟩
  · rw [find_free_block_some fs t ht hp hlt]
    exact ⟨rfl, isFree_setFree_false_same fs t, fun b hb => isFree_setFree_ne fs t b false hb,
      setFree_disk fs t false, setFree_meta fs t false⟩
  · subst hs
    have hf := find_free_block_fail s.fs hfail
    unfold write_body
    by_cases h5 : i < POINTERS_PER_INODE
    · simp only [h5, if_true] at hzero ⊢
      unfold write_slot
      simp only [hzero, if_true, hf]
    · simp only [h5, if_false] at hzero ⊢
      by_cases hi : s.inode.indirect = 0
      · simp only [hi, if_true, hf]
      · simp only [hi, if_false, false_or] at hzero ⊢
        unfold write_slot
        simp only [hzero, if_true, hf]

/-! ## The inode table -/

theorem inode_block_in_device (fs : FileSystem) (d : Disk) (n : Nat)
    (hmount : (fs_mount fs d).1 = true) (h2 : 2 ≤ d.blocks)
    (hn : n < (d.get 0).super.inodes) : n / INODES_PER_BLOCK + 1 < d.blocks := by
  obtain ⟨_, _, _, _, h3, _, _⟩ := fs_mount_true_iff fs d hmount
  rw [ceil_tenth] at h3
  have hle : (d.get 0).super.inodes ≤ (d.blocks + 9) / 10 * INODES_PER_BLOCK := by
    rw [← h3]
    exact Nat.mod_le _ _
  have hdiv : n / INODES_PER_BLOCK < (d.blocks + 9) / 10 :=
    (Nat.div_lt_iff_lt_mul (by decide)).mpr (Nat.lt_of_lt_of_le hn hle)
  omega

theorem fs_load_inode_invalid (d : Disk) (n : Nat) (node : Inode)
    (hib : n / INODES_PER_BLOCK + 1 < d.blocks) (hvalid : (inodeAt d n).valid = 0) :
    fs_load_save_inode (some d) n node 0 = (false, node, some d) := by
  unfold fs_load_save_inode
  simp only [disk_read_some, hib, if_true]
  unfold inodeAt at hvalid
  simp only [hvalid, if_true]

/-- Claim C20 (amended): on a device of at least 2 blocks that mounts, for every inode
number `n < superblock.inodes` and every inode record `r` of 32-bit fields,
`fs_load_save_inode` in save mode succeeds and writes `r` at record `n mod INODES_PER_BLOCK`
of block `n / INODES_PER_BLOCK + 1` regardless of `r.valid`, leaves the other records of
that block and all other blocks unchanged, and a following load of `n` returns the stored
record when `r.valid != 0` and fails, leaving the caller's record alone, when
`r.valid = 0`. -/
theorem inode_store_load (fs : FileSystem) (d : Disk) (n : Nat) (r node : Inode)
    (hmount : (fs_mount fs d).1 = true) (h2 : 2 ≤ d.blocks)
    (hn : n < (d.get 0).super.inodes)
    (hr : r.valid < 4294967296 ∧ r.size < 4294967296 ∧ r.indirect < 4294967296 ∧
      ∀ k, k < POINTERS_PER_INODE → r.direct k < 4294967296) :
    ∃ d1, fs_load_save_inode (some d) n r 1 = (true, r, some d1) ∧
      d1.blocks = d.blocks ∧
      (inodeAt d1 n).valid = r.valid ∧ (inodeAt d1 n).size = r.size ∧
      (inodeAt d1 n).indirect = r.indirect ∧
      (∀ k, k < POINTERS_PER_INODE → (inodeAt d1 n).direct k = r.direct k) ∧
      (∀ j, j ≠ n % INODES_PER_BLOCK →
        (d1.get (n / INODES_PER_BLOCK + 1)).inodes j =
          (d.get (n / INODES_PER_BLOCK + 1)).inodes j) ∧
      (∀ x, x ≠ n / INODES_PER_BLOCK + 1 → d1.get x = d.get x) ∧
      (r.valid ≠ 0 → fs_load_save_inode (some d1) n node 0 = (true, inodeAt d1 n, some d1)) ∧
      (r.valid = 0 → fs_load_save_inode (some d1) n node 0 = (false, node, some d1)) := by
  have hib := inode_block_in_device fs d n hmount h2 hn
  obtain ⟨hr1, hr2, hr3, hr4⟩ := hr
  refine ⟨_, fs_save_inode_ok d n r hib, Disk.blocks_put _ _ _, ?_⟩
  have hib1 : n / INODES_PER_BLOCK + 1 <
      (d.put (n / INODES_PER_BLOCK + 1)
        ((d.get (n / INODES_PER_BLOCK + 1)).setInode (n % INODES_PER_BLOCK) r)).blocks := by
    rw [Disk.blocks_put]
    exact hib
  have hat : inodeAt (d.put (n / INODES_PER_BLOCK + 1)
      ((d.get (n / INODES_PER_BLOCK + 1)).setInode (n % INODES_PER_BLOCK) r)) n =
      ((d.get (n / INODES_PER_BLOCK + 1)).setInode (n % INODES_PER_BLOCK) r).inodes
        (n % INODES_PER_BLOCK) := by
    unfold inodeAt
    rw [Disk.get_put_same _ _ _ hib]
  have hvalid : (inodeAt (d.put (n / INODES_PER_BLOCK + 1)
      ((d.get (n / INODES_PER_BLOCK + 1)).setInode (n % INODES_PER_BLOCK) r)) n).valid
      = r.valid := by
    rw [hat, inodes_setInode_valid]
    exact Nat.mod_eq_of_lt hr1
  refine ⟨hvalid, ?_, ?_, fun k hk => ?_, fun j hj => ?_, fun x hx => ?_, fun hv => ?_,
    fun hv => ?_⟩
  · rw [hat, inodes_setInode_size]
    exact Nat.mod_eq_of_lt hr2
  · rw [hat, inodes_setInode_indirect]
    exact Nat.mod_eq_of_lt hr3
  · rw [hat, inodes_setInode_direct _ _ _ _ hk]
    exact Nat.mod_eq_of_lt (hr4 k hk)
  · rw [Disk.get_put_same _ _ _ hib]
    exact inodes_setInode_other _ _ _ _ hj
  · exact Disk.get_put_ne _ _ _ _ hx
  · exact fs_load_inode_ok _ n node hib1 (by rw [hvalid]; exact hv)
  · exact fs_load_inode_invalid _ n node hib1 (by rw [hvalid]; exact hv)

/-! ## Reading -/

theorem fs_read_past_end (fs : FileSystem) (d : Disk) (n : Nat) (out : Buf) (L O : Nat)
    (hdisk : fs.disk = some d) (hib : n / INODES_PER_BLOCK + 1 < d.blocks)
    (hvalid : (inodeAt d n).valid ≠ 0) (hO : (inodeAt d n).size ≤ O) :
    fs_read fs n out L O = (-1, out) := by
  unfold fs_read
  rw [hdisk, fs_load_inode_ok d n _ hib hvalid]
  simp only [ge_iff_le, hO, if_true]

/-- Claim C15: for a live inode `n` of a mounted file system whose first
`ceil(size / BLOCK_SIZE)` logical slots exist and hold nonzero pointers to blocks of the
device (its indirect pointer, when nonzero, naming a block of the device too), for every
offset `O < size`, length `L` and buffer, `fs_read(n, out, L, O)` returns exactly
`min(L, size - O)`, and below that count `out[k]` is byte `(O + k) mod BLOCK_SIZE` of the
block that logical slot `(O + k) / BLOCK_SIZE` points to, the rest of the buffer being
kept; for every `O ≥ size` it returns -1 and keeps the buffer. The embedding of `fs_read`
returns only the count and the buffer: it has no store to the device or the bitmap. -/
theorem fs_read_stream (fs : FileSystem) (d : Disk) (n : Nat)
    (hdisk : fs.disk = some d) (hib : n / INODES_PER_BLOCK + 1 < d.blocks)
    (hvalid : (inodeAt d n).valid ≠ 0)
    (hcap : blocksFor (inodeAt d n).size ≤ POINTERS_PER_BLOCK + POINTERS_PER_INODE)
    (hind : (inodeAt d n).indirect ≠ 0 → (inodeAt d n).indirect < d.blocks)
    (hslots : ∀ j, j < blocksFor (inodeAt d n).size →
      slotPtr (inodeAt d n) (indirectBlock d (inodeAt d n)) j ≠ 0 ∧
      slotPtr (inodeAt d n) (indirectBlock d (inodeAt d n)) j < d.blocks) :
    (∀ (out : Buf) (L O : Nat), O < (inodeAt d n).size →
      (fs_read fs n out L O).1 = ((min L ((inodeAt d n).size - O) : Nat) : Int) ∧
      (∀ k, k < min L ((inodeAt d n).size - O) →
        (fs_read fs n out L O).2 k =
          d.get (slotPtr (inodeAt d n) (indirectBlock d (inodeAt d n)) ((O + k) / BLOCK_SIZE))
            ((O + k) % BLOCK_SIZE)) ∧
      (∀ k, min L ((inodeAt d n).size - O) ≤ k → (fs_read fs n out L O).2 k = out k)) ∧
    (∀ (out : Buf) (L O : Nat), (inodeAt d n).size ≤ O →
      (fs_read fs n out L O).1 = -1 ∧ (fs_read fs n out L O).2 = out) := by
  constructor
  · intro out L O hO
    have hsize : (inodeAt d n).size ≤ (POINTERS_PER_BLOCK + POINTERS_PER_INODE) * BLOCK_SIZE := by
      unfold blocksFor at hcap
      simp only [POINTERS_PER_BLOCK, POINTERS_PER_INODE, BLOCK_SIZE] at *
      omega
    have h := fs_read_ok fs d n out L O hdisk hib hvalid hO hsize hind
      (fun j hj => hslots j ((blocksFor_lt_iff j _).mpr hj))
    rw [cmin_eq] at h
    exact h
  · intro out L O hO
    rw [fs_read_past_end fs d n out L O hdisk hib hvalid hO]
    exact ⟨rfl, rfl⟩

theorem read_copy_zero (fs : FileSystem) (btr : Nat) (s : ReadState) :
    read_copy fs btr s 0 = Step.ret (-1, s.data) := by
  unfold read_copy
  simp only [if_true]

/-- The loop of `fs_read` on a file whose slot `z` has no block, all slots before it being
allocated and the range reaching slot `z`: it returns -1. -/
theorem read_loop_zero (fs : FileSystem) (d : Disk) (hdisk : fs.disk = some d) (ino : Inode)
    (ind : Block) (btr O z : Nat) (hz : z < POINTERS_PER_BLOCK + POINTERS_PER_INODE)
    (hzero : slotPtr ino ind z = 0 ∨ (POINTERS_PER_INODE ≤ z ∧ ino.indirect = 0))
    (hreach : z * BLOCK_SIZE < O + btr ∨ z = O / BLOCK_SIZE)
    (hslots : ∀ t, O / BLOCK_SIZE ≤ t → t < z →
      slotPtr ino ind t ≠ 0 ∧ slotPtr ino ind t < d.blocks ∧
      (POINTERS_PER_INODE ≤ t → ino.indirect ≠ 0)) :
    ∀ (cnt i : Nat) (s : ReadState), i + cnt = POINTERS_PER_BLOCK + POINTERS_PER_INODE →
      O / BLOCK_SIZE ≤ i → i ≤ z →
      O + s.bytes_read = i * BLOCK_SIZE + s.block_offset → s.block_offset < BLOCK_SIZE →
      ∃ r, forLoop (read_body fs ino ind btr) i cnt s = Sum.inr (-1, r) := by
  intro cnt
  induction cnt with
  | zero =>
    intro i s hi _ hiz _ _
    omega
  | succ c ih =>
    intro i s hi hOi hiz hpos hbo
    by_cases hiz2 : i = z
    · subst hiz2
      have hbody : read_body fs ino ind btr i s = Step.ret (-1, s.data) := by
        unfold read_body
        by_cases h5 : i < POINTERS_PER_INODE
        · simp only [h5, if_true]
          rcases hzero with h0 | ⟨h1, _⟩
          · unfold slotPtr at h0
            simp only [h5, if_true] at h0
            rw [h0]
            exact read_copy_zero fs btr s
          · omega
        · simp only [h5, if_false]
          by_cases hi0 : ino.indirect = 0
          · simp only [hi0, if_true]
          · simp only [hi0, if_false]
            rcases hzero with h0 | ⟨_, h2⟩
            · unfold slotPtr at h0
              simp only [h5, if_false] at h0
              rw [h0]
              exact read_copy_zero fs btr s
            · exact absurd h2 hi0
      exact ⟨s.data, by simp only [forLoop, hbody]⟩
    · have hlt : i < z := by omega
      obtain ⟨hnz, hltN, hindnz⟩ := hslots i hOi hlt
      have hzr : z * BLOCK_SIZE < O + btr := by
        rcases hreach with h | h
        · exact h
        · omega
      have hceq : cmin (BLOCK_SIZE - s.block_offset) (btr - s.bytes_read)
          = BLOCK_SIZE - s.block_offset := by
        unfold cmin
        have : BLOCK_SIZE - s.block_offset < btr - s.bytes_read := by
          simp only [BLOCK_SIZE] at *
          omega
        simp only [this, if_true]
      have hne : ¬ s.bytes_read + (BLOCK_SIZE - s.block_offset) = btr := by
        simp only [BLOCK_SIZE] at *
        omega
      have hbody : read_body fs ino ind btr i s = Step.next
          { data := memcpy s.data s.bytes_read (d.get (slotPtr ino ind i)) s.block_offset
              (BLOCK_SIZE - s.block_offset),
            bytes_read := s.bytes_read + (BLOCK_SIZE - s.block_offset),
            block_offset := 0 } := by
        have h1 : read_body fs ino ind btr i s = read_copy fs btr s (slotPtr ino ind i) := by
          unfold read_body slotPtr
          by_cases h5 : i < POINTERS_PER_INODE
          · simp only [h5, if_true]
          · simp only [h5, if_false, hindnz (Nat.le_of_not_lt h5)]
        rw [h1]
        unfold read_copy
        simp only [hnz, if_false, hdisk, disk_read_some, hltN, if_true, hceq, hne]
      simp only [forLoop, hbody]
      apply ih (i + 1)
      · omega
      · omega
      · omega
      · show O + (s.bytes_read + (BLOCK_SIZE - s.block_offset)) = (i + 1) * BLOCK_SIZE + 0
        simp only [BLOCK_SIZE] at *
        omega
      · show 0 < BLOCK_SIZE
        decide

/-- Claim C16 (amended): when `fs_read` on a live inode with `O < size` reaches a logical
slot `z` without a block (a zero pointer, or an indirect slot of an inode without indirect
block), the slots of the range before `z` holding blocks of the device, it returns -1,
whether or not bytes were copied before slot `z`. -/
theorem fs_read_zero_pointer (fs : FileSystem) (d : Disk) (n : Nat) (out : Buf) (L O z : Nat)
    (hdisk : fs.disk = some d) (hib : n / INODES_PER_BLOCK + 1 < d.blocks)
    (hvalid : (inodeAt d n).valid ≠ 0) (hO : O < (inodeAt d n).size)
    (hind : (inodeAt d n).indirect ≠ 0 → (inodeAt d n).indirect < d.blocks)
    (hz : z < POINTERS_PER_BLOCK + POINTERS_PER_INODE)
    (hzero : slotPtr (inodeAt d n) (indirectBlock d (inodeAt d n)) z = 0)
    (hreach : z * BLOCK_SIZE < O + min L ((inodeAt d n).size - O) ∨ z = O / BLOCK_SIZE)
    (hOz : O / BLOCK_SIZE ≤ z)
    (hslots : ∀ t, O / BLOCK_SIZE ≤ t → t < z →
      slotPtr (inodeAt d n) (indirectBlock d (inodeAt d n)) t ≠ 0 ∧
      slotPtr (inodeAt d n) (indirectBlock d (inodeAt d n)) t < d.blocks) :
    (fs_read fs n out L O).1 = -1 := by
  have hindread : (if (inodeAt d n).indirect ≠ 0 then disk_read (some d) (inodeAt d n).indirect
      else some zero_block) = some (indirectBlock d (inodeAt d n)) := by
    unfold indirectBlock
    by_cases h0 : (inodeAt d n).indirect = 0
    · simp [h0]
    · simp [h0, disk_read_some, hind h0]
  obtain ⟨r, hloop⟩ := read_loop_zero fs d hdisk (inodeAt d n)
    (indirectBlock d (inodeAt d n)) (cmin L ((inodeAt d n).size - O)) O z hz (Or.inl hzero)
    (by rw [cmin_eq]; exact hreach)
    (fun t h1 h2 => ⟨(hslots t h1 h2).1, (hslots t h1 h2).2,
      fun h5 => slotPtr_indirect_ne_zero d _ t h5 (hslots t h1 h2).1⟩)
    (POINTERS_PER_BLOCK + POINTERS_PER_INODE - O / BLOCK_SIZE) (O / BLOCK_SIZE)
    { data := out, bytes_read := 0, block_offset := O % BLOCK_SIZE }
    (by omega) (Nat.le_refl _) hOz
    (by
      show O + 0 = O / BLOCK_SIZE * BLOCK_SIZE + O % BLOCK_SIZE
      simp only [BLOCK_SIZE]
      omega)
    (by
      show O % BLOCK_SIZE < BLOCK_SIZE
      simp only [BLOCK_SIZE]
      omega)
  unfold fs_read
  rw [hdisk, fs_load_inode_ok d n _ hib hvalid]
  simp only [ge_iff_le, Nat.not_le.mpr hO, if_false, hindread, hloop]

/-! ## Creation -/

theorem forLoop_all_next {σ ρ : Type} (body : Nat → σ → Step σ ρ) (s : σ) :
    ∀ (cnt i : Nat), (∀ t, i ≤ t → t < i + cnt → body t s = Step.next s) →
      forLoop body i cnt s = Sum.inl s := by
  intro cnt
  induction cnt with
  | zero => intro i _; rfl
  | succ c ih =>
    intro i h
    simp only [forLoop, h i (Nat.le_refl i) (by omega)]
    exact ih (i + 1) (fun t h1 h2 => h t (by omega) (by omega))

theorem forLoop_first {σ ρ : Type} (body : Nat → σ → Step σ ρ) (s : σ) (r : ρ) (k : Nat) :
    ∀ (cnt i : Nat), i ≤ k → k < i + cnt → (∀ t, i ≤ t → t < k → body t s = Step.next s) →
      body k s = Step.ret r → forLoop body i cnt s = Sum.inr r := by
  intro cnt
  induction cnt with
  | zero => intro i h1 h2; omega
  | succ c ih =>
    intro i h1 h2 hn hr
    by_cases hik : i = k
    · subst hik
      simp only [forLoop, hr]
    · simp only [forLoop, hn i (Nat.le_refl i) (by omega)]
      exact ih (i + 1) (by omega) (by omega) (fun t h3 h4 => hn t (by omega) h4) hr

theorem create_record_live (fs : FileSystem) (i : Nat) (blk : Block) (j : Nat)
    (hv : (blk.inodes j).valid ≠ 0) : create_record fs i blk j () = Step.next () := by
  unfold create_record
  simp only [hv, if_false]

theorem create_record_unused (fs : FileSystem) (d : Disk) (hd : fs.disk = some d) (i : Nat)
    (hi : i < d.blocks) (blk : Block) (j : Nat) (hv : (blk.inodes j).valid = 0) :
    create_record fs i blk j () = Step.ret ((((i - 1) * INODES_PER_BLOCK + j : Nat) : Int),
      { fs with disk := some (d.put i ((blk.setInodeValid j 1).setInodeSize j 0)) }) := by
  unfold create_record
  simp only [hv, if_true, hd, disk_write_some, hi]

theorem create_block_full (fs : FileSystem) (d : Disk) (hd : fs.disk = some d) (i : Nat)
    (hv : ∀ j, j < INODES_PER_BLOCK → ((d.get i).inodes j).valid ≠ 0) :
    create_block fs i () = Step.next () := by
  unfold create_block
  rw [hd, disk_read_some]
  by_cases hi : i < d.blocks
  · simp only [hi, if_true]
    rw [forLoop_all_next _ () INODES_PER_BLOCK 0 (fun t _ ht =>
      create_record_live fs i (d.get i) t (hv t (by omega)))]
  · simp only [hi, if_false]

/-- With every record of the inode table in use `fs_create` returns -1 and changes
nothing. -/
theorem fs_create_full (fs : FileSystem) (d : Disk) (hd : fs.disk = some d)
    (hall : ∀ n, n < fs.meta_data.inode_blocks * INODES_PER_BLOCK → (inodeAt d n).valid ≠ 0) :
    fs_create fs = (-1, fs) := by
  unfold fs_create
  rw [forLoop_all_next _ () fs.meta_data.inode_blocks 1 (fun i h1 h2 =>
    create_block_full fs d hd i (fun j hj => by
      have h := hall ((i - 1) * INODES_PER_BLOCK + j) (by
        have : (i - 1 + 1) * INODES_PER_BLOCK ≤ fs.meta_data.inode_blocks * INODES_PER_BLOCK :=
          Nat.mul_le_mul_right _ (by omega)
        rw [Nat.add_mul] at this
        omega)
      unfold inodeAt at h
      have e1 : ((i - 1) * INODES_PER_BLOCK + j) / INODES_PER_BLOCK + 1 = i := by
        unfold INODES_PER_BLOCK at hj ⊢
        omega
      have e2 : ((i - 1) * INODES_PER_BLOCK + j) % INODES_PER_BLOCK = j := by
        unfold INODES_PER_BLOCK at hj ⊢
        omega
      rw [e1, e2] at h
      exact h))]

/-- With the record of `n` unused and every record before it in use, `fs_create` returns
`n` and turns that record into a live record of size 0. -/
theorem fs_create_least (fs : FileSystem) (d : Disk) (hd : fs.disk = some d)
    (hlo : fs.meta_data.inode_blocks < d.blocks) (n : Nat)
    (hn : n < fs.meta_data.inode_blocks * INODES_PER_BLOCK)
    (hv : (inodeAt d n).valid = 0) (hmin : ∀ m, m < n → (inodeAt d m).valid ≠ 0) :
    fs_create fs = (((n : Nat) : Int),
      { fs with disk := some (d.put (n / INODES_PER_BLOCK + 1)
          (((d.get (n / INODES_PER_BLOCK + 1)).setInodeValid (n % INODES_PER_BLOCK) 1).setInodeSize
            (n % INODES_PER_BLOCK) 0)) }) := by
  have hdiv : n / INODES_PER_BLOCK < fs.meta_data.inode_blocks :=
    (Nat.div_lt_iff_lt_mul (by decide)).mpr hn
  have hrec : ∀ i j, j < INODES_PER_BLOCK → (i - 1) * INODES_PER_BLOCK + j < n → 1 ≤ i →
      ((d.get i).inodes j).valid ≠ 0 := by
    intro i j hj hlt hi1
    have h := hmin _ hlt
    unfold inodeAt at h
    have e1 : ((i - 1) * INODES_PER_BLOCK + j) / INODES_PER_BLOCK + 1 = i := by
      unfold INODES_PER_BLOCK at hj ⊢
      omega
    have e2 : ((i - 1) * INODES_PER_BLOCK + j) % INODES_PER_BLOCK = j := by
      unfold INODES_PER_BLOCK at hj ⊢
      omega
    rw [e1, e2] at h
    exact h
  have hinner : forLoop (create_record fs (n / INODES_PER_BLOCK + 1)
      (d.get (n / INODES_PER_BLOCK + 1))) 0 INODES_PER_BLOCK () =
      Sum.inr (((n : Nat) : Int),
        { fs with disk := some (d.put (n / INODES_PER_BLOCK + 1)
          (((d.get (n / INODES_PER_BLOCK + 1)).setInodeValid (n % INODES_PER_BLOCK) 1).setInodeSize
            (n % INODES_PER_BLOCK) 0)) }) := by
    apply forLoop_first _ () _ (n % INODES_PER_BLOCK) INODES_PER_BLOCK 0 (Nat.zero_le _)
    · unfold INODES_PER_BLOCK
      omega
    · intro t _ ht
      apply create_record_live
      apply hrec _ t
      · unfold INODES_PER_BLOCK at ht ⊢
        omega
      · unfold INODES_PER_BLOCK at ht ⊢
        omega
      · exact Nat.le_add_left 1 _
    · have hc := create_record_unused fs d hd (n / INODES_PER_BLOCK + 1)
        (Nat.lt_of_le_of_lt (Nat.succ_le_of_lt hdiv) hlo)
        (d.get (n / INODES_PER_BLOCK + 1)) (n % INODES_PER_BLOCK) hv
      rw [hc]
      have e : (n / INODES_PER_BLOCK + 1 - 1) * INODES_PER_BLOCK + n % INODES_PER_BLOCK = n := by
        unfold INODES_PER_BLOCK
        omega
      rw [e]
  unfold fs_create
  rw [forLoop_first (create_block fs) () _ (n / INODES_PER_BLOCK + 1)
    fs.meta_data.inode_blocks 1 (Nat.le_add_left 1 _)
    (by rw [Nat.add_comm 1]; exact Nat.succ_lt_succ hdiv)]
  · intro t ht1 ht2
    apply create_block_full fs d hd
    intro j hj
    apply hrec t j hj _ ht1
    unfold INODES_PER_BLOCK at hj ht2 ⊢
    omega
  · unfold create_block
    rw [hd, disk_read_some]
    have hi : n / INODES_PER_BLOCK + 1 < d.blocks :=
      Nat.lt_of_le_of_lt (Nat.succ_le_of_lt hdiv) hlo
    simp only [hi, if_true, hinner]

theorem fs_stat_live (fs : FileSystem) (d : Disk) (n : Nat) (hd : fs.disk = some d)
    (hib : n / INODES_PER_BLOCK + 1 < d.blocks) (hv : (inodeAt d n).valid ≠ 0) :
    fs_stat fs n = (((inodeAt d n).size : Nat) : Int) := by
  unfold fs_stat
  rw [hd, fs_load_inode_ok d n _ hib hv]

/-- Claim C14: on a mounted file system whose inode table lies inside the device (so that
every transfer of an inode block succeeds), `fs_create` returns -1 exactly when every
inode record has `valid != 0`, and then nothing is changed; otherwise it returns the
smallest inode number `n` whose record has `valid = 0`, and afterwards that record has
`valid = 1` and `size = 0` (`fs_stat(n)` returns 0), every other inode record and every
block other than the inode block of `n` is unchanged, and the bitmap and the cached
superblock are unchanged. -/
theorem fs_create_lowest (fs : FileSystem) (d : Disk) (hd : fs.disk = some d)
    (hlo : fs.meta_data.inode_blocks < d.blocks) :
    ((fs_create fs).1 = -1 ↔
      ∀ n, n < fs.meta_data.inode_blocks * INODES_PER_BLOCK → (inodeAt d n).valid ≠ 0) ∧
    ((fs_create fs).1 = -1 → (fs_create fs).2 = fs) ∧
    (∀ n, n < fs.meta_data.inode_blocks * INODES_PER_BLOCK → (inodeAt d n).valid = 0 →
      (∀ m, m < n → (inodeAt d m).valid ≠ 0) →
      (fs_create fs).1 = ((n : Nat) : Int) ∧
      (inodeAt (imageOf (fs_create fs).2) n).valid = 1 ∧
      (inodeAt (imageOf (fs_create fs).2) n).size = 0 ∧
      fs_stat (fs_create fs).2 n = 0 ∧
      (∀ m, m ≠ n → inodeAt (imageOf (fs_create fs).2) m = inodeAt d m) ∧
      (∀ x, x ≠ n / INODES_PER_BLOCK + 1 → (imageOf (fs_create fs).2).get x = d.get x) ∧
      (imageOf (fs_create fs).2).blocks = d.blocks ∧
      (fs_create fs).2.free_blocks = fs.free_blocks ∧
      (fs_create fs).2.meta_data = fs.meta_data) := by
  have hleast : ∀ n, n < fs.meta_data.inode_blocks * INODES_PER_BLOCK →
      (inodeAt d n).valid = 0 → (∀ m, m < n → (inodeAt d m).valid ≠ 0) →
      (fs_create fs).1 = ((n : Nat) : Int) := by
    intro n hn hv hmin
    rw [fs_create_least fs d hd hlo n hn hv hmin]
  have hiff : (fs_create fs).1 = -1 ↔
      ∀ n, n < fs.meta_data.inode_blocks * INODES_PER_BLOCK → (inodeAt d n).valid ≠ 0 := by
    constructor
    · intro h n hn hv
      classical
      have hex : ∃ m, m < fs.meta_data.inode_blocks * INODES_PER_BLOCK ∧
          (inodeAt d m).valid = 0 := ⟨n, hn, hv⟩
      have h1 := hleast (Nat.find hex) (Nat.find_spec hex).1 (Nat.find_spec hex).2
        (fun m hm hvm => Nat.find_min hex hm
          ⟨Nat.lt_trans hm (Nat.find_spec hex).1, hvm⟩)
      rw [h1] at h
      omega
    · intro hall
      rw [fs_create_full fs d hd hall]
  refine ⟨hiff, fun h => ?_, fun n hn hv hmin => ?_⟩
  · rw [fs_create_full fs d hd (hiff.mp h)]
  · have hib : n / INODES_PER_BLOCK + 1 < d.blocks :=
      Nat.lt_of_le_of_lt
        (Nat.succ_le_of_lt ((Nat.div_lt_iff_lt_mul (by decide)).mpr hn)) hlo
    rw [fs_create_least fs d hd hlo n hn hv hmin]
    have hc := inodes_created (d.get (n / INODES_PER_BLOCK + 1)) (n % INODES_PER_BLOCK)
    have hat : inodeAt (d.put (n / INODES_PER_BLOCK + 1)
        (((d.get (n / INODES_PER_BLOCK + 1)).setInodeValid (n % INODES_PER_BLOCK) 1).setInodeSize
          (n % INODES_PER_BLOCK) 0)) n =
        (((d.get (n / INODES_PER_BLOCK + 1)).setInodeValid (n % INODES_PER_BLOCK) 1).setInodeSize
          (n % INODES_PER_BLOCK) 0).inodes (n % INODES_PER_BLOCK) := by
      unfold inodeAt
      rw [Disk.get_put_same _ _ _ hib]
    refine ⟨rfl, ?_, ?_, ?_, fun m hm => ?_, fun x hx => ?_, ?_, rfl, rfl⟩
    · show (inodeAt (d.put _ _) n).valid = 1
      rw [hat]
      exact hc.1
    · show (inodeAt (d.put _ _) n).size = 0
      rw [hat]
      exact hc.2.1
    · rw [fs_stat_live _ (d.put (n / INODES_PER_BLOCK + 1)
        (((d.get (n / INODES_PER_BLOCK + 1)).setInodeValid (n % INODES_PER_BLOCK) 1).setInodeSize
          (n % INODES_PER_BLOCK) 0)) n rfl (by rw [Disk.blocks_put]; exact hib)
        (by rw [hat, hc.1]; exact Nat.one_ne_zero), hat, hc.2.1]
      rfl
    · show inodeAt (d.put _ _) m = inodeAt d m
      unfold inodeAt
      by_cases hb : m / INODES_PER_BLOCK = n / INODES_PER_BLOCK
      · have hoff : m % INODES_PER_BLOCK ≠ n % INODES_PER_BLOCK := by
          intro he
          apply hm
          rw [← Nat.div_add_mod m INODES_PER_BLOCK, ← Nat.div_add_mod n INODES_PER_BLOCK, hb, he]
        rw [hb, Disk.get_put_same _ _ _ hib, inodes_setInodeSize_other _ _ _ _ hoff,
          inodes_setInodeValid_other _ _ _ _ hoff]
      · rw [Disk.get_put_ne _ _ _ _ (fun he => hb (Nat.succ_injective he))]
    · show (d.put _ _).get x = d.get x
      exact Disk.get_put_ne _ _ _ _ hx
    · show (d.put _ _).blocks = d.blocks
      exact Disk.blocks_put _ _ _

/-! ## Writing -/

/-- The two ways an iteration of the loop of `fs_write` ends once it has its block: with
`return -1` on a failed transfer, or with the counters advanced and the inode as it
was. -/
theorem write_copy_shape (data : Buf) (L : Nat) (s : WriteState) (btc bp : Nat) :
    (∃ r, write_copy data L s btc bp = Step.ret r ∧ r.1 = -1) ∨
    (∃ fs2, write_copy data L s btc bp =
      (if s.bytes_written + btc = L then
        Step.brk (WriteState.mk fs2 s.inode s.indirect (s.bytes_written + btc) 0 false)
      else Step.next (WriteState.mk fs2 s.inode s.indirect (s.bytes_written + btc) 0 false))) := by
  unfold write_copy
  cases h1 : disk_read s.fs.disk bp with
  | none => exact Or.inl ⟨_, rfl, rfl⟩
  | some blk =>
    simp only
    cases h2 : disk_write s.fs.disk bp (memcpy blk s.block_offset data s.bytes_written btc) with
    | none => exact Or.inl ⟨_, rfl, rfl⟩
    | some d1 =>
      simp only
      by_cases hfl : s.inode.indirect ≠ 0 ∧ s.inode_changes = true
      · simp only [hfl, and_self, if_true, ne_eq, not_false_eq_true]
        cases h3 : disk_write (some d1) s.inode.indirect s.indirect with
        | none => exact Or.inl ⟨_, rfl, rfl⟩
        | some d2 => exact Or.inr ⟨_, rfl⟩
      · simp only [hfl, if_false]
        exact Or.inr ⟨_, rfl⟩

theorem write_copy_inode (data : Buf) (L : Nat) (s s1 : WriteState) (btc bp : Nat)
    (h : write_copy data L s btc bp = Step.next s1 ∨ write_copy data L s btc bp = Step.brk s1) :
    s1.inode = s.inode := by
  rcases write_copy_shape data L s btc bp with ⟨r, hr, _⟩ | ⟨fs2, hs⟩
  · rw [hr] at h
    simp only [reduceCtorEq, or_self] at h
  · rw [hs] at h
    by_cases hc : s.bytes_written + btc = L
    · simp only [hc, if_true, reduceCtorEq, Step.brk.injEq, false_or] at h
      rw [← h]
    · simp only [hc, if_false, reduceCtorEq, Step.next.injEq, or_false] at h
      rw [← h]

theorem write_slot_keeps (data : Buf) (L i : Nat) (s s1 : WriteState) (btc bp : Nat)
    (h : write_slot data L i s btc bp = Step.next s1 ∨
      write_slot data L i s btc bp = Step.brk s1) :
    s1.inode.size = s.inode.size ∧ s1.inode.valid = s.inode.valid := by
  unfold write_slot at h
  by_cases hz : bp = 0
  · simp only [hz, if_true] at h
    by_cases hf : toU32 (find_free_block s.fs).1 = toU32 (-1)
    · simp only [hf, if_true, Step.brk.injEq, reduceCtorEq, false_or] at h
      subst h
      exact ⟨rfl, rfl⟩
    · simp only [hf, if_false] at h
      have hi := write_copy_inode _ _ _ _ _ _ h
      rw [hi]
      by_cases h5 : i < POINTERS_PER_INODE
      · simp only [h5, if_true]
        exact ⟨trivial, trivial⟩
      · simp only [h5, if_false]
        exact ⟨trivial, trivial⟩
  · simp only [hz, if_false] at h
    have hi := write_copy_inode _ _ _ _ _ _ h
    rw [hi]
    exact ⟨rfl, rfl⟩

theorem write_body_keeps (data : Buf) (L i : Nat) (s s1 : WriteState)
    (h : write_body data L i s = Step.next s1 ∨ write_body data L i s = Step.brk s1) :
    s1.inode.size = s.inode.size ∧ s1.inode.valid = s.inode.valid := by
  unfold write_body at h
  by_cases h5 : i < POINTERS_PER_INODE
  · simp only [h5, if_true] at h
    exact write_slot_keeps _ _ _ _ _ _ _ h
  · simp only [h5, if_false] at h
    by_cases hi0 : s.inode.indirect = 0
    · simp only [hi0, if_true] at h
      by_cases hf : toU32 (find_free_block s.fs).1 = toU32 (-1)
      · simp only [hf, if_true, Step.brk.injEq, reduceCtorEq, false_or] at h
        subst h
        exact ⟨rfl, rfl⟩
      · simp only [hf, if_false] at h
        cases hw : disk_write (find_free_block s.fs).2.disk (toU32 (find_free_block s.fs).1)
            zero_block with
        | none =>
          simp only [hw, reduceCtorEq, or_self] at h
        | some d1 =>
          simp only [hw] at h
          cases hr : disk_read (some d1) (toU32 (find_free_block s.fs).1) with
          | none =>
            simp only [hr, reduceCtorEq, or_self] at h
          | some ind =>
            simp only [hr] at h
            have hh := write_slot_keeps _ _ _ _ _ _ _ h
            exact hh
    · simp only [hi0, if_false] at h
      exact write_slot_keeps _ _ _ _ _ _ _ h

theorem write_copy_ret (data : Buf) (L : Nat) (s : WriteState) (btc bp : Nat)
    (r : Int × FileSystem) (h : write_copy data L s btc bp = Step.ret r) : r.1 = -1 := by
  rcases write_copy_shape data L s btc bp with ⟨r1, hr, h1⟩ | ⟨fs2, hs⟩
  · rw [hr] at h
    simp only [Step.ret.injEq] at h
    rw [← h]
    exact h1
  · rw [hs] at h
    by_cases hc : s.bytes_written + btc = L
    · simp only [hc, if_true, reduceCtorEq] at h
    · simp only [hc, if_false, reduceCtorEq] at h

theorem write_slot_ret (data : Buf) (L i : Nat) (s : WriteState) (btc bp : Nat)
    (r : Int × FileSystem) (h : write_slot data L i s btc bp = Step.ret r) : r.1 = -1 := by
  unfold write_slot at h
  by_cases hz : bp = 0
  · simp only [hz, if_true] at h
    by_cases hf : toU32 (find_free_block s.fs).1 = toU32 (-1)
    · simp only [hf, if_true, reduceCtorEq] at h
    · simp only [hf, if_false] at h
      exact write_copy_ret _ _ _ _ _ _ h
  · simp only [hz, if_false] at h
    exact write_copy_ret _ _ _ _ _ _ h

theorem write_body_ret (data : Buf) (L i : Nat) (s : WriteState) (r : Int × FileSystem)
    (h : write_body data L i s = Step.ret r) : r.1 = -1 := by
  unfold write_body at h
  by_cases h5 : i < POINTERS_PER_INODE
  · simp only [h5, if_true] at h
    exact write_slot_ret _ _ _ _ _ _ _ h
  · simp only [h5, if_false] at h
    by_cases hi0 : s.inode.indirect = 0
    · simp only [hi0, if_true] at h
      by_cases hf : toU32 (find_free_block s.fs).1 = toU32 (-1)
      · simp only [hf, if_true, reduceCtorEq] at h
      · simp only [hf, if_false] at h
        cases hw : disk_write (find_free_block s.fs).2.disk (toU32 (find_free_block s.fs).1)
            zero_block with
        | none =>
          simp only [hw, Step.ret.injEq] at h
          subst h
          rfl
        | some d1 =>
          simp only [hw] at h
          cases hr : disk_read (some d1) (toU32 (find_free_block s.fs).1) with
          | none =>
            simp only [hr, Step.ret.injEq] at h
            subst h
            rfl
          | some ind =>
            simp only [hr] at h
            exact write_slot_ret _ _ _ _ _ _ _ h
    · simp only [hi0, if_false] at h
      exact write_slot_ret _ _ _ _ _ _ _ h

theorem fs_stat_value (fs : FileSystem) (n s : Nat) (h : fs_stat fs n = ((s : Nat) : Int)) :
    ∃ d, fs.disk = some d ∧ n / INODES_PER_BLOCK + 1 < d.blocks ∧ (inodeAt d n).valid ≠ 0 ∧
      (inodeAt d n).size = s := by
  cases hd : fs.disk with
  | none =>
    have hv : (inodeAt (imageOf fs) n).valid = 0 := by
      unfold imageOf
      rw [hd]
      unfold inodeAt Disk.get
      simp only [List.getD_eq_getElem?_getD, List.getElem?_nil, Option.getD_none]
      exact getWord_zero_block _
    rw [fs_stat_invalid fs n hv] at h
    omega
  | some d =>
    have himg : imageOf fs = d := imageOf_of_disk fs d hd
    by_cases hv : (inodeAt d n).valid = 0
    · rw [fs_stat_invalid fs n (by rw [himg]; exact hv)] at h
      omega
    · by_cases hib : n / INODES_PER_BLOCK + 1 < d.blocks
      · rw [fs_stat_live fs d n hd hib hv] at h
        exact ⟨d, rfl, hib, hv, by omega⟩
      · exfalso
        apply hv
        unfold inodeAt
        rw [Disk.get_beyond d _ (Nat.le_of_not_lt hib)]
        exact getWord_zero_block _

theorem fs_save_true (D : Option Disk) (n : Nat) (node x : Inode) (dd : Option Disk)
    (h : fs_load_save_inode D n node 1 = (true, x, dd)) :
    ∃ d1, D = some d1 ∧ n / INODES_PER_BLOCK + 1 < d1.blocks ∧
      dd = some (d1.put (n / INODES_PER_BLOCK + 1)
        ((d1.get (n / INODES_PER_BLOCK + 1)).setInode (n % INODES_PER_BLOCK) node)) := by
  cases hD : D with
  | none =>
    rw [hD] at h
    unfold fs_load_save_inode at h
    simp [disk_read, disk_sanity_check] at h
  | some d1 =>
    rw [hD] at h
    by_cases hib : n / INODES_PER_BLOCK + 1 < d1.blocks
    · rw [fs_save_inode_ok d1 n node hib] at h
      simp only [Prod.mk.injEq, true_and] at h
      exact ⟨d1, rfl, hib, h.2.symm⟩
    · unfold fs_load_save_inode at h
      simp only [disk_read_some, hib, if_false] at h
      simp at h

/-- A call of `fs_write` on a live inode that returns a count `k ≥ 0` went through its
loop to the final store: the stored record has the size grown by `k` modulo `2^32` and
the same `valid`. -/
theorem fs_write_stored (fs : FileSystem) (d : Disk) (n : Nat) (data : Buf) (L O k : Nat)
    (hd : fs.disk = some d) (hib : n / INODES_PER_BLOCK + 1 < d.blocks)
    (hv : (inodeAt d n).valid ≠ 0)
    (hk : (fs_write fs n data L O).1 = ((k : Nat) : Int)) :
    ∃ d1, (fs_write fs n data L O).2.disk = some d1 ∧ n / INODES_PER_BLOCK + 1 < d1.blocks ∧
      (inodeAt d1 n).valid = (inodeAt d n).valid ∧
      (inodeAt d1 n).size = ((inodeAt d n).size + k) % 4294967296 := by
  unfold fs_write at hk ⊢
  rw [hd, fs_load_inode_ok d n _ hib hv] at hk ⊢
  simp only at hk ⊢
  cases hir : (if (inodeAt d n).indirect ≠ 0 then disk_read (some d) (inodeAt d n).indirect
      else some zero_block) with
  | none =>
    rw [hir] at hk
    have hk1 : (-1 : Int) = ((k : Nat) : Int) := hk
    omega
  | some ind =>
    rw [hir] at hk
    simp only at hk ⊢
    cases hl : forLoop (write_body data L) (O / BLOCK_SIZE % 4294967296)
        (POINTERS_PER_BLOCK + POINTERS_PER_INODE - O / BLOCK_SIZE % 4294967296)
        { fs := fs, inode := inodeAt d n, indirect := ind, bytes_written := 0,
          block_offset := O % BLOCK_SIZE, inode_changes := false } with
    | inr r =>
      rw [hl] at hk
      have hk1 : r.1 = ((k : Nat) : Int) := hk
      obtain ⟨j, t, _, _, hb⟩ := forLoop_ret _ _ _ _ _ hl
      have := write_body_ret _ _ _ _ _ hb
      omega
    | inl s1 =>
      rw [hl] at hk
      simp only at hk ⊢
      have hkeep := forLoop_keeps
        (fun s : WriteState => s.inode.size = (inodeAt d n).size ∧
          s.inode.valid = (inodeAt d n).valid) (write_body data L)
        (fun t s s2 hs hb => by
          have := write_body_keeps data L t s s2 hb
          exact ⟨this.1.trans hs.1, this.2.trans hs.2⟩)
        _ _ _ s1 ⟨rfl, rfl⟩ hl
      rcases hsv : fs_load_save_inode s1.fs.disk n
          { s1.inode with size := (s1.inode.size + s1.bytes_written) % 4294967296 } 1
        with ⟨b, x, dd⟩
      rw [hsv] at hk
      cases b with
      | false =>
        have hk1 : (-1 : Int) = ((k : Nat) : Int) := hk
        omega
      | true =>
        have hk1 : ((s1.bytes_written : Nat) : Int) = ((k : Nat) : Int) := hk
        have hkk : s1.bytes_written = k := by omega
        obtain ⟨d1, _, hib1, hdd⟩ := fs_save_true _ _ _ _ _ hsv
        refine ⟨_, hdd, by rw [Disk.blocks_put]; exact hib1, ?_, ?_⟩
        · unfold inodeAt
          rw [Disk.get_put_same _ _ _ hib1, inodes_setInode_valid]
          show s1.inode.valid % 4294967296 = _
          rw [hkeep.2]
          exact Nat.mod_eq_of_lt (inodeAt_valid_lt d n)
        · rw [← hkk, ← hkeep.1]
          unfold inodeAt
          rw [Disk.get_put_same _ _ _ hib1, inodes_setInode_size]
          show (s1.inode.size + s1.bytes_written) % 4294967296 % 4294967296 = _
          rw [Nat.mod_mod]

/-- Claim C17 (amended): for every live inode `n` with size `s` (as `fs_stat` reports it)
and every `fs_write(n, B, L, O)` that returns `k ≥ 0`, at an offset whose block index gives
an `int` loop counter that is not negative, the stored inode afterwards has size
`(s + k) mod 2^32`, the sum in the 32-bit unsigned field; so `fs_stat(n)` after the write
is not smaller than before whenever `s + k < 2^32`. -/
theorem write_grows_size (fs : FileSystem) (n : Nat) (data : Buf) (L O s k : Nat)
    (_ : O / BLOCK_SIZE % 4294967296 < 2147483648)
    (hs : fs_stat fs n = ((s : Nat) : Int))
    (hk : (fs_write fs n data L O).1 = ((k : Nat) : Int)) :
    fs_stat (fs_write fs n data L O).2 n = (((s + k) % 4294967296 : Nat) : Int) ∧
    (s + k < 4294967296 → fs_stat fs n ≤ fs_stat (fs_write fs n data L O).2 n) := by
  obtain ⟨d, hd, hib, hv, hsz⟩ := fs_stat_value fs n s hs
  obtain ⟨d1, hd1, hib1, hv1, hs1⟩ := fs_write_stored fs d n data L O k hd hib hv hk
  have hstat : fs_stat (fs_write fs n data L O).2 n = (((s + k) % 4294967296 : Nat) : Int) := by
    rw [fs_stat_live _ d1 n hd1 hib1 (by rw [hv1]; exact hv), hs1, hsz]
  refine ⟨hstat, fun hlt => ?_⟩
  rw [hstat, hs, Nat.mod_eq_of_lt hlt]
  omega

/-! ## Concrete runs -/

/-- Claim C3, as evaluated on the code: on a 10-block device, after `fs_format`, `fs_mount`,
`fs_create`, an `fs_write` of 20481 bytes and `fs_remove`, all successful, block 0 no longer
holds the superblock and `fs_unmount` followed by `fs_mount` returns false. -/
theorem remount_fails_after_remove :
    (fs_format unmountedFs (rawDevice 10)).1 = true ∧
    (fs_mount unmountedFs (fs_format unmountedFs (rawDevice 10)).2).1 = true ∧
    (fs_create (freshFs 10)).1 = 0 ∧
    (fs_write (fs_create (freshFs 10)).2 0 bufA 20481 0).1 = 20481 ∧
    (fs_remove scenR_written 0).1 = true ∧
    ((imageOf scenR_written).get 0).super = ⟨MAGIC_NUMBER, 10, 1, 128⟩ ∧
    ((imageOf scenR_removed).get 0).super = ⟨0, 0, 0, 0⟩ ∧
    (remount scenR_removed).1 = false := by
  decide!

/-- Claim C5, as evaluated on the code: on a 10-block device, after `fs_create`, an
`fs_write` of one byte, `fs_remove` and `fs_create` again, all successful, the in-memory
bitmap marks block 2 free while the bitmap rebuilt by a successful remount marks it
allocated. -/
theorem bitmap_differs_after_recreate :
    (fs_create (freshFs 10)).1 = 0 ∧
    (fs_write (fs_create (freshFs 10)).2 0 bufA 1 0).1 = 1 ∧
    (fs_remove (fs_write (fs_create (freshFs 10)).2 0 bufA 1 0).2 0).1 = true ∧
    (fs_create (fs_remove (fs_write (fs_create (freshFs 10)).2 0 bufA 1 0).2 0).2).1 = 0 ∧
    scenS_recreated.isFree 2 = true ∧
    (remount scenS_recreated).1 = true ∧
    (remount scenS_recreated).2.isFree 2 = false := by
  decide!

/-- Claim C6, as evaluated on the code: continuing the run of
`bitmap_differs_after_recreate` with a second `fs_create` and an `fs_write` of one byte to
the new inode 1, the live inodes 0 and 1 both have block 2 as `direct[0]`. -/
theorem block_shared_after_recreate :
    (fs_create scenS_recreated).1 = 1 ∧
    (fs_write (fs_create scenS_recreated).2 1 bufB 1 0).1 = 1 ∧
    (inodeAt (imageOf scenS_shared) 0).valid = 1 ∧
    (inodeAt (imageOf scenS_shared) 0).direct 0 = 2 ∧
    (inodeAt (imageOf scenS_shared) 1).valid = 1 ∧
    (inodeAt (imageOf scenS_shared) 1).direct 0 = 2 := by
  decide!

/-- Claim C8, as evaluated on the code: after the run of `remount_fails_after_remove`,
`free_blocks[0]` is true and `find_free_block` returns block 0. -/
theorem block0_freed_by_remove :
    scenR_written.isFree 0 = false ∧
    (fs_remove scenR_written 0).1 = true ∧
    scenR_removed.isFree 0 = true ∧
    (find_free_block scenR_removed).1 = 0 := by
  decide!

/-- Claim C9, as evaluated on the code: inode 0 of the run of `remount_fails_after_remove`
has the pointers 2 to 6, the indirect block 7 and the single nonzero entry 8 in it; its
`fs_remove` also marks block 0 free and overwrites block 0 with zeros. -/
theorem remove_zeroes_block0 :
    (inodeAt (imageOf scenR_written) 0).valid = 1 ∧
    (List.range 5).map (inodeAt (imageOf scenR_written) 0).direct = [2, 3, 4, 5, 6] ∧
    (inodeAt (imageOf scenR_written) 0).indirect = 7 ∧
    ((imageOf scenR_written).get 7).pointers 0 = 8 ∧
    (∀ k, k < 1023 → ((imageOf scenR_written).get 7).pointers (k + 1) = 0) ∧
    (fs_remove scenR_written 0).1 = true ∧
    scenR_written.isFree 0 = false ∧
    scenR_removed.isFree 0 = true ∧
    ((imageOf scenR_written).get 0).super = ⟨MAGIC_NUMBER, 10, 1, 128⟩ ∧
    ((imageOf scenR_removed).get 0).super = ⟨0, 0, 0, 0⟩ := by
  decide!

/-- Claim C10, as evaluated on the code: on a 10-block device, after two `fs_create`, an
`fs_write` of 20481 bytes to inode 0, `fs_remove` of inode 0 and an `fs_write` of one byte
to inode 1, all successful, `fs_create` returns 0 and `fs_remove` of inode 0 succeeds, and
byte 0 of block 0 differs before and after the pair. -/
theorem create_remove_changes_block0 :
    (fs_create (fs_create (freshFs 10)).2).1 = 1 ∧
    (fs_write (fs_create (fs_create (freshFs 10)).2).2 0 bufA 20481 0).1 = 20481 ∧
    (fs_remove (fs_write (fs_create (fs_create (freshFs 10)).2).2 0 bufA 20481 0).2 0).1 = true ∧
    (fs_write (fs_remove (fs_write (fs_create (fs_create (freshFs 10)).2).2
      0 bufA 20481 0).2 0).2 1 bufB 1 0).1 = 1 ∧
    (fs_create scenT_before).1 = 0 ∧
    (fs_remove (fs_create scenT_before).2 0).1 = true ∧
    (imageOf scenT_before).get 0 0 = 66 ∧
    (imageOf scenT_after).get 0 0 = 0 := by
  decide!

/-! ## Instances of the general theorems and runs that delimit them -/

theorem fs_mount_bitmap_exact_witness :
    (fs_mount unmountedFs (imageOf scenR_written)).1 = true ∧
    LayoutOK (imageOf scenR_written) ∧
    ∀ b, b < (imageOf scenR_written).blocks →
      ((fs_mount unmountedFs (imageOf scenR_written)).2.isFree b = true ↔
        (((imageOf scenR_written).get 0).super.inode_blocks < b ∧
         ∀ n, n < ((imageOf scenR_written).get 0).super.inode_blocks * INODES_PER_BLOCK →
           ¬ Refers (imageOf scenR_written) n b)) :=
  ⟨by decide!, by decide!,
    fs_mount_bitmap_exact unmountedFs (imageOf scenR_written) (by decide!) (by decide!)⟩

theorem write_read_roundtrip_witness :
    InodeWF (createdFs 10) 0 ∧
    (inodeAt (imageOf (createdFs 10)) 0).size = 0 ∧
    0 < 5 ∧ 5 ≤ POINTERS_PER_INODE * BLOCK_SIZE ∧
    blocksFor 5 ≤ freeCount (createdFs 10) ∧
    (fs_write (createdFs 10) 0 bufHello 5 0).1 = ((5 : Nat) : Int) ∧
    (fs_read (fs_write (createdFs 10) 0 bufHello 5 0).2 0 bufZ 5 0).1 = ((5 : Nat) : Int) ∧
    ∀ k, k < 5 → (fs_read (fs_write (createdFs 10) 0 bufHello 5 0).2 0 bufZ 5 0).2 k
      = bufHello k :=
  ⟨by decide!, by decide!, by decide, by decide, by decide!,
    write_read_roundtrip (createdFs 10) 0 bufHello bufZ 5
      (by decide!) (by decide!) (by decide) (by decide) (by decide!)⟩

/-- Claim C1, where it fails on the code: (a) with `L = 0` on a just created inode the
write returns 0 and the read returns -1; (b) on a 4-block device, where two blocks are
free, a write of 3 blocks to the just created inode returns 8192; (c) after the run of
`remount_fails_after_remove` with a second inode created beforehand, inode 1 is live with
size 0, a write of one byte to it returns 1 and the read of that byte returns -1. -/
theorem roundtrip_fails :
    ((inodeAt (imageOf (createdFs 10)) 0).valid = 1 ∧
     (inodeAt (imageOf (createdFs 10)) 0).size = 0 ∧
     (fs_write (createdFs 10) 0 bufA 0 0).1 = 0 ∧
     (fs_read (fs_write (createdFs 10) 0 bufA 0 0).2 0 bufZ 0 0).1 = -1) ∧
    ((inodeAt (imageOf (createdFs 4)) 0).valid = 1 ∧
     (inodeAt (imageOf (createdFs 4)) 0).size = 0 ∧
     freeCount (createdFs 4) = 2 ∧
     (fs_write (createdFs 4) 0 bufA 12288 0).1 = 8192) ∧
    ((inodeAt (imageOf (fs_remove (fs_write (fs_create (fs_create (freshFs 10)).2).2
        0 bufA 20481 0).2 0).2) 1).valid = 1 ∧
     (inodeAt (imageOf (fs_remove (fs_write (fs_create (fs_create (freshFs 10)).2).2
        0 bufA 20481 0).2 0).2) 1).size = 0 ∧
     (fs_write (fs_remove (fs_write (fs_create (fs_create (freshFs 10)).2).2
        0 bufA 20481 0).2 0).2 1 bufB 1 0).1 = 1 ∧
     (fs_read scenT_before 1 bufZ 1 0).1 = -1) := by
  decide!

theorem block_count_matches_size_witness :
    (∀ op, op ∈ [Op.create, Op.append 0 bufA 20480, Op.append 0 bufB 4096] →
      op.admissible (freshFs 10).meta_data.inode_blocks) ∧
    0 < (freshFs 10).meta_data.inode_blocks * INODES_PER_BLOCK ∧
    (inodeAt (imageOf (runOps (freshFs 10)
      [Op.create, Op.append 0 bufA 20480, Op.append 0 bufB 4096])) 0).valid ≠ 0 ∧
    (inodeAt (imageOf (runOps (freshFs 10)
      [Op.create, Op.append 0 bufA 20480, Op.append 0 bufB 4096])) 0).size = 24576 ∧
    (nonzeroPointers (imageOf (runOps (freshFs 10)
        [Op.create, Op.append 0 bufA 20480, Op.append 0 bufB 4096])) 0 =
      blocksFor (inodeAt (imageOf (runOps (freshFs 10)
        [Op.create, Op.append 0 bufA 20480, Op.append 0 bufB 4096])) 0).size ∧
     ∀ j, j < POINTERS_PER_BLOCK + POINTERS_PER_INODE →
      (slotOf (runOps (freshFs 10)
          [Op.create, Op.append 0 bufA 20480, Op.append 0 bufB 4096]) 0 j ≠ 0 ↔
        j < blocksFor (inodeAt (imageOf (runOps (freshFs 10)
          [Op.create, Op.append 0 bufA 20480, Op.append 0 bufB 4096])) 0).size)) :=
  have hops : ∀ op, op ∈ [Op.create, Op.append 0 bufA 20480, Op.append 0 bufB 4096] →
      op.admissible (freshFs 10).meta_data.inode_blocks := by
    intro op hop
    simp only [List.mem_cons, List.mem_singleton, List.not_mem_nil, or_false] at hop
    rcases hop with rfl | rfl | rfl
    · trivial
    · exact ⟨by decide, by decide!⟩
    · exact ⟨by decide, by decide!⟩
  ⟨hops, by decide!, by decide!, by decide!,
    block_count_matches_size 10 [Op.create, Op.append 0 bufA 20480, Op.append 0 bufB 4096]
      hops 0 (by decide!) (by decide!)⟩

/-- Claim C7, where it fails on the code: (a) two successful writes of one block each at
offset 0 of a just created inode leave size 8192 and one nonzero pointer; (b) a successful
write of 0 bytes to a just created inode leaves size 0 and one nonzero pointer; (c) after
`fs_create`, a write of one byte, `fs_remove` and `fs_create` again, inode 0 is live with
size 0 and one nonzero pointer. -/
theorem block_count_differs :
    ((fs_write (createdFs 10) 0 bufA 4096 0).1 = 4096 ∧
     (fs_write (fs_write (createdFs 10) 0 bufA 4096 0).2 0 bufB 4096 0).1 = 4096 ∧
     (inodeAt (imageOf (fs_write (fs_write (createdFs 10) 0 bufA 4096 0).2
        0 bufB 4096 0).2) 0).valid = 1 ∧
     (inodeAt (imageOf (fs_write (fs_write (createdFs 10) 0 bufA 4096 0).2
        0 bufB 4096 0).2) 0).size = 8192 ∧
     blocksFor 8192 = 2 ∧
     nonzeroPointers (imageOf (fs_write (fs_write (createdFs 10) 0 bufA 4096 0).2
        0 bufB 4096 0).2) 0 = 1) ∧
    ((fs_write (createdFs 10) 0 bufA 0 0).1 = 0 ∧
     (inodeAt (imageOf (fs_write (createdFs 10) 0 bufA 0 0).2) 0).valid = 1 ∧
     (inodeAt (imageOf (fs_write (createdFs 10) 0 bufA 0 0).2) 0).size = 0 ∧
     nonzeroPointers (imageOf (fs_write (createdFs 10) 0 bufA 0 0).2) 0 = 1) ∧
    ((inodeAt (imageOf scenS_recreated) 0).valid = 1 ∧
     (inodeAt (imageOf scenS_recreated) 0).size = 0 ∧
     nonzeroPointers (imageOf scenS_recreated) 0 = 1) := by
  decide!

/-! ## Mount, format and the inode table -/

/-- Claim C13, as evaluated on the code: on a 10-block device (128 inodes) with one byte of
value 1 written to inode 0, which lands in data block 2, the out-of-range inode number 128
is served from data block 2: `fs_stat(128)` returns 0, `fs_write(128, ..)` returns 1 and
changes block 2 and the bitmap, and `fs_remove(128)` returns true. -/
theorem out_of_range_inode_accepted :
    scenU.meta_data.inodes = 128 ∧
    (fs_write (createdFs 10) 0 bufOne 1 0).1 = 1 ∧
    (inodeAt (imageOf scenU) 0).direct 0 = 2 ∧
    fs_stat scenU 128 = 0 ∧
    (fs_write scenU 128 bufA 1 0).1 = 1 ∧
    (imageOf scenU).get 2 4 = 0 ∧
    (imageOf (fs_write scenU 128 bufA 1 0).2).get 2 4 = 1 ∧
    scenU.isFree 3 = true ∧
    (fs_write scenU 128 bufA 1 0).2.isFree 3 = false ∧
    (fs_remove scenU 128).1 = true := by
  decide!

theorem fs_create_lowest_witness :
    (createdFs 10).disk = some (imageOf (createdFs 10)) ∧
    (createdFs 10).meta_data.inode_blocks < (imageOf (createdFs 10)).blocks ∧
    1 < (createdFs 10).meta_data.inode_blocks * INODES_PER_BLOCK ∧
    (inodeAt (imageOf (createdFs 10)) 1).valid = 0 ∧
    (∀ m, m < 1 → (inodeAt (imageOf (createdFs 10)) m).valid ≠ 0) ∧
    (fs_create (createdFs 10)).1 = ((1 : Nat) : Int) ∧
    (inodeAt (imageOf (fs_create (createdFs 10)).2) 1).valid = 1 ∧
    (inodeAt (imageOf (fs_create (createdFs 10)).2) 1).size = 0 :=
  have h := (fs_create_lowest (createdFs 10) (imageOf (createdFs 10))
    (disk_of_isSome _ (by decide!)) (by decide!)).2.2 1 (by decide!) (by decide!) (by decide!)
  ⟨disk_of_isSome _ (by decide!), by decide!, by decide!, by decide!, by decide!,
    h.1, h.2.1, h.2.2.1⟩

/-- Claim C20, where it fails on the code: on a device of one block, which `fs_format`
formats and `fs_mount` mounts with `inodes = 128`, saving a record as inode 0 fails, for
block 1 is not a block of the device. -/
theorem store_fails_without_table :
    (fs_format unmountedFs (rawDevice 1)).1 = true ∧
    (fs_mount unmountedFs (formatted 1)).1 = true ∧
    ((formatted 1).get 0).super.inodes = 128 ∧
    (fs_load_save_inode (some (formatted 1)) 0 emptyRecord 1).1 = false := by
  decide!

theorem inode_store_load_witness :
    (fs_mount unmountedFs (formatted 10)).1 = true ∧ 2 ≤ (formatted 10).blocks ∧
    5 < ((formatted 10).get 0).super.inodes ∧
    (∃ d1, fs_load_save_inode (some (formatted 10)) 5 emptyRecord 1
      = (true, emptyRecord, some d1) ∧
      fs_load_save_inode (some d1) 5 Inode.uninit 0 = (true, inodeAt d1 5, some d1) ∧
      (inodeAt d1 5).valid = 1) :=
  ⟨by decide!, by decide!, by decide!,
    (inode_store_load unmountedFs (formatted 10) 5 emptyRecord Inode.uninit
      (by decide!) (by decide!) (by decide!)
      ⟨by decide, by decide, by decide, fun _ _ => by show (0 : Nat) < 4294967296; decide⟩).imp
      (fun _ h => ⟨h.1, h.2.2.2.2.2.2.2.2.1 (by decide), h.2.2.1⟩)⟩

/-! ## Reading and writing -/

theorem fs_read_stream_witness :
    scenH.disk = some (imageOf scenH) ∧
    0 / INODES_PER_BLOCK + 1 < (imageOf scenH).blocks ∧
    (inodeAt (imageOf scenH) 0).valid ≠ 0 ∧
    blocksFor (inodeAt (imageOf scenH) 0).size ≤ POINTERS_PER_BLOCK + POINTERS_PER_INODE ∧
    ((inodeAt (imageOf scenH) 0).indirect ≠ 0 →
      (inodeAt (imageOf scenH) 0).indirect < (imageOf scenH).blocks) ∧
    (∀ j, j < blocksFor (inodeAt (imageOf scenH) 0).size →
      slotPtr (inodeAt (imageOf scenH) 0)
        (indirectBlock (imageOf scenH) (inodeAt (imageOf scenH) 0)) j ≠ 0 ∧
      slotPtr (inodeAt (imageOf scenH) 0)
        (indirectBlock (imageOf scenH) (inodeAt (imageOf scenH) 0)) j
          < (imageOf scenH).blocks) ∧
    1 < (inodeAt (imageOf scenH) 0).size ∧
    (fs_read scenH 0 bufZ 3 1).1 =
      ((min 3 ((inodeAt (imageOf scenH) 0).size - 1) : Nat) : Int) :=
  ⟨disk_of_isSome _ (by decide!), by decide!, by decide!, by decide!, by decide!, by decide!,
    by decide!,
    ((fs_read_stream scenH (imageOf scenH) 0 (disk_of_isSome _ (by decide!)) (by decide!)
      (by decide!) (by decide!) (by decide!) (by decide!)).1 bufZ 3 1 (by decide!)).1⟩

/-- Claim C15, where it fails on the code: continuing the run of
`write_fails_on_live_inode` with two `fs_write` of 12288 bytes to inode 0 at offset 0, both
successful, inode 0 is live with size 24576 and its first `ceil(24576 / BLOCK_SIZE) = 6`
logical slots are all nonzero, slot 5 holding 65, a block the 10-block device does not
have: `fs_read` of one byte at offset 20480 returns -1, not 1, and `fs_read` of the whole
file returns -1, not 24576. -/
theorem read_fails_on_nonzero_slots :
    (fs_write scenY 0 bufA 12288 0).1 = 12288 ∧
    (fs_write (fs_write scenY 0 bufA 12288 0).2 0 bufA 12288 0).1 = 12288 ∧
    (imageOf scenY_grown).blocks = 10 ∧
    (inodeAt (imageOf scenY_grown) 0).valid = 1 ∧
    (inodeAt (imageOf scenY_grown) 0).size = 24576 ∧
    (∀ j, j < blocksFor 24576 → slotOf scenY_grown 0 j ≠ 0) ∧
    slotOf scenY_grown 0 5 = 65 ∧
    (fs_read scenY_grown 0 bufZ 1 20480).1 = -1 ∧
    (fs_read scenY_grown 0 bufZ 24576 0).1 = -1 := by
  decide!

/-- Claim C16, where it fails on the code: after two writes of one block each at offset 0
the live inode 0 has size 8192, a block in logical slot 0 and none in slot 1; reading 8192
bytes from offset 0 copies the first block (`out[0]` becomes 66) and returns -1, not
4096. -/
theorem read_at_hole_returns_error :
    (inodeAt (imageOf scenV) 0).valid = 1 ∧
    (inodeAt (imageOf scenV) 0).size = 8192 ∧
    slotOf scenV 0 0 = 2 ∧ slotOf scenV 0 1 = 0 ∧
    bufZ 0 = 0 ∧
    (fs_read scenV 0 bufZ 8192 0).2 0 = 66 ∧
    (fs_read scenV 0 bufZ 8192 0).1 = -1 := by
  decide!

theorem fs_read_zero_pointer_witness :
    scenV.disk = some (imageOf scenV) ∧
    0 < (inodeAt (imageOf scenV) 0).size ∧
    slotPtr (inodeAt (imageOf scenV) 0)
      (indirectBlock (imageOf scenV) (inodeAt (imageOf scenV) 0)) 1 = 0 ∧
    1 * BLOCK_SIZE < 0 + min 8192 ((inodeAt (imageOf scenV) 0).size - 0) ∧
    (fs_read scenV 0 bufZ 8192 0).1 = -1 :=
  ⟨disk_of_isSome _ (by decide!), by decide!, by decide!, by decide!,
    fs_read_zero_pointer scenV (imageOf scenV) 0 bufZ 8192 0 1
      (disk_of_isSome _ (by decide!)) (by decide!) (by decide!) (by decide!) (by decide!)
      (by decide) (by decide!) (Or.inl (by decide!)) (by decide)
      (by
        intro t _ ht
        have ht0 : t = 0 := by omega
        subst ht0
        decide!)⟩

/-- Claim C17, where it fails on the code: on a mounted image whose live inode 0 has size
`2^32 - 1`, a write of one byte returns 1 and `fs_stat` drops from 4294967295 to 0. -/
theorem size_wraps_around :
    (fs_mount unmountedFs ((imageOf (createdFs 10)).put 1
      (((imageOf (createdFs 10)).get 1).setInodeSize 0 4294967295))).1 = true ∧
    fs_stat scenW 0 = 4294967295 ∧
    (fs_write scenW 0 bufA 1 0).1 = 1 ∧
    fs_stat (fs_write scenW 0 bufA 1 0).2 0 = 0 := by
  decide!

theorem write_grows_size_witness :
    0 / BLOCK_SIZE % 4294967296 < 2147483648 ∧
    fs_stat (createdFs 10) 0 = ((0 : Nat) : Int) ∧
    (fs_write (createdFs 10) 0 bufHello 5 0).1 = ((5 : Nat) : Int) ∧
    fs_stat (fs_write (createdFs 10) 0 bufHello 5 0).2 0
      = (((0 + 5) % 4294967296 : Nat) : Int) ∧
    (0 + 5 < 4294967296 →
      fs_stat (createdFs 10) 0 ≤ fs_stat (fs_write (createdFs 10) 0 bufHello 5 0).2 0) :=
  ⟨by decide, by decide!, by decide!,
    write_grows_size (createdFs 10) 0 bufHello 5 0 0 5 (by decide) (by decide!) (by decide!)⟩

theorem find_free_block_first_fit_witness :
    2 < (createdFs 10).meta_data.blocks ∧ (createdFs 10).isFree 2 = true ∧
    (∀ u, u < 2 → (createdFs 10).isFree u = false) ∧
    (find_free_block (createdFs 10)).1 = ((2 : Nat) : Int) ∧
    (find_free_block (createdFs 10)).2.isFree 2 = false :=
  have h := (find_free_block_first_fit (createdFs 10)).2.1 2 (by decide!) (by decide!)
    (by decide!)
  ⟨by decide!, by decide!, by decide!, h.1, h.2.1⟩

end SimpleFS
